import Mathlib

/-!
# Grocery-list aggregation engine (`recipes/public/grocery.js`)

A shallow embedding of the pure core of the grocery page: the line splitter, the
ingredient line parser, the name normalizer, the category classifier, the quantity
aggregator and the list assembler.

Modelling conventions
* A JavaScript string is a list of characters (`Str`).
* A JavaScript number is a value of `Num`: a finite number, kept as the rational it
  stands for, an infinity, or `NaN`; a zero carries no sign. `Number(text)` and the
  operators `+` and `/` of the parser round to the nearest double, ties to even
  (`toDouble`). A quantity is an `Option ℚ`, where `none` is `null`; the quantities
  kept in the aggregation map are multiplied and added as rationals.
* A `Map` is an association list in insertion order.
* A regular expression is written out as the backtracking search that the
  ECMAScript matcher performs: greedy quantifiers, alternatives tried left to right,
  every choice point retried when the rest of the pattern fails.
-/

namespace Grocery

/-- A JavaScript string. -/
abbrev Str := List Char

/-! ## Character classes -/

/-- The class `\d`. -/
def isDigit (c : Char) : Bool := 48 ≤ c.toNat && c.toNat ≤ 57

/-- The class `[a-zA-Z]`. -/
def isLetter (c : Char) : Bool :=
  (65 ≤ c.toNat && c.toNat ≤ 90) || (97 ≤ c.toNat && c.toNat ≤ 122)

/-- Line terminators of ECMAScript: LF, CR, U+2028, U+2029. -/
def isLineTerminator (c : Char) : Bool :=
  c.toNat == 10 || c.toNat == 13 || c.toNat == 8232 || c.toNat == 8233

/-- The class `\s`, which is also what `trim` strips: white space and line terminators. -/
def isSpace (c : Char) : Bool :=
  c.toNat == 9 || c.toNat == 11 || c.toNat == 12 || c.toNat == 32 || c.toNat == 160 ||
  c.toNat == 5760 || (8192 ≤ c.toNat && c.toNat ≤ 8202) || c.toNat == 8239 ||
  c.toNat == 8287 || c.toNat == 12288 || c.toNat == 65279 || isLineTerminator c

/-- The class `.` (no `s` flag): anything but a line terminator. -/
def isDot (c : Char) : Bool := !isLineTerminator c

/-- The class `\w`, which decides `\b`. -/
def isWordChar (c : Char) : Bool := isLetter c || isDigit c || c.toNat == 95

/-! ## String primitives -/

/-- Lower-casing of one character, for ASCII text: the 26 capital letters are mapped,
every other character is left as it is. (The case mapping of characters outside ASCII
is not modelled; statements that depend on it are made for ASCII text.) -/
def lowerChar (c : Char) : Char :=
  if 65 ≤ c.toNat && c.toNat ≤ 90 then Char.ofNat (c.toNat + 32) else c

/-- `String.prototype.toLowerCase`. -/
def toLowerCase (s : Str) : Str := s.map lowerChar

/-- `String.prototype.trim`. -/
def trim (s : Str) : Str :=
  ((s.dropWhile isSpace).reverse.dropWhile isSpace).reverse

/-- Value of a run of decimal digits, most significant first. -/
def digitsValue (s : Str) : Nat :=
  s.foldl (fun n c => 10 * n + (c.toNat - 48)) 0

/-- Value of the decimal numeral with integer digits `ip` and fractional digits `fp`
(`fp` empty when there is no fractional part). -/
def numeralValue (ip fp : Str) : ℚ :=
  (digitsValue ip : ℚ) + (digitsValue fp : ℚ) / (10 : ℚ) ^ fp.length

/-- Reading of the text given to `Number`: the integer and fractional digits of an
unsigned decimal literal `ddd`, `ddd.ddd`, `ddd.` or `.ddd`, surrounded by optional
white space; the empty string has no digits at all and reads as `0`. Everything else
has no reading here (signed, exponent and radix-prefixed literals are outside the
model; the line pattern never captures one). -/
def readDecimal (s : Str) : Option (Str × Str) :=
  match (trim s).span isDigit with
  | (ip, []) => some (ip, [])
  | (ip, c :: fp) =>
    if c.toNat == 46 && fp.all isDigit && !(ip.isEmpty && fp.isEmpty) then some (ip, fp)
    else none

/-- A value of the Number type: a finite number, an infinity, or `NaN`. -/
inductive Num where
  | fin (q : ℚ)
  | posInf
  | negInf
  | nan
  deriving DecidableEq

/-- Rounding to the nearest integer, a tie going to the even one. -/
def roundHalfEven (x : ℚ) : ℤ :=
  if x - ⌊x⌋ < 1 / 2 then ⌊x⌋
  else if 1 / 2 < x - ⌊x⌋ then ⌊x⌋ + 1
  else if ⌊x⌋ % 2 = 0 then ⌊x⌋ else ⌊x⌋ + 1

/-- The exponent of the last binary place that a double keeps of a positive number:
53 significant bits, and no place below `2 ^ (-1074)`. -/
def ulpExp (q : ℚ) : ℤ := max (Int.log 2 q - 52) (-1074)

/-- The magnitude of the double nearest to a non-negative number, before the check
for overflow. -/
def roundMag (q : ℚ) : ℚ := (roundHalfEven (q / 2 ^ ulpExp q) : ℚ) * 2 ^ ulpExp q

/-- The Number value for a real number: the nearest double, ties to even, and an
infinity from `2 ^ 1024` on. -/
def toDouble (q : ℚ) : Num :=
  if 0 ≤ q then (if roundMag q < 2 ^ (1024 : ℤ) then Num.fin (roundMag q) else Num.posInf)
  else (if roundMag (-q) < 2 ^ (1024 : ℤ) then Num.fin (-roundMag (-q)) else Num.negInf)

/-- The operator `+` on two Numbers. -/
def numAdd : Num → Num → Num
  | Num.nan, _ => Num.nan
  | _, Num.nan => Num.nan
  | Num.fin x, Num.fin y => toDouble (x + y)
  | Num.posInf, Num.negInf => Num.nan
  | Num.negInf, Num.posInf => Num.nan
  | Num.posInf, _ => Num.posInf
  | _, Num.posInf => Num.posInf
  | Num.negInf, _ => Num.negInf
  | _, Num.negInf => Num.negInf

/-- The operator `/` on two Numbers. -/
def numDiv : Num → Num → Num
  | Num.nan, _ => Num.nan
  | _, Num.nan => Num.nan
  | Num.fin x, Num.fin y =>
    if y = 0 then (if x = 0 then Num.nan else if 0 < x then Num.posInf else Num.negInf)
    else toDouble (x / y)
  | Num.fin _, _ => Num.fin 0
  | Num.posInf, Num.fin y => if 0 ≤ y then Num.posInf else Num.negInf
  | Num.negInf, Num.fin y => if 0 ≤ y then Num.negInf else Num.posInf
  | _, _ => Num.nan

/-- Truthiness of a Number, as `!d` tests it: zero and `NaN` are falsy. -/
def truthy : Num → Bool
  | Num.fin q => decide (q ≠ 0)
  | Num.nan => false
  | _ => true

/-- The quantity kept for a Number, `Number.isFinite(qty) ? qty : null`. -/
def finiteOrNull : Num → Option ℚ
  | Num.fin q => some q
  | _ => none

/-- `Number(s)`: the double nearest to the value of the literal, `NaN` for a text
with no reading. -/
def jsNumber (s : Str) : Num :=
  match readDecimal s with
  | some (ip, fp) => toDouble (numeralValue ip fp)
  | none => Num.nan

/-- `String.prototype.split("/")`. -/
def splitSlash : Str → Str → List Str
  | acc, [] => [acc]
  | acc, c :: cs => if c.toNat == 47 then acc :: splitSlash [] cs else splitSlash (acc ++ [c]) cs

/-- `toNumber(token)`: `0` for an empty token, `n / d` for a token with a slash
(`NaN` when `d` is zero, `NaN` or missing), `Number(token)` otherwise. -/
def toNumber (token : Str) : Num :=
  if token = [] then Num.fin 0
  else if token.any (fun c => c.toNat == 47) then
    match splitSlash [] token with
    | n :: d :: _ =>
      if truthy (jsNumber d) then numDiv (jsNumber n) (jsNumber d) else Num.nan
    | _ => Num.nan
  else jsNumber token

/-! ## The line pattern

`/^(\d+(?:\.\d+)?|\d+\/\d+)(?:\s+(\d+\/\d+))?\s*([a-zA-Z]+)?\s*(.*)$/`
-/

/-- Greedy `X*` over a character class `p`. The continuation `k` receives the text
matched so far and the remaining input; the longest run is tried first and every
shorter one is retried when `k` fails. -/
def star {α : Type} (p : Char → Bool) (k : Str → Str → Option α) : Str → Str → Option α
  | acc, [] => k acc []
  | acc, c :: cs =>
    if p c then
      match star p k (acc ++ [c]) cs with
      | some r => some r
      | none => k acc (c :: cs)
    else k acc (c :: cs)

/-- Greedy `X+` over a character class. -/
def plus {α : Type} (p : Char → Bool) (k : Str → Str → Option α) : Str → Option α
  | [] => none
  | c :: cs => if p c then star p k [c] cs else none

/-- A single literal character. -/
def lit {α : Type} (ch : Nat) (k : Str → Option α) : Str → Option α
  | [] => none
  | c :: cs => if c.toNat == ch then k cs else none

/-- The fraction pattern `\d+\/\d+`; the continuation receives the matched text. -/
def fraction {α : Type} (k : Str → Str → Option α) (s : Str) : Option α :=
  plus isDigit (fun n r => lit 47 (fun r1 => plus isDigit (fun d r2 => k (n ++ '/' :: d) r2) r1) r) s

/-- The capture groups of a successful match; an absent group is `undefined`. -/
structure Groups where
  g1 : Str
  g2 : Option Str
  g3 : Option Str
  g4 : Str
  deriving DecidableEq

/-- The end of the pattern, `\s*(.*)$`, after the unit group. -/
def reRest (a : Str) (b u : Option Str) (s : Str) : Option Groups :=
  star isSpace (fun _ r =>
    star isDot (fun rest r1 => if r1 = [] then some ⟨a, b, u, rest⟩ else none) [] r) [] s

/-- The part `\s*([a-zA-Z]+)?\s*(.*)$`: the optional unit group is tried first and
skipped only when the match cannot be completed with it. -/
def reUnit (a : Str) (b : Option Str) (s : Str) : Option Groups :=
  star isSpace (fun _ r =>
    match plus isLetter (fun u r1 => reRest a b (some u) r1) r with
    | some g => some g
    | none => reRest a b none r) [] s

/-- The part `(?:\s+(\d+\/\d+))?` followed by the rest of the pattern. -/
def reMixed (a : Str) (s : Str) : Option Groups :=
  match plus isSpace (fun _ r => fraction (fun b r1 => reUnit a (some b) r1) r) s with
  | some g => some g
  | none => reUnit a none s

/-- First alternative of group 1, `\d+(?:\.\d+)?`. -/
def reDecimal (s : Str) : Option Groups :=
  plus isDigit (fun ip r =>
    match lit 46 (fun r1 => plus isDigit (fun fp r2 => reMixed (ip ++ '.' :: fp) r2) r1) r with
    | some g => some g
    | none => reMixed ip r) s

/-- Second alternative of group 1, `\d+\/\d+`. -/
def reFraction (s : Str) : Option Groups :=
  fraction (fun a r => reMixed a r) s

/-- The whole pattern of `parseIngredientLine`, anchored at both ends: the first
alternative of group 1 is tried before the second. -/
def lineMatch (s : Str) : Option Groups :=
  match reDecimal s with
  | some g => some g
  | none => reFraction s

/-! ## Name normalizer -/

/-- The replacement `.replace(/\([^)]*\)/g, " ")`: each `(` that has a `)` after it
is replaced, together with everything up to the first such `)`, by one space.
`inside` tells that the scan is between such a pair. -/
def replaceParens : Bool → Str → Str
  | _, [] => []
  | true, c :: cs => if c.toNat == 41 then replaceParens false cs else replaceParens true cs
  | false, c :: cs =>
    if c.toNat == 40 && cs.any (fun d => d.toNat == 41) then ' ' :: replaceParens true cs
    else c :: replaceParens false cs

/-- The replacement `.replace(/X+/g, " ")` for a character class `p`: each maximal
run of `p` becomes one space. `inRun` tells that the previous character was in `p`. -/
def replaceRuns (p : Char → Bool) : Bool → Str → Str
  | _, [] => []
  | inRun, c :: cs =>
    if p c then (if inRun then replaceRuns p true cs else ' ' :: replaceRuns p true cs)
    else c :: replaceRuns p false cs

/-- The class `[,;]`. -/
def isCommaSemi (c : Char) : Bool := c.toNat == 44 || c.toNat == 59

/-- `normalizeName(s)`. -/
def normalizeName (s : Str) : Str :=
  trim (replaceRuns isSpace false (replaceRuns isCommaSemi false (replaceParens false (toLowerCase s))))

/-! ## Ingredient line parser -/

/-- The record returned by `parseIngredientLine`. -/
structure Parsed where
  qty : Option ℚ
  unit : Str
  name : Str
  key : Str
  deriving DecidableEq

/-- `parseIngredientLine(line)`; `none` is the `null` returned for a blank line. -/
def parseIngredientLine (line : Str) : Option Parsed :=
  let original := trim line
  if original = [] then none
  else
    match lineMatch original with
    | none => some { qty := none, unit := [], name := original, key := normalizeName original }
    | some m =>
      let a := m.g1
      let b := m.g2
      let unit := toLowerCase (m.g3.getD [])
      let rest := trim m.g4
      let qb : Num :=
        match b with
        | some t => if t = [] then Num.fin 0 else toNumber t
        | none => Num.fin 0
      let qty : Num := numAdd (toNumber a) qb
      let name := if rest = [] then original else rest
      some { qty := finiteOrNull qty, unit := unit, name := name, key := normalizeName name }

/-! ## Category classifier -/

/-- Canonical form of a character under the `i` flag (no `u` flag): ASCII letters are
upper-cased; a character outside ASCII never becomes equal to an ASCII one. -/
def canonChar (c : Char) : Char :=
  if 97 ≤ c.toNat && c.toNat ≤ 122 then Char.ofNat (c.toNat - 32) else c

/-- The assertion `\b` between the previous character (if any) and the remaining input. -/
def wordBoundary (prev : Option Char) (s : Str) : Bool :=
  (match prev with
    | some c => isWordChar c
    | none => false) !=
  (match s with
    | c :: _ => isWordChar c
    | [] => false)

/-- Case-insensitive match of the keyword `kw` at the head of the input; returns the
last character consumed and the remaining input. -/
def matchWord : Str → Option Char → Str → Option (Option Char × Str)
  | [], prev, s => some (prev, s)
  | _ :: _, _, [] => none
  | k :: ks, _, c :: cs => if canonChar k = canonChar c then matchWord ks (some c) cs else none

/-- One attempt of `\b(kw1|kw2|...)\b` at a fixed position. -/
def hintAt (kws : List Str) (prev : Option Char) (s : Str) : Bool :=
  wordBoundary prev s &&
  kws.any (fun kw =>
    match matchWord kw prev s with
    | some (last, r) => wordBoundary last r
    | none => false)

/-- The call `re.test(name)` for `re = /\b(kw1|kw2|...)\b/i`: an attempt at every position. -/
def hintTest (kws : List Str) : Option Char → Str → Bool
  | prev, [] => hintAt kws prev []
  | prev, c :: cs => hintAt kws prev (c :: cs) || hintTest kws (some c) cs

/-- The table `CATEGORY_HINTS`, in source order. -/
def CATEGORY_HINTS : List (Str × List Str) :=
  [ ("Produce".toList,
      ["onion", "garlic", "tomato", "lettuce", "spinach", "pepper", "carrot", "celery",
       "broccoli", "lime", "lemon", "apple", "banana", "mushroom", "potato", "sweet potato",
       "cucumber", "avocado"].map String.toList),
    ("Meat & Seafood".toList,
      ["chicken", "beef", "pork", "turkey", "bacon", "sausage", "salmon", "tuna", "shrimp",
       "cod"].map String.toList),
    ("Dairy".toList,
      ["milk", "butter", "cheese", "yogurt", "cream", "sour cream", "parmesan", "mozzarella",
       "cheddar"].map String.toList),
    ("Pantry".toList,
      ["rice", "pasta", "flour", "sugar", "salt", "pepper", "oil", "olive oil", "vinegar",
       "soy sauce", "broth", "stock", "beans", "lentils", "tomato paste", "canned"].map
        String.toList),
    ("Spices".toList,
      ["paprika", "cumin", "chili", "oregano", "basil", "thyme", "cinnamon", "nutmeg", "garam",
       "curry"].map String.toList),
    ("Bakery".toList, ["bread", "bun", "tortilla", "pita"].map String.toList) ]

/-- `guessCategory(name)`: the label of the first hint whose pattern is found. -/
def guessCategory (name : Str) : Str :=
  match CATEGORY_HINTS.find? (fun c => hintTest c.2 none name) with
  | some c => c.1
  | none => "Other".toList

/-! ## Quantity aggregator -/

/-- A value of the aggregation map. -/
structure Entry where
  displayName : Str
  unit : Str
  qty : Option ℚ
  category : Str
  deriving DecidableEq

/-- The aggregation `Map`, keys in insertion order. -/
abbrev AggMap := List (Str × Entry)

/-- `map.get(key)`; `none` when `map.has(key)` is false. -/
def mapGet : AggMap → Str → Option Entry
  | [], _ => none
  | (k1, e) :: m, k => if k1 = k then some e else mapGet m k

/-- `map.set(key, value)`: a present key keeps its place, a new key goes last. -/
def mapSet : AggMap → Str → Entry → AggMap
  | [], k, e => [(k, e)]
  | (k1, e1) :: m, k, e => if k1 = k then (k1, e) :: m else (k1, e1) :: mapSet m k e

/-- The key under which `addToAggregate` files an item: the template literal
`${item.key}__${unit}`. -/
def aggKey (item : Parsed) : Str := item.key ++ "__".toList ++ item.unit

/-- `addToAggregate(map, item, factor)`, returning the map after the call. -/
def addToAggregate (map : AggMap) (item : Parsed) (factor : ℚ) : AggMap :=
  let qty : Option ℚ :=
    match item.qty with
    | none => none
    | some q => some (q * factor)
  let unit := item.unit
  let key := aggKey item
  match mapGet map key with
  | none =>
    mapSet map key
      { displayName := item.name, unit := unit, qty := qty, category := guessCategory item.name }
  | some existing =>
    match existing.qty, qty with
    | some x, some y => mapSet map key { existing with qty := some (x + y) }
    | _, _ => mapSet map key { existing with qty := existing.qty }

/-! ## Line splitter -/

/-- The payload `recipe.ingredients`: missing, an array of strings, or one string. -/
inductive Raw where
  | absent : Raw
  | seq : List Str → Raw
  | blob : Str → Raw

/-- The call `.split(/\r?\n|•|\u2022/)`; `acc` is the piece being read. A CR that
stands right before an LF belongs to the separator. -/
def splitLines : Str → Str → List Str
  | acc, [] => [acc]
  | acc, c :: cs =>
    if c.toNat == 10 || c.toNat == 8226 then acc :: splitLines [] cs
    else if c.toNat == 13 && (match cs with
        | d :: _ => d.toNat == 10
        | [] => false) then splitLines acc cs
    else splitLines (acc ++ [c]) cs

/-- `splitIngredients(raw)`. -/
def splitIngredients : Raw → List Str
  | Raw.absent => []
  | Raw.seq xs => xs.filter (fun s => !s.isEmpty)
  | Raw.blob s =>
    if s = [] then [] else ((splitLines [] s).map trim).filter (fun t => !t.isEmpty)

/-! ## List assembler -/

/-- A collation: the comparison that `String.prototype.localeCompare` makes. It is
the host's, and depends on its locale. -/
abbrev Collation := Str → Str → Ordering

/-- The collation that compares two strings by their character codes, the first
difference deciding. A host orders strings of lower-case ASCII letters in this way;
mixed-case text it orders otherwise (see `alphabetCompare`). -/
def localeCompare : Collation
  | [], [] => Ordering.eq
  | [], _ :: _ => Ordering.lt
  | _ :: _, [] => Ordering.gt
  | a :: as, b :: bs =>
    if a.toNat < b.toNat then Ordering.lt
    else if b.toNat < a.toNat then Ordering.gt
    else localeCompare as bs

/-- The comparator given to `sort` in `buildGroceryList`, on a host whose
`localeCompare` is `coll`. -/
def compareItemsBy (coll : Collation) (a b : Entry) : Ordering :=
  if a.category ≠ b.category then coll a.category b.category
  else coll a.displayName b.displayName

/-- `Array.from(agg.values()).sort(compare)` on a host whose `localeCompare` is
`coll`: the sort is stable. -/
def sortItemsBy (coll : Collation) (agg : AggMap) : List Entry :=
  (agg.map (fun kv => kv.2)).insertionSort
    (fun a b => compareItemsBy coll a b ≠ Ordering.gt)

/-- A collation of the kind that hosts have: texts are compared letter by letter
whatever the case, and the case decides only between texts that differ in nothing
else, lower case first. -/
def alphabetCompare : Collation := fun a b =>
  match localeCompare (toLowerCase a) (toLowerCase b) with
  | Ordering.eq => localeCompare b a
  | o => o

/-- The comparator given to `sort` in `buildGroceryList`, under the collation by
character codes. -/
def compareItems (a b : Entry) : Ordering :=
  if a.category ≠ b.category then localeCompare a.category b.category
  else localeCompare a.displayName b.displayName

/-- The test `compareItems a b ≤ 0`: `a` may stay before `b`. -/
def itemLE (a b : Entry) : Prop := compareItems a b ≠ Ordering.gt

instance : DecidableRel itemLE := fun a b => by unfold itemLE; exact inferInstance

/-- `Array.from(agg.values()).sort(compare)` under the collation by character codes:
the sort is stable. -/
def sortItems (agg : AggMap) : List Entry :=
  (agg.map (fun kv => kv.2)).insertionSort itemLE

/-- One step of the grouping loop of `renderList`: push `it` on the array of
category `c`, creating the array when the category is new. -/
def groupPush : List (Str × List Entry) → Str → Entry → List (Str × List Entry)
  | [], c, it => [(c, [it])]
  | (c1, arr) :: rest, c, it =>
    if c1 = c then (c1, arr ++ [it]) :: rest else (c1, arr) :: groupPush rest c it

/-- The map `byCat` built by `renderList` when `grouped` is set. -/
def groupByCategory (items : List Entry) : List (Str × List Entry) :=
  items.foldl
    (fun byCat it => groupPush byCat (if it.category = [] then "Other".toList else it.category) it)
    []

/-! ## The aggregation loop of `buildGroceryList` -/

/-- The inner loop: every line of one recipe is parsed and added at the recipe's
final factor; a blank line is skipped. -/
def aggregateRecipe (agg : AggMap) (ingredients : Raw) (finalFactor : ℚ) : AggMap :=
  (splitIngredients ingredients).foldl
    (fun m line =>
      match parseIngredientLine line with
      | none => m
      | some parsed => addToAggregate m parsed finalFactor)
    agg

/-- The outer loop over the recipes, each with its final factor, from a fresh map. -/
def aggregateAll (recipes : List (Raw × ℚ)) : AggMap :=
  recipes.foldl (fun m r => aggregateRecipe m r.1 r.2) []

/-- The sections that `renderList(items, true)` shows for the given recipes. -/
def groupedBuild (recipes : List (Raw × ℚ)) : List (Str × List Entry) :=
  groupByCategory (sortItems (aggregateAll recipes))

/-! ## Sequences of calls -/

/-- A sequence of `addToAggregate` calls on one map, in order: each call gives an
item and the factor of its recipe. -/
def addAll (map : AggMap) (calls : List (Parsed × ℚ)) : AggMap :=
  calls.foldl (fun m c => addToAggregate m c.1 c.2) map

/-- The first call of a sequence that files its item under the key `k`. -/
def firstFor (k : Str) (calls : List (Parsed × ℚ)) : Option (Parsed × ℚ) :=
  calls.find? (fun c => decide (aggKey c.1 = k))

/-- The section of a grouped list with the given header, if there is one. -/
def sectionOf (cat : Str) : List (Str × List Entry) → Option (List Entry)
  | [] => none
  | (c, arr) :: rest => if c = cat then some arr else sectionOf cat rest

/-! ## Shapes of input used in the statements -/

/-- The input is empty or begins with a character outside the class `p`. -/
def noHead (p : Char → Bool) : Str → Bool
  | [] => true
  | c :: _ => !p c

/-- The text of a decimal numeral: the integer digits, then a point and the
fractional digits when there are any. -/
def numeralText (ip fp : Str) : Str :=
  if fp.isEmpty then ip else ip ++ '.' :: fp

/-- A non-empty run of decimal digits. -/
def isDigits (s : Str) : Bool := !s.isEmpty && s.all isDigit

/-- A non-empty run of ASCII letters: one alphabetic word. -/
def isWord (s : Str) : Bool := !s.isEmpty && s.all isLetter

/-- The numeral `1` followed by 309 zeros, of value `10 ^ 309`: the shortest power of
ten that is not below `2 ^ 1024`. -/
def bigNumeral : Str := '1' :: List.replicate 309 '0'

/-- The decimal point. -/
def isPoint (c : Char) : Bool := c.toNat == 46

/-- The text is one line: it holds no line terminator. -/
def isOneLine (s : Str) : Bool := s.all isDot

/-! ## Scaling resolver -/

/-- `clampMultiplier(n)`; the argument `none` is a value that is not a finite number,
and `0.01` is the rational `1/100`. -/
def clampMultiplier (n : Option ℚ) : ℚ :=
  match n with
  | none => 1
  | some x => if x ≤ 0 then 1 else min (max x (1 / 100)) 100

/-- The expression `Number(v ?? 1)`: a field that is `null` or `undefined` (`none`)
reads as `1`, any other field as the number it converts to. -/
def orOne (v : Option (Option ℚ)) : Option ℚ :=
  match v with
  | none => some 1
  | some n => n

/-- The expression `v || d` for a map lookup `v`: the default `d` stands in for
`undefined` and for `0`. -/
def orDefault (v : Option ℚ) (d : ℚ) : ℚ :=
  match v with
  | none => d
  | some x => if x = 0 then d else x

/-- One meal of the meal plan: the recipe it names and its `servings` field. -/
structure Meal where
  recipe_id : Str
  servings : Option (Option ℚ)

/-- One recipe record as fetched: its id and its ingredient payload. -/
structure Recipe where
  id : Str
  ingredients : Raw

/-- The map `recipeFactorById`, keys in insertion order. -/
abbrev FactorMap := List (Str × ℚ)

/-- `recipeFactorById.get(id)`. -/
def factorGet : FactorMap → Str → Option ℚ
  | [], _ => none
  | (k1, v) :: m, k => if k1 = k then some v else factorGet m k

/-- `recipeFactorById.set(id, value)`. -/
def factorSet : FactorMap → Str → ℚ → FactorMap
  | [], k, v => [(k, v)]
  | (k1, v1) :: m, k, v => if k1 = k then (k1, v) :: m else (k1, v1) :: factorSet m k v

/-- The two statements `prev = map.get(id) || 0; map.set(id, prev + x)`. -/
def addFactor (m : FactorMap) (id : Str) (x : ℚ) : FactorMap :=
  factorSet m id (orDefault (factorGet m id) 0 + x)

/-- The map `recipeFactorById` after both loops of `buildGroceryList`: the meals
(only when meals are enabled), then the manually selected recipes, each given by its
id and its `factor` field. -/
def recipeFactors (useMeals : Bool) (meals : List Meal)
    (selected : List (Str × Option (Option ℚ))) : FactorMap :=
  let afterMeals : FactorMap :=
    if useMeals then
      meals.foldl (fun m meal => addFactor m meal.recipe_id (clampMultiplier (orOne meal.servings)))
        []
    else []
  selected.foldl (fun m r => addFactor m r.1 (clampMultiplier (orOne r.2))) afterMeals

/-- The value `finalFactor` of the aggregation loop for one fetched recipe. -/
def finalFactor (factors : FactorMap) (globalMult : ℚ) (recipe : Recipe) : ℚ :=
  orDefault (factorGet factors recipe.id) 1 * globalMult

/-- The recipes of the aggregation loop: one request per key of the factor map, in
key order; a request that fails (`none`) is dropped. -/
def buildRecipes (factors : FactorMap) (fetch : Str → Option Recipe) : List Recipe :=
  (factors.map Prod.fst).filterMap fetch

/-- The aggregation map that `buildGroceryList` fills, from the meals, the manual
selection, the value of the global multiplier field and the recipe store. -/
def buildAggregate (useMeals : Bool) (meals : List Meal)
    (selected : List (Str × Option (Option ℚ))) (multiplier : Option ℚ)
    (fetch : Str → Option Recipe) : AggMap :=
  let globalMult := clampMultiplier multiplier
  let factors := recipeFactors useMeals meals selected
  aggregateAll
    ((buildRecipes factors fetch).map (fun r => (r.ingredients, finalFactor factors globalMult r)))

/-! ## Demand for a recipe, in the words of the specification -/

/-- The meals that the build reads: none when meals are disabled. -/
def effectiveMeals (useMeals : Bool) (meals : List Meal) : List Meal :=
  if useMeals then meals else []

/-- Sum over the meal-plan occurrences of a recipe of the clamped servings. -/
def mealSum (id : Str) (meals : List Meal) : ℚ :=
  ((meals.filter (fun m => decide (m.recipe_id = id))).map
    (fun m => clampMultiplier (orOne m.servings))).sum

/-- The clamped manual factor of a recipe, `0` when it is not manually selected. -/
def manualPart (id : Str) (selected : List (Str × Option (Option ℚ))) : ℚ :=
  match selected.find? (fun r => decide (r.1 = id)) with
  | some r => clampMultiplier (orOne r.2)
  | none => 0

/-- The recipe has at least one source of demand. -/
def hasDemand (id : Str) (meals : List Meal) (selected : List (Str × Option (Option ℚ))) :
    Bool :=
  meals.any (fun m => decide (m.recipe_id = id)) || selected.any (fun r => decide (r.1 = id))

/-- Number of demand sources of a recipe: its meal occurrences and its manual
selection. -/
def demandCount (id : Str) (meals : List Meal) (selected : List (Str × Option (Option ℚ))) :
    Nat :=
  (meals.filter (fun m => decide (m.recipe_id = id))).length +
    (selected.filter (fun r => decide (r.1 = id))).length

/-! ## Whole-word occurrence, in the words of the specification -/

/-- The character right before a position: the last one of `w`, or `prev` when `w`
is empty. -/
def lastOr (prev : Option Char) (w : Str) : Option Char :=
  w.foldl (fun _ c => some c) prev

/-- The character, if there is one, is a word character. -/
def isWordOpt (o : Option Char) : Bool :=
  match o with
  | some c => isWordChar c
  | none => false

/-- A keyword that begins and ends with a word character. -/
def keywordOk (kw : Str) : Bool := !noHead isWordChar kw && !noHead isWordChar kw.reverse

/-- The keyword occurs in the name as a whole word, letter case aside: the name is
`pre ++ w ++ post` where `w` is the keyword up to the case of its letters, `pre` does not
end with a word character and `post` does not begin with one. -/
def OccursAsWord (kw name : Str) : Prop :=
  ∃ pre w post, name = pre ++ w ++ post ∧ w.map canonChar = kw.map canonChar ∧
    noHead isWordChar pre.reverse = true ∧ noHead isWordChar post = true

/-- The keywords of the rule with the given label in `CATEGORY_HINTS`. -/
def keywordsOf (label : Str) : List Str :=
  match CATEGORY_HINTS.find? (fun c => decide (c.1 = label)) with
  | some c => c.2
  | none => []

/-! ## The name normalizer, in the words of the specification -/

/-- The text holds ASCII characters only. On such text `toLowerCase` is the mapping of
the 26 capital letters that `lowerChar` models. -/
def isAscii (s : Str) : Prop := ∀ c ∈ s, c.toNat < 128

/-- The capital letters of the alphabet. -/
def capitalLetters : Str := "ABCDEFGHIJKLMNOPQRSTUVWXYZ".toList

/-- The small letters of the alphabet. -/
def smallLetters : Str := "abcdefghijklmnopqrstuvwxyz".toList

/-- Lower case of a character: a capital letter gives the small letter at its place in
the alphabet, any other character is kept. -/
def lowerRef (c : Char) : Char := ((capitalLetters.zip smallLetters).lookup c).getD c

/-- Every parenthetical substring `(...)` replaced by the text `rep`: the text up to
the first opening parenthesis is kept; when a closing parenthesis follows it,
everything from the opening one to the first closing one gives way to `rep` and the
rest is treated in the same way; when none follows, nothing is left to replace.
`fuel` bounds the number of parentheticals. -/
def parensRef (rep : Str) : Nat → Str → Str
  | 0, s => s
  | fuel + 1, s =>
    match s.span (fun c => c.toNat != 40) with
    | (pre, []) => pre
    | (pre, _ :: after) =>
      match after.span (fun c => c.toNat != 41) with
      | (_, []) => s
      | (_, _ :: rest) => pre ++ rep ++ parensRef rep fuel rest

/-- Every comma and every semicolon replaced with a space. -/
def commasToSpaces (s : Str) : Str :=
  s.map (fun c => if isCommaSemi c then ' ' else c)

/-- The words of a text: its maximal runs of characters that are not white space. -/
def wordsOf (s : Str) : List Str := (s.splitOnP isSpace).filter (fun w => !w.isEmpty)

/-- The words put one after the other with a single space between two of them: what
is left of a text when each run of white space is collapsed to one space and the
result is trimmed. -/
def joinWords (ws : List Str) : Str := [' '].intercalate ws

/-- A first piece of text and the words of the pieces after it, joined. -/
def joinAfter (h : Str) (rest : List Str) : Str :=
  h ++ (if rest.filter (fun w => !w.isEmpty) = [] then []
    else ' ' :: joinWords (rest.filter (fun w => !w.isEmpty)))

/-- The normalizer in the words of the specification, with `rep` standing in the place
of each parenthetical: lower-case, replace the parentheticals, commas and semicolons to
spaces, collapse white space and trim. The specification deletes the parentheticals
(`rep` empty); the code leaves one space. -/
def normalizeWith (rep : Str) (s : Str) : Str :=
  joinWords (wordsOf (commasToSpaces (parensRef rep s.length (s.map lowerRef))))

/-! ## Quantity formatting -/

/-- `Math.round(x)`: the nearest integer, a half going towards plus infinity. -/
def mathRound (x : ℚ) : ℤ := ⌊x + 1 / 2⌋

/-- The decimal digit `d` as a character. -/
def digitChar (d : Nat) : Char :=
  match d with
  | 0 => '0'
  | 1 => '1'
  | 2 => '2'
  | 3 => '3'
  | 4 => '4'
  | 5 => '5'
  | 6 => '6'
  | 7 => '7'
  | 8 => '8'
  | _ => '9'

/-- The decimal digits of `n`, most significant first, put before `acc`; `fuel` bounds
the number of digits. -/
def natDigitsAux : Nat → Nat → Str → Str
  | 0, _, acc => acc
  | fuel + 1, n, acc =>
    if n < 10 then digitChar n :: acc
    else natDigitsAux fuel (n / 10) (digitChar (n % 10) :: acc)

/-- The decimal numeral of a natural number. -/
def natDigits (n : Nat) : Str := natDigitsAux (n + 1) n []

/-- The operator `*` on two Numbers. -/
def numMul : Num → Num → Num
  | Num.nan, _ => Num.nan
  | _, Num.nan => Num.nan
  | Num.fin x, Num.fin y => toDouble (x * y)
  | Num.fin x, Num.posInf =>
    if x = 0 then Num.nan else if 0 < x then Num.posInf else Num.negInf
  | Num.fin x, Num.negInf =>
    if x = 0 then Num.nan else if 0 < x then Num.negInf else Num.posInf
  | Num.posInf, Num.fin y =>
    if y = 0 then Num.nan else if 0 < y then Num.posInf else Num.negInf
  | Num.negInf, Num.fin y =>
    if y = 0 then Num.nan else if 0 < y then Num.negInf else Num.posInf
  | Num.posInf, Num.posInf => Num.posInf
  | Num.negInf, Num.negInf => Num.posInf
  | Num.posInf, Num.negInf => Num.negInf
  | Num.negInf, Num.posInf => Num.negInf

/-- `Math.round` on a Number: an infinity and `NaN` are returned as they are. -/
def mathRoundNum : Num → Num
  | Num.fin x => Num.fin (mathRound x)
  | v => v

/-- The decimal `s × 10 ^ e` is read by `Number` as the double `x`. -/
def readsBack (x : ℚ) (s : ℕ) (e : ℤ) : Bool :=
  decide (toDouble ((s : ℚ) * 10 ^ e) = Num.fin x)

/-- The numbers `s` of `k` digits for which `s × 10 ^ (n - k)` is read as the double
`x`, among the two integers next to `x / 10 ^ (n - k)`: any other such number is farther
from `x` than one of these. -/
def candidates (x : ℚ) (k : ℕ) (n : ℤ) : List ℕ :=
  [⌊x / 10 ^ (n - k)⌋.toNat, ⌊x / 10 ^ (n - k)⌋.toNat + 1].filter
    (fun s => decide (10 ^ (k - 1) ≤ s) && decide (s < 10 ^ k) && readsBack x s (n - k))

/-- Of the candidates, the one for which `s × 10 ^ e` is closest to `x`, the even one
when two are equally close. -/
def closest (x : ℚ) (e : ℤ) : List ℕ → Option ℕ
  | [] => none
  | [s] => some s
  | s :: t :: _ =>
    if |(s : ℚ) * 10 ^ e - x| < |(t : ℚ) * 10 ^ e - x| then some s
    else if |(t : ℚ) * 10 ^ e - x| < |(s : ℚ) * 10 ^ e - x| then some t
    else if s % 2 = 0 then some s else some t

/-- The search of `Number::toString` for the digits of a positive double `x`: integers
`n`, `k` and `s` with `s` of `k` digits and `s × 10 ^ (n - k)` read as `x`, for the
smallest `k` that allows it, tried from `k` upwards; `n0` is the number of integer
digits of `x`, and `n` is `n0` or `n0 + 1`: a decimal read as `x` lies next to `x`, and
one on the other side of a power of ten is no shorter than that power, which has one
digit and is read as `x` as well. The result is `s` and `n`. -/
def shortestFrom (x : ℚ) (n0 : ℤ) : ℕ → ℕ → Option (ℕ × ℤ)
  | 0, _ => none
  | fuel + 1, k =>
    match closest x (n0 - k) (candidates x k n0) with
    | some s => some (s, n0)
    | none =>
      match closest x (n0 + 1 - k) (candidates x k (n0 + 1)) with
      | some s => some (s, n0 + 1)
      | none => shortestFrom x n0 fuel (k + 1)

/-- The digits of a positive double: seventeen digits are always enough. -/
def shortestDigits (x : ℚ) : Option (ℕ × ℤ) := shortestFrom x (Int.log 10 x + 1) 17 1

/-- The text that `Number::toString` makes of the digits `ds` (there are `k` of them)
and the position `n` of the decimal point: the digits and `n - k` zeros when
`k ≤ n ≤ 21`, a point after the first `n` digits when `0 < n ≤ 21`, `0.` and `-n` zeros
before the digits when `-6 < n ≤ 0`, and exponent notation otherwise. -/
def formatDigits (ds : Str) (n : ℤ) : Str :=
  if (ds.length : ℤ) ≤ n ∧ n ≤ 21 then ds ++ List.replicate (n - ds.length).toNat '0'
  else if 0 < n ∧ n ≤ 21 then ds.take n.toNat ++ '.' :: ds.drop n.toNat
  else if -6 < n ∧ n ≤ 0 then '0' :: '.' :: (List.replicate (-n).toNat '0' ++ ds)
  else
    (if ds.length = 1 then ds else ds.take 1 ++ '.' :: ds.drop 1) ++
      'e' :: (if n - 1 < 0 then '-' else '+') :: natDigits (n - 1).natAbs

/-- `String(x)` for a Number `x`. -/
def numberToString : Num → Str
  | Num.nan => "NaN".toList
  | Num.posInf => "Infinity".toList
  | Num.negInf => "-Infinity".toList
  | Num.fin x =>
    if x = 0 then ['0']
    else (if x < 0 then ['-'] else []) ++
      (match shortestDigits |x| with
       | some (s, n) => formatDigits (natDigits s) n
       | none => [])

/-- The character `0`. -/
def isZeroChar (c : Char) : Bool := c.toNat == 48

/-- The text without the zeros at its end. -/
def dropTrailingZeros (s : Str) : Str := (s.reverse.dropWhile isZeroChar).reverse

/-- The replacement `.replace(/\.0+$/, "")`: the first point that is followed by
zeros only, and at least one, up to the end is cut off together with them. -/
def stripPointZeros : Str → Str
  | [] => []
  | c :: cs =>
    if c.toNat == 46 && !cs.isEmpty && cs.all isZeroChar then [] else c :: stripPointZeros cs

/-- The text that `\d*[1-9]` takes when `cs` as a whole matches `\d*[1-9]0+$`: `cs`
without its trailing zeros, provided that there is at least one such zero and that what
is left is a non-empty run of digits. -/
def fractionMatch (cs : Str) : Option Str :=
  let t := dropTrailingZeros cs
  if t.all isDigit && !t.isEmpty && decide (t.length < cs.length) then some t else none

/-- The replacement `.replace(/(\.\d*[1-9])0+$/, "$1")`: at the first point from which
the pattern matches, the trailing zeros are dropped. -/
def stripTrailingZeros : Str → Str
  | [] => []
  | c :: cs =>
    if c.toNat == 46 then
      match fractionMatch cs with
      | some t => c :: t
      | none => c :: stripTrailingZeros cs
    else c :: stripTrailingZeros cs

/-- `formatQty(q)`: `String(Math.round(q * 100) / 100)` after the two replacements;
the product and the quotient are rounded to doubles. -/
def formatQty (q : Option ℚ) : Str :=
  match q with
  | none => []
  | some x =>
    stripTrailingZeros (stripPointZeros (numberToString
      (numDiv (mathRoundNum (numMul (Num.fin x) (Num.fin 100))) (Num.fin 100))))

/-! ## Quantity formatting, in the words of the specification -/

/-- The shortest decimal numeral of `k / 100` for an integer number of hundredths `k`:
the sign, the integer digits and, when the value is not whole, a point and one or two
fractional digits, the last of them not zero. -/
def hundredthsToString (k : ℤ) : Str :=
  (if k < 0 then ['-'] else []) ++ natDigits (k.natAbs / 100) ++
    (if k.natAbs % 100 = 0 then []
     else if k.natAbs % 10 = 0 then ['.', digitChar (k.natAbs % 100 / 10)]
     else ['.', digitChar (k.natAbs % 100 / 10), digitChar (k.natAbs % 10)])

/-- The numeral of `k / 100` with exactly two decimal places. -/
def twoDecimals (k : Nat) : Str :=
  natDigits (k / 100) ++ ['.', digitChar (k % 100 / 10), digitChar (k % 10)]

/-- Trailing fractional zeros stripped, and then a bare decimal point. -/
def stripFraction (s : Str) : Str :=
  let t := dropTrailingZeros s
  if t.getLast? = some '.' then t.dropLast else t

/-! ## Rendering -/

/-- The key under which the grouping loop of `renderList` files an item:
`it.category || "Other"`. -/
def sectionKey (it : Entry) : Str :=
  if it.category = [] then "Other".toList else it.category

/-- What `renderList(items, grouped)` shows, as sections of items in page order, each
with its header: nothing but a notice when there are no items, one list without header
when `grouped` is off, else one section per key of `byCat` in the order of the keys. -/
def renderList (items : List Entry) (grouped : Bool) : List (Option Str × List Entry) :=
  if items.isEmpty then []
  else if !grouped then [(none, items)]
  else (groupByCategory items).map (fun s => (some s.1, s.2))

/-! ## Order and grouping, in the words of the specification -/

/-- Lexicographic order of two strings, character code by character code. -/
def lexLT (a b : Str) : Prop :=
  List.Lex (fun x y : Nat => x < y) (a.map Char.toNat) (b.map Char.toNat)

/-- The order of the output: by category label, and by display name among entries of
one category. -/
def orderedBefore (a b : Entry) : Prop :=
  lexLT a.category b.category ∨
    (a.category = b.category ∧ (lexLT a.displayName b.displayName ∨ a.displayName = b.displayName))

/-- What ECMAScript asks of `localeCompare`: a consistent comparison, which makes the
strings a total preorder. -/
structure Consistent (coll : Collation) : Prop where
  same : ∀ a, coll a a = Ordering.eq
  flip : ∀ a b, coll b a = (coll a b).swap
  chain : ∀ a b c, coll a b ≠ Ordering.gt → coll b c ≠ Ordering.gt → coll a c ≠ Ordering.gt

/-- The category labels that `guessCategory` can return. -/
def categoryLabels : List Str := CATEGORY_HINTS.map (fun c => c.1) ++ ["Other".toList]

/-- The collation tells the strings of a list apart: it finds no two different ones
equal. -/
def Separates (coll : Collation) (l : List Str) : Prop :=
  ∀ x ∈ l, ∀ y ∈ l, coll x y = Ordering.eq → x = y

/-- The order of the output under a collation: by category label, and by display name
among entries of one category. -/
def orderedBeforeBy (coll : Collation) (a b : Entry) : Prop :=
  coll a.category b.category = Ordering.lt ∨
    (a.category = b.category ∧ coll a.displayName b.displayName ≠ Ordering.gt)

/-- The distinct elements of a list, in the order in which they first appear. -/
def firstAppearances (l : List Str) : List Str :=
  l.foldl (fun acc c => if c ∈ acc then acc else acc ++ [c]) []

/-! ## The line splitter, in the words of the specification -/

/-- A character on which a string is split by itself: LF or the bullet U+2022. -/
def isBreak (c : Char) : Bool := c.toNat == 10 || c.toNat == 8226

/-- The string without the CR of each CRLF. -/
def dropCR : Str → Str
  | [] => []
  | c :: cs =>
    if c.toNat == 13 && (match cs with
        | d :: _ => d.toNat == 10
        | [] => false) then dropCR cs
    else c :: dropCR cs

/-- The pieces of a string split on CRLF, LF or the bullet, in order. -/
def splitPieces (s : Str) : List Str := (dropCR s).splitOnP isBreak

/-- The pieces, each trimmed, the empty ones dropped. -/
def splitReference (s : Str) : List Str :=
  ((splitPieces s).map trim).filter (fun t => !t.isEmpty)

/-! ## Normal forms of names -/

/-- A lower-case ASCII letter. -/
def isLower (c : Char) : Bool := 97 ≤ c.toNat && c.toNat ≤ 122

/-- No opening parenthesis of the text has a closing one after it. -/
def noPair : Str → Bool
  | [] => true
  | c :: cs => !(c.toNat == 40 && cs.any (fun d => d.toNat == 41)) && noPair cs

/-- Every white-space character of the text is a single space that does not follow
another white-space character; `inRun` tells that the text follows one. -/
def spaced : Bool → Str → Bool
  | _, [] => true
  | inRun, c :: cs =>
    if isSpace c then c.toNat == 32 && !inRun && spaced true cs else spaced false cs

/-- The text is a fixed point of every step of `normalizeName`. -/
def isNormalized (t : Str) : Prop :=
  toLowerCase t = t ∧ noPair t = true ∧ (∀ c ∈ t, isCommaSemi c = false) ∧
    spaced false t = true ∧ trim t = t

/-- The unit group of a match, when it took part, holds letters only. -/
def unitLetters (g : Groups) : Prop := ∀ u, g.g3 = some u → ∀ c ∈ u, isLetter c = true

/-! ## Totals, in the words of the specification -/

/-- The sum of quantity times factor over the calls that file under the key `k`; a
`null` quantity counts as nothing. -/
def keySum (k : Str) (calls : List (Parsed × ℚ)) : ℚ :=
  ((calls.filter (fun c => decide (aggKey c.1 = k))).map
    (fun c => c.1.qty.getD 0 * c.2)).sum

/-- The quantity stored under the key `k`: `none` when the key is absent, `some none`
for a `null` quantity. -/
def qtyAt (m : AggMap) (k : Str) : Option (Option ℚ) :=
  (mapGet m k).map (fun e => e.qty)

/-! ## Character classes are disjoint -/

theorem isSpace_of_isLetter {c : Char} (h : isLetter c = true) : isSpace c = false := by
  simp only [isLetter, isSpace, isLineTerminator, Bool.or_eq_true, Bool.and_eq_true,
    decide_eq_true_eq, beq_iff_eq, Bool.or_eq_false_iff, Bool.and_eq_false_imp,
    beq_eq_false_iff_ne, decide_eq_false_iff_not] at *
  omega

theorem isDigit_of_isLetter {c : Char} (h : isLetter c = true) : isDigit c = false := by
  simp only [isLetter, isDigit, Bool.or_eq_true, Bool.and_eq_true,
    decide_eq_true_eq, Bool.and_eq_false_imp, decide_eq_false_iff_not] at *
  omega

theorem isSpace_of_isDigit {c : Char} (h : isDigit c = true) : isSpace c = false := by
  simp only [isDigit, isSpace, isLineTerminator, Bool.or_eq_true, Bool.and_eq_true,
    decide_eq_true_eq, beq_iff_eq, Bool.or_eq_false_iff, Bool.and_eq_false_imp,
    beq_eq_false_iff_ne, decide_eq_false_iff_not] at *
  omega

theorem isLetter_of_isDigit {c : Char} (h : isDigit c = true) : isLetter c = false := by
  cases hl : isLetter c
  · rfl
  · rw [isDigit_of_isLetter hl] at h; cases h

theorem isDigit_of_isSpace {c : Char} (h : isSpace c = true) : isDigit c = false := by
  cases hd : isDigit c
  · rfl
  · rw [isSpace_of_isDigit hd] at h; cases h

theorem isLetter_of_isSpace {c : Char} (h : isSpace c = true) : isLetter c = false := by
  cases hl : isLetter c
  · rfl
  · rw [isSpace_of_isLetter hl] at h; cases h

theorem toNat_of_isDigit {c : Char} (h : isDigit c = true) :
    (c.toNat == 46) = false ∧ (c.toNat == 47) = false := by
  simp only [isDigit, Bool.and_eq_true, decide_eq_true_eq, beq_eq_false_iff_ne] at *
  omega

/-! ## The greedy branch of the quantifiers -/

theorem star_greedy {α : Type} (p : Char → Bool) (k : Str → Str → Option α) (ws : Str) :
    ∀ (acc r : Str) (res : α), (∀ c ∈ ws, p c = true) → noHead p r = true →
      k (acc ++ ws) r = some res → star p k acc (ws ++ r) = some res := by
  induction ws with
  | nil =>
    intro acc r res _ hr hk
    cases r with
    | nil => simpa [star] using hk
    | cons c cs =>
      simp only [noHead, Bool.not_eq_true'] at hr
      simpa [star, hr] using hk
  | cons w ws ih =>
    intro acc r res hws hr hk
    have hw : p w = true := hws w (by simp)
    have h := ih (acc ++ [w]) r res (fun c hc => hws c (by simp [hc])) hr (by simpa using hk)
    simp [star, hw, h]

theorem plus_greedy {α : Type} (p : Char → Bool) (k : Str → Str → Option α) (ws r : Str)
    (res : α) (hne : ws ≠ []) (hws : ∀ c ∈ ws, p c = true) (hr : noHead p r = true)
    (hk : k ws r = some res) : plus p k (ws ++ r) = some res := by
  cases ws with
  | nil => exact absurd rfl hne
  | cons w ws =>
    have hw : p w = true := hws w (by simp)
    have h := star_greedy p k ws [w] r res (fun c hc => hws c (by simp [hc])) hr (by simpa using hk)
    simp [plus, hw, h]

theorem plus_none {α : Type} (p : Char → Bool) (k : Str → Str → Option α) (r : Str)
    (hr : noHead p r = true) : plus p k r = none := by
  cases r with
  | nil => rfl
  | cons c cs =>
    simp only [noHead, Bool.not_eq_true'] at hr
    simp [plus, hr]

theorem star_none {α : Type} (p q : Char → Bool) (k : Str → Str → Option α)
    (hpq : ∀ c, p c = true → q c = false)
    (hk : ∀ a s, noHead q s = true → k a s = none) (ws : Str) :
    ∀ (acc r : Str), (∀ c ∈ ws, p c = true) → noHead p r = true → noHead q r = true →
      star p k acc (ws ++ r) = none := by
  induction ws with
  | nil =>
    intro acc r _ hr hq
    cases r with
    | nil => simpa [star] using hk acc [] rfl
    | cons c cs =>
      have hc : p c = false := by simpa [noHead] using hr
      simpa [star, hc] using hk acc (c :: cs) hq
  | cons w ws ih =>
    intro acc r hws hr hq
    have hw : p w = true := hws w (by simp)
    have h := ih (acc ++ [w]) r (fun c hc => hws c (by simp [hc])) hr hq
    have h2 : k acc (w :: (ws ++ r)) = none := hk acc _ (by simp [noHead, hpq w hw])
    simp [star, hw, h, h2]

/-! ## Shapes of input -/

theorem isWord_spec {s : Str} (h : isWord s = true) : s ≠ [] ∧ ∀ c ∈ s, isLetter c = true := by
  cases s with
  | nil => simp [isWord] at h
  | cons c cs => simpa [isWord] using h

theorem isDigits_spec {s : Str} (h : isDigits s = true) : s ≠ [] ∧ ∀ c ∈ s, isDigit c = true := by
  cases s with
  | nil => simp [isDigits] at h
  | cons c cs => simpa [isDigits] using h

theorem noHead_append {p q : Char → Bool} {s : Str} (r : Str) (hs : s ≠ [])
    (h : ∀ c ∈ s, q c = true) (hqp : ∀ c, q c = true → p c = false) :
    noHead p (s ++ r) = true := by
  cases s with
  | nil => exact absurd rfl hs
  | cons c cs => simp [noHead, hqp c (h c (by simp))]

theorem isPoint_of_isSpace {c : Char} (h : isSpace c = true) : isPoint c = false := by
  simp only [isPoint, isSpace, isLineTerminator, Bool.or_eq_true, Bool.and_eq_true,
    decide_eq_true_eq, beq_iff_eq, beq_eq_false_iff_ne] at *
  omega

theorem isPoint_of_isLetter {c : Char} (h : isLetter c = true) : isPoint c = false := by
  simp only [isPoint, isLetter, Bool.or_eq_true, Bool.and_eq_true,
    decide_eq_true_eq, beq_eq_false_iff_ne] at *
  omega

/-! ## The pattern on well-shaped input, stage by stage -/

theorem reRest_eq (a : Str) (b u : Option Str) (ws N : Str)
    (hws : ∀ c ∈ ws, isSpace c = true) (hN : noHead isSpace N = true)
    (hline : isOneLine N = true) :
    reRest a b u (ws ++ N) = some ⟨a, b, u, N⟩ := by
  unfold reRest
  apply star_greedy isSpace _ ws [] N _ hws hN
  have h := star_greedy isDot
    (fun rest r1 => if r1 = [] then some (⟨a, b, u, rest⟩ : Groups) else none) N [] []
    ⟨a, b, u, N⟩ (by simpa [isOneLine] using hline) rfl (by simp)
  simpa using h

theorem reUnit_word (a : Str) (b : Option Str) (ws1 U ws2 N : Str)
    (h1 : ∀ c ∈ ws1, isSpace c = true) (hU : isWord U = true)
    (h2 : ∀ c ∈ ws2, isSpace c = true) (hN : noHead isSpace N = true)
    (hline : isOneLine N = true) (hsep : noHead isLetter (ws2 ++ N) = true) :
    reUnit a b (ws1 ++ (U ++ (ws2 ++ N))) = some ⟨a, b, some U, N⟩ := by
  obtain ⟨hne, hl⟩ := isWord_spec hU
  unfold reUnit
  apply star_greedy isSpace _ ws1 [] _ _ h1
    (noHead_append _ hne hl (fun c hc => isSpace_of_isLetter hc))
  have h := plus_greedy isLetter (fun u r1 => reRest a b (some u) r1) U (ws2 ++ N)
    ⟨a, b, some U, N⟩ hne hl hsep (reRest_eq a b (some U) ws2 N h2 hN hline)
  simp [h]

theorem reUnit_bare (a : Str) (b : Option Str) (ws N : Str)
    (hws : ∀ c ∈ ws, isSpace c = true) (hN : noHead isSpace N = true)
    (hline : isOneLine N = true) (hl : noHead isLetter N = true) :
    reUnit a b (ws ++ N) = some ⟨a, b, none, N⟩ := by
  unfold reUnit
  apply star_greedy isSpace _ ws [] N _ hws hN
  have h := plus_none isLetter (fun u r1 => reRest a b (some u) r1) N hl
  have h3 := reRest_eq a b none [] N (by simp) hN hline
  simp only [List.nil_append] at h3
  simp [h, h3]

theorem reMixed_skip (a ws r : Str) (hws : ∀ c ∈ ws, isSpace c = true)
    (hr : noHead isSpace r = true) (hd : noHead isDigit r = true) :
    reMixed a (ws ++ r) = reUnit a none (ws ++ r) := by
  have hk : ∀ (x s : Str), noHead isDigit s = true →
      (fun (_ : Str) r0 => fraction (fun b r1 => reUnit a (some b) r1) r0) x s = none := by
    intro x s hs
    exact plus_none isDigit _ s hs
  have hnone : plus isSpace (fun _ r0 => fraction (fun b r1 => reUnit a (some b) r1) r0)
      (ws ++ r) = none := by
    cases ws with
    | nil => exact plus_none isSpace _ r hr
    | cons w ws =>
      have hw : isSpace w = true := hws w (by simp)
      have h := star_none isSpace isDigit _ (fun c hc => isDigit_of_isSpace hc) hk ws [w] r
        (fun c hc => hws c (by simp [hc])) hr hd
      simp [plus, hw, h]
  simp [reMixed, hnone]

theorem reMixed_frac (a ws n d r : Str) (g : Groups) (hne : ws ≠ [])
    (hws : ∀ c ∈ ws, isSpace c = true) (hn : isDigits n = true) (hd : isDigits d = true)
    (hr : noHead isDigit r = true) (hg : reUnit a (some (n ++ '/' :: d)) r = some g) :
    reMixed a (ws ++ (n ++ '/' :: (d ++ r))) = some g := by
  obtain ⟨hnne, hnd⟩ := isDigits_spec hn
  obtain ⟨hdne, hdd⟩ := isDigits_spec hd
  have h3 : plus isDigit (fun d0 r2 => reUnit a (some (n ++ '/' :: d0)) r2) (d ++ r) = some g :=
    plus_greedy isDigit _ d r g hdne hdd hr hg
  have h2 : fraction (fun b r1 => reUnit a (some b) r1) (n ++ '/' :: (d ++ r)) = some g := by
    unfold fraction
    apply plus_greedy isDigit _ n _ g hnne hnd (by simp [noHead, isDigit])
    simpa [lit] using h3
  have h1 := plus_greedy isSpace (fun _ r0 => fraction (fun b r1 => reUnit a (some b) r1) r0)
    ws (n ++ '/' :: (d ++ r)) g hne hws
    (noHead_append _ hnne hnd (fun c hc => isSpace_of_isDigit hc)) h2
  simp [reMixed, h1]

theorem reDecimal_numeral (ip fp r : Str) (g : Groups) (hip : isDigits ip = true)
    (hfp : fp.all isDigit = true) (hr : noHead isDigit r = true)
    (hp : noHead isPoint r = true) (hg : reMixed (numeralText ip fp) r = some g) :
    reDecimal (numeralText ip fp ++ r) = some g := by
  obtain ⟨hne, hd⟩ := isDigits_spec hip
  cases fp with
  | nil =>
    simp only [numeralText, List.isEmpty_nil, if_true] at hg ⊢
    unfold reDecimal
    apply plus_greedy isDigit _ ip r g hne hd hr
    have hl : lit 46 (fun r1 => plus isDigit (fun fp r2 => reMixed (ip ++ '.' :: fp) r2) r1) r
        = none := by
      cases r with
      | nil => rfl
      | cons c cs =>
        have hc : (c.toNat == 46) = false := by simpa [noHead, isPoint] using hp
        simp [lit, hc]
    simp [hl, hg]
  | cons f fs =>
    have hfd : ∀ c ∈ f :: fs, isDigit c = true := by simpa using hfp
    simp only [numeralText, List.isEmpty_cons, Bool.false_eq_true, if_false] at hg ⊢
    unfold reDecimal
    have h3 : plus isDigit (fun fp r2 => reMixed (ip ++ '.' :: fp) r2) ((f :: fs) ++ r) = some g :=
      plus_greedy isDigit _ (f :: fs) r g (by simp) hfd hr hg
    have h := plus_greedy isDigit
      (fun ip0 r0 =>
        match lit 46 (fun r1 => plus isDigit (fun fp r2 => reMixed (ip0 ++ '.' :: fp) r2) r1) r0 with
        | some g => some g
        | none => reMixed ip0 r0) ip ('.' :: ((f :: fs) ++ r)) g hne hd (by simp [noHead, isDigit])
      (by
        have h4 : plus isDigit (fun fp r2 => reMixed (ip ++ '.' :: fp) r2) (f :: (fs ++ r))
            = some g := by simpa using h3
        simp only [lit]
        simp [h4])
    simpa using h

theorem lineMatch_of_reDecimal {s : Str} {g : Groups} (h : reDecimal s = some g) :
    lineMatch s = some g := by
  simp [lineMatch, h]

/-! ## Trimming -/

theorem dropWhile_of_noHead {p : Char → Bool} {s : Str} (h : noHead p s = true) :
    s.dropWhile p = s := by
  cases s with
  | nil => rfl
  | cons c cs =>
    have hc : p c = false := by simpa [noHead] using h
    simp [List.dropWhile, hc]

theorem noHead_of_dropWhile {p : Char → Bool} {s : Str} (h : s.dropWhile p = s) :
    noHead p s = true := by
  cases s with
  | nil => rfl
  | cons c cs =>
    cases hc : p c with
    | false => simp [noHead, hc]
    | true =>
      have h1 : (c :: cs).dropWhile p = cs.dropWhile p := by simp [List.dropWhile, hc]
      have h2 := (List.dropWhile_suffix (l := cs) p).length_le
      rw [h1] at h
      rw [h] at h2
      simp at h2

theorem trim_eq_self {s : Str} (h1 : noHead isSpace s = true)
    (h2 : noHead isSpace s.reverse = true) : trim s = s := by
  simp [trim, dropWhile_of_noHead h1, dropWhile_of_noHead h2]

theorem noHead_of_trim {s : Str} (h : trim s = s) :
    noHead isSpace s = true ∧ noHead isSpace s.reverse = true := by
  have hsuf1 := List.dropWhile_suffix (l := s) isSpace
  have hsuf2 := List.dropWhile_suffix (l := (s.dropWhile isSpace).reverse) isSpace
  have hlen : (trim s).length ≤ (s.dropWhile isSpace).length := by
    have := hsuf2.length_le
    simpa [trim] using this
  rw [h] at hlen
  have heq : s.dropWhile isSpace = s := hsuf1.eq_of_length_le hlen
  refine ⟨noHead_of_dropWhile heq, noHead_of_dropWhile ?_⟩
  have h3 : ((s.reverse).dropWhile isSpace).reverse = s := by
    have := h
    simp only [trim, heq] at this
    exact this
  have h4 := congrArg List.reverse h3
  simpa using h4

theorem noHead_reverse_append {p : Char → Bool} (pre : Str) {s : Str} (hs : s ≠ [])
    (h : noHead p s.reverse = true) : noHead p (pre ++ s).reverse = true := by
  rw [List.reverse_append]
  cases hr : s.reverse with
  | nil => exact absurd (List.reverse_eq_nil_iff.mp hr) hs
  | cons c cs =>
    rw [hr] at h
    simpa [noHead] using h

theorem noHead_reverse_of_all {p q : Char → Bool} {s : Str} (hs : s ≠ [])
    (h : ∀ c ∈ s, q c = true) (hqp : ∀ c, q c = true → p c = false) :
    noHead p s.reverse = true := by
  cases hr : s.reverse with
  | nil => exact absurd (List.reverse_eq_nil_iff.mp hr) hs
  | cons c cs =>
    have hc : c ∈ s := by
      have : c ∈ s.reverse := by rw [hr]; simp
      simpa using this
    simp [noHead, hqp c (h c hc)]

theorem trim_append_spaces {s ws : Str} (hs : trim s = s) (hne : s ≠ [])
    (hws : ∀ c ∈ ws, isSpace c = true) : trim (s ++ ws) = s := by
  obtain ⟨h1, h2⟩ := noHead_of_trim hs
  have ha : noHead isSpace (s ++ ws) = true := by
    cases s with
    | nil => exact absurd rfl hne
    | cons c cs => simpa [noHead] using h1
  have hb : (ws.reverse ++ s.reverse).dropWhile isSpace = s.reverse := by
    rw [List.dropWhile_append_of_pos (by simpa using hws)]
    exact dropWhile_of_noHead h2
  simp [trim, dropWhile_of_noHead ha, hb]

/-! ## Doubles -/

theorem roundHalfEven_int (k : ℤ) : roundHalfEven (k : ℚ) = k := by
  simp [roundHalfEven]

theorem ulpExp_le {q : ℚ} {m : ℕ} {e : ℤ} (hq : q = m * 2 ^ e) (hm : m < 2 ^ 53)
    (hm0 : 0 < m) (he : -1074 ≤ e) : ulpExp q ≤ e := by
  unfold ulpExp
  apply max_le _ he
  have hqpos : 0 < q := by rw [hq]; positivity
  have h2 : q < (2 : ℚ) ^ (e + 53) := by
    rw [hq, zpow_add₀ (by norm_num : (2 : ℚ) ≠ 0), mul_comm]
    apply mul_lt_mul_of_pos_left _ (by positivity)
    exact_mod_cast hm
  have := (Int.lt_zpow_iff_log_lt (b := 2) (by norm_num) hqpos).mp (by exact_mod_cast h2)
  omega

theorem roundMag_of_double {q : ℚ} {m : ℕ} {e : ℤ} (hq : q = m * 2 ^ e) (hm : m < 2 ^ 53)
    (he : -1074 ≤ e) : roundMag q = q := by
  rcases Nat.eq_zero_or_pos m with h0 | h0
  · subst h0
    simp at hq
    subst hq
    simp [roundMag, roundHalfEven]
  · have hle := ulpExp_le hq hm h0 he
    unfold roundMag
    generalize ulpExp q = E at hle ⊢
    obtain ⟨d, hd⟩ : ∃ d : ℕ, e = E + d := ⟨(e - E).toNat, by omega⟩
    have hE : (2 : ℚ) ^ E ≠ 0 := by positivity
    have hx : q / 2 ^ E = ((m * 2 ^ d : ℕ) : ℤ) := by
      rw [hq, hd, zpow_add₀ (by norm_num : (2 : ℚ) ≠ 0)]
      push_cast
      field_simp
      ring
    rw [hx, roundHalfEven_int, ← hx]
    field_simp

theorem toDouble_of_double {q : ℚ} {m : ℕ} {e : ℤ} (hq : q = m * 2 ^ e) (hm : m < 2 ^ 53)
    (he : -1074 ≤ e) (hlt : q < 2 ^ (1024 : ℤ)) : toDouble q = Num.fin q := by
  have h0 : 0 ≤ q := by
    rw [hq]; exact mul_nonneg (Nat.cast_nonneg m) (zpow_nonneg (by norm_num) e)
  rw [toDouble, if_pos h0, roundMag_of_double hq hm he, if_pos hlt]

theorem toDouble_nat (n : ℕ) (h : n < 2 ^ 53) : toDouble n = Num.fin n := by
  have hq : (n : ℚ) = (n : ℚ) * 2 ^ (0 : ℤ) := by rw [zpow_zero, mul_one]
  apply toDouble_of_double hq h (by omega)
  have h1 : (n : ℚ) < 2 ^ 53 := by exact_mod_cast h
  have h2 : (2 : ℚ) ^ (53 : ℤ) < 2 ^ (1024 : ℤ) := zpow_lt_zpow_right₀ (by norm_num) (by norm_num)
  exact lt_trans (by exact_mod_cast h1) h2

theorem floor_le_roundHalfEven (x : ℚ) : ⌊x⌋ ≤ roundHalfEven x := by
  unfold roundHalfEven
  split_ifs <;> omega

theorem toDouble_overflow {q : ℚ} (h : 2 ^ (1024 : ℤ) ≤ q) : toDouble q = Num.posInf := by
  have hq : 0 < q := lt_of_lt_of_le (by positivity) h
  have hlog : (1024 : ℤ) ≤ Int.log 2 q :=
    (Int.zpow_le_iff_le_log (b := 2) (by norm_num) hq).mp (by exact_mod_cast h)
  have he : ulpExp q = Int.log 2 q - 52 := by unfold ulpExp; omega
  have hx : (2 : ℚ) ^ (52 : ℤ) ≤ q / 2 ^ ulpExp q := by
    rw [le_div_iff₀ (by positivity), ← zpow_add₀ (by norm_num : (2 : ℚ) ≠ 0), he]
    have := Int.zpow_log_le_self (b := 2) (r := q) (by norm_num) hq
    simpa using this
  have hfl : ((2 : ℤ) ^ 52 : ℤ) ≤ ⌊q / 2 ^ ulpExp q⌋ := by
    rw [Int.le_floor]
    exact_mod_cast hx
  have hr : ((2 : ℤ) ^ 52 : ℤ) ≤ roundHalfEven (q / 2 ^ ulpExp q) :=
    le_trans hfl (floor_le_roundHalfEven _)
  have hmag : (2 : ℚ) ^ (1024 : ℤ) ≤ roundMag q := by
    unfold roundMag
    have h1 : ((2 : ℚ) ^ (52 : ℤ)) * 2 ^ ulpExp q ≤
        (roundHalfEven (q / 2 ^ ulpExp q) : ℚ) * 2 ^ ulpExp q := by
      apply mul_le_mul_of_nonneg_right _ (by positivity)
      exact_mod_cast hr
    refine le_trans ?_ h1
    rw [← zpow_add₀ (by norm_num : (2 : ℚ) ≠ 0), he]
    have h1024 : (1024 : ℤ) ≤ 52 + (Int.log 2 q - 52) := by omega
    exact zpow_le_zpow_right₀ (by norm_num) h1024
  rw [toDouble, if_pos hq.le]
  split_ifs with hh
  · exact absurd hh (not_lt.mpr hmag)
  · rfl

theorem roundHalfEven_le (x : ℚ) : roundHalfEven x ≤ ⌊x⌋ + 1 := by
  unfold roundHalfEven
  split_ifs <;> omega

theorem roundHalfEven_nonneg {x : ℚ} (h : 0 ≤ x) : 0 ≤ roundHalfEven x :=
  le_trans (Int.floor_nonneg.mpr h) (floor_le_roundHalfEven x)

theorem ulpExp_ge (q : ℚ) : -1074 ≤ ulpExp q := le_max_right _ _

theorem scaled_lt (q : ℚ) : q / 2 ^ ulpExp q < 2 ^ (53 : ℤ) := by
  rw [div_lt_iff₀ (by positivity), ← zpow_add₀ (by norm_num : (2 : ℚ) ≠ 0)]
  have h1 := Int.lt_zpow_succ_log_self (b := 2) (by norm_num) q
  have h2 : (2 : ℚ) ^ (Int.log 2 q + 1) ≤ 2 ^ (53 + ulpExp q) := by
    apply zpow_le_zpow_right₀ (by norm_num)
    have : Int.log 2 q - 52 ≤ ulpExp q := le_max_left _ _
    omega
  exact lt_of_lt_of_le (by exact_mod_cast h1) h2

theorem roundMag_double {q : ℚ} (hq : 0 ≤ q) :
    ∃ (m : ℕ) (e : ℤ), roundMag q = m * 2 ^ e ∧ m < 2 ^ 53 ∧ -1074 ≤ e := by
  rcases eq_or_lt_of_le hq with h0 | hpos
  · refine ⟨0, 0, ?_, by norm_num, by norm_num⟩
    rw [← h0]
    simp [roundMag, roundHalfEven]
  · have hx := scaled_lt q
    have hx0 : 0 ≤ q / 2 ^ ulpExp q := by positivity
    have hM0 := roundHalfEven_nonneg hx0
    have hfl : ⌊q / 2 ^ ulpExp q⌋ < 2 ^ 53 := by
      rw [Int.floor_lt]
      exact_mod_cast hx
    have hM := roundHalfEven_le (q / 2 ^ ulpExp q)
    generalize hMdef : roundHalfEven (q / 2 ^ ulpExp q) = M at hM0 hM
    have hmag : roundMag q = (M : ℚ) * 2 ^ ulpExp q := by rw [roundMag, hMdef]
    rcases lt_or_eq_of_le (show M ≤ 2 ^ 53 by omega) with hlt | heq
    · refine ⟨M.toNat, ulpExp q, ?_, ?_, ulpExp_ge q⟩
      · rw [hmag]
        congr 1
        have : ((M.toNat : ℤ) : ℚ) = (M : ℚ) := by rw [Int.toNat_of_nonneg hM0]
        exact_mod_cast this.symm
      · omega
    · refine ⟨2 ^ 52, ulpExp q + 1, ?_, by norm_num, by have := ulpExp_ge q; omega⟩
      rw [hmag, heq, zpow_add₀ (by norm_num : (2 : ℚ) ≠ 0)]
      push_cast
      ring

theorem toDouble_idem {q x : ℚ} (hq : 0 ≤ q) (h : toDouble q = Num.fin x) :
    toDouble x = Num.fin x := by
  rw [toDouble, if_pos hq] at h
  split_ifs at h with hlt
  have hx : roundMag q = x := by injection h
  obtain ⟨m, e, hme, hm, he⟩ := roundMag_double hq
  rw [hx] at hme hlt
  exact toDouble_of_double hme hm he hlt

theorem toDouble_nonneg {q x : ℚ} (hq : 0 ≤ q) (h : toDouble q = Num.fin x) : 0 ≤ x := by
  rw [toDouble, if_pos hq] at h
  split_ifs at h with hlt
  have hx : roundMag q = x := by injection h
  rw [← hx]
  unfold roundMag
  have hx0 : 0 ≤ q / 2 ^ ulpExp q := by positivity
  have := roundHalfEven_nonneg hx0
  have h2 : (0 : ℚ) ≤ (roundHalfEven (q / 2 ^ ulpExp q) : ℚ) := by exact_mod_cast this
  positivity

theorem toDouble_cases {q : ℚ} (hq : 0 ≤ q) :
    (∃ x, toDouble q = Num.fin x) ∨ toDouble q = Num.posInf := by
  rw [toDouble, if_pos hq]
  split_ifs
  · exact Or.inl ⟨_, rfl⟩
  · exact Or.inr rfl

theorem numAdd_zero {q : ℚ} (hq : 0 ≤ q) : numAdd (toDouble q) (Num.fin 0) = toDouble q := by
  rcases toDouble_cases hq with ⟨x, hx⟩ | hinf
  · rw [hx, numAdd, add_zero, toDouble_idem hq hx]
  · rw [hinf]; rfl

theorem one_le_roundMag {q : ℚ} (h : 1 ≤ q) : 1 ≤ roundMag q := by
  have hq : 0 < q := lt_of_lt_of_le one_pos h
  have hlog : (0 : ℤ) ≤ Int.log 2 q :=
    (Int.zpow_le_iff_le_log (b := 2) (by norm_num) hq).mp (by simpa using h)
  have he : ulpExp q = Int.log 2 q - 52 := by unfold ulpExp; omega
  have hx : (2 : ℚ) ^ (52 : ℤ) ≤ q / 2 ^ ulpExp q := by
    rw [le_div_iff₀ (by positivity), ← zpow_add₀ (by norm_num : (2 : ℚ) ≠ 0), he]
    have := Int.zpow_log_le_self (b := 2) (r := q) (by norm_num) hq
    simpa using this
  have hfl : ((2 : ℤ) ^ 52 : ℤ) ≤ ⌊q / 2 ^ ulpExp q⌋ := by
    rw [Int.le_floor]
    exact_mod_cast hx
  have hr : ((2 : ℤ) ^ 52 : ℤ) ≤ roundHalfEven (q / 2 ^ ulpExp q) :=
    le_trans hfl (floor_le_roundHalfEven _)
  unfold roundMag
  have h1 : ((2 : ℚ) ^ (52 : ℤ)) * 2 ^ ulpExp q ≤
      (roundHalfEven (q / 2 ^ ulpExp q) : ℚ) * 2 ^ ulpExp q := by
    apply mul_le_mul_of_nonneg_right _ (by positivity)
    exact_mod_cast hr
  refine le_trans ?_ h1
  rw [← zpow_add₀ (by norm_num : (2 : ℚ) ≠ 0), he]
  have h0 : (0 : ℤ) ≤ 52 + (Int.log 2 q - 52) := by omega
  have := zpow_le_zpow_right₀ (show (1 : ℚ) ≤ 2 by norm_num) h0
  simpa using this

theorem truthy_toDouble {q : ℚ} (h : 1 ≤ q) : truthy (toDouble q) = true := by
  have hq : 0 ≤ q := le_trans zero_le_one h
  rw [toDouble, if_pos hq]
  split_ifs
  · have := one_le_roundMag h
    simp only [truthy, decide_eq_true_eq]
    intro h0
    rw [h0] at this
    exact absurd this (by norm_num)
  · rfl

theorem numAdd_nan (x : Num) : numAdd x Num.nan = Num.nan := by
  cases x <;> rfl

theorem finite_nat (n : ℕ) (h : n < 2 ^ 53) : finiteOrNull (toDouble n) = some (n : ℚ) := by
  rw [toDouble_nat n h]; rfl

theorem numeralValue_nonneg (ip fp : Str) : 0 ≤ numeralValue ip fp := by
  unfold numeralValue
  positivity

/-! ## Reading numbers -/

theorem span_append {p : Char → Bool} (a r : Str) (ha : ∀ c ∈ a, p c = true)
    (hr : noHead p r = true) : (a ++ r).span p = (a, r) := by
  rw [List.span_eq_take_drop, List.takeWhile_append_of_pos ha, List.dropWhile_append_of_pos ha,
    dropWhile_of_noHead hr]
  cases r with
  | nil => simp
  | cons c cs =>
    have hc : p c = false := by simpa [noHead] using hr
    simp [List.takeWhile, hc]

theorem numeralText_ne_nil {ip fp : Str} (hip : isDigits ip = true) : numeralText ip fp ≠ [] := by
  obtain ⟨hne, _⟩ := isDigits_spec hip
  cases ip with
  | nil => exact absurd rfl hne
  | cons c cs => unfold numeralText; split <;> simp

theorem noHead_numeralText {p : Char → Bool} {ip fp : Str} (r : Str) (hip : isDigits ip = true)
    (hp : ∀ c, isDigit c = true → p c = false) : noHead p (numeralText ip fp ++ r) = true := by
  obtain ⟨hne, hd⟩ := isDigits_spec hip
  cases ip with
  | nil => exact absurd rfl hne
  | cons c cs =>
    have hc := hp c (hd c (by simp))
    unfold numeralText
    split <;> simp [noHead, hc]

theorem trim_numeralText {ip fp : Str} (hip : isDigits ip = true)
    (hfp : fp.all isDigit = true) : trim (numeralText ip fp) = numeralText ip fp := by
  obtain ⟨hne, hd⟩ := isDigits_spec hip
  apply trim_eq_self
  · simpa using @noHead_numeralText isSpace ip fp [] hip (fun c hc => isSpace_of_isDigit hc)
  · cases fp with
    | nil =>
      simpa [numeralText] using
        noHead_reverse_of_all hne hd (fun c hc => isSpace_of_isDigit hc)
    | cons f fs =>
      simp only [numeralText, List.isEmpty_cons, Bool.false_eq_true, if_false]
      have h := noHead_reverse_of_all (p := isSpace) (s := f :: fs) (by simp)
        (by simpa using hfp) (fun c hc => isSpace_of_isDigit hc)
      have h2 := noHead_reverse_append (ip ++ ['.']) (by simp) h
      simpa using h2

theorem jsNumber_numeral {ip fp : Str} (hip : isDigits ip = true)
    (hfp : fp.all isDigit = true) :
    jsNumber (numeralText ip fp) = toDouble (numeralValue ip fp) := by
  obtain ⟨hne, hd⟩ := isDigits_spec hip
  have ht := trim_numeralText hip hfp
  cases fp with
  | nil =>
    have hs : (ip ++ ([] : Str)).span isDigit = (ip, []) := span_append ip [] hd rfl
    simp only [List.append_nil] at hs
    simp only [numeralText, List.isEmpty_nil, if_true] at ht
    simp only [jsNumber, readDecimal, numeralText, List.isEmpty_nil, if_true, ht, hs]
  | cons f fs =>
    have hs : (ip ++ '.' :: f :: fs).span isDigit = (ip, '.' :: f :: fs) :=
      span_append ip _ hd (by simp [noHead, isDigit])
    simp only [numeralText, List.isEmpty_cons, Bool.false_eq_true, if_false] at ht
    have hall : (f :: fs).all isDigit = true := hfp
    simp only [jsNumber, readDecimal, numeralText, List.isEmpty_cons, Bool.false_eq_true,
      if_false, ht, hs]
    simp [hall]

theorem no_slash_numeralText {ip fp : Str} (hip : isDigits ip = true)
    (hfp : fp.all isDigit = true) :
    (numeralText ip fp).any (fun c => c.toNat == 47) = false := by
  obtain ⟨_, hd⟩ := isDigits_spec hip
  have h1 : ∀ c ∈ ip, (c.toNat == 47) = false := fun c hc => (toNat_of_isDigit (hd c hc)).2
  have h2 : ∀ c ∈ fp, (c.toNat == 47) = false := fun c hc =>
    (toNat_of_isDigit (List.all_eq_true.mp hfp c hc)).2
  unfold numeralText
  split
  · simpa using fun c hc => by simpa using h1 c hc
  · simp only [List.any_append, List.any_cons, Bool.or_eq_false_iff]
    refine ⟨?_, by decide, ?_⟩
    · simpa using fun c hc => by simpa using h1 c hc
    · simpa using fun c hc => by simpa using h2 c hc

theorem toNumber_numeral {ip fp : Str} (hip : isDigits ip = true)
    (hfp : fp.all isDigit = true) :
    toNumber (numeralText ip fp) = toDouble (numeralValue ip fp) := by
  simp [toNumber, numeralText_ne_nil hip, no_slash_numeralText hip hfp, jsNumber_numeral hip hfp]

theorem splitSlash_no_slash (s : Str) : ∀ (acc : Str),
    (∀ c ∈ s, (c.toNat == 47) = false) → splitSlash acc s = [acc ++ s] := by
  induction s with
  | nil => intro acc _; simp [splitSlash]
  | cons c cs ih =>
    intro acc h
    have hc : (c.toNat == 47) = false := h c (by simp)
    have := ih (acc ++ [c]) (fun d hd => h d (by simp [hd]))
    simp [splitSlash, hc, this]

theorem splitSlash_append (n r : Str) : ∀ (acc : Str),
    (∀ c ∈ n, (c.toNat == 47) = false) →
      splitSlash acc (n ++ '/' :: r) = (acc ++ n) :: splitSlash [] r := by
  induction n with
  | nil => intro acc _; simp [splitSlash]
  | cons c cs ih =>
    intro acc h
    have hc : (c.toNat == 47) = false := h c (by simp)
    have := ih (acc ++ [c]) (fun d hd => h d (by simp [hd]))
    simp [splitSlash, hc, this]

theorem numeralValue_int (d : Str) : numeralValue d [] = (digitsValue d : ℚ) := by
  simp [numeralValue, digitsValue]

theorem jsNumber_digits {d : Str} (hd : isDigits d = true) :
    jsNumber d = toDouble (digitsValue d : ℚ) := by
  have h := @jsNumber_numeral d [] hd rfl
  simpa [numeralText, numeralValue_int] using h

theorem toNumber_fraction {n d : Str} (hn : isDigits n = true) (hd : isDigits d = true) :
    toNumber (n ++ '/' :: d) =
      if digitsValue d = 0 then Num.nan
      else numDiv (toDouble (digitsValue n : ℚ)) (toDouble (digitsValue d : ℚ)) := by
  have hns : ∀ c ∈ n, (c.toNat == 47) = false := fun c hc =>
    (toNat_of_isDigit ((isDigits_spec hn).2 c hc)).2
  have hds : ∀ c ∈ d, (c.toNat == 47) = false := fun c hc =>
    (toNat_of_isDigit ((isDigits_spec hd).2 c hc)).2
  have hsplit : splitSlash [] (n ++ '/' :: d) = [n, d] := by
    rw [splitSlash_append n d [] hns, splitSlash_no_slash d [] hds]
    simp
  have hany : (n ++ '/' :: d).any (fun c => c.toNat == 47) = true := by simp
  have hne : n ++ '/' :: d ≠ [] := by simp
  unfold toNumber
  rw [if_neg hne, if_pos hany, hsplit]
  simp only [jsNumber_digits hn, jsNumber_digits hd]
  by_cases h0 : digitsValue d = 0
  · rw [if_pos h0, h0]
    have hz : toDouble ((0 : ℕ) : ℚ) = Num.fin 0 := by
      have := toDouble_nat 0 (by norm_num)
      simpa using this
    rw [hz]
    rfl
  · have h1 : (1 : ℚ) ≤ (digitsValue d : ℚ) := by
      exact_mod_cast Nat.one_le_iff_ne_zero.mpr h0
    rw [if_neg h0, truthy_toDouble h1, if_pos rfl]

/-! ## The parser on a matched line -/

theorem parse_of_lineMatch (line : Str) (g : Groups) (hne : trim line ≠ [])
    (hm : lineMatch (trim line) = some g) :
    parseIngredientLine line =
      some
        { qty :=
            finiteOrNull (numAdd (toNumber g.g1)
              (match g.g2 with
                | some t => if t = [] then Num.fin 0 else toNumber t
                | none => Num.fin 0)),
          unit := toLowerCase (g.g3.getD []),
          name := if trim g.g4 = [] then trim line else trim g.g4,
          key := normalizeName (if trim g.g4 = [] then trim line else trim g.g4) } := by
  simp only [parseIngredientLine, if_neg hne, hm]

theorem parse_of_no_match (line : Str) (hne : trim line ≠ [])
    (hm : lineMatch (trim line) = none) :
    parseIngredientLine line =
      some { qty := none, unit := [], name := trim line, key := normalizeName (trim line) } := by
  simp only [parseIngredientLine, if_neg hne, hm]

theorem lineMatch_basic (ip fp U N : Str) (hip : isDigits ip = true)
    (hfp : fp.all isDigit = true) (hU : isWord U = true)
    (htrim : trim N = N) (hline : isOneLine N = true) :
    lineMatch (numeralText ip fp ++ ' ' :: (U ++ ' ' :: N)) =
      some ⟨numeralText ip fp, none, some U, N⟩ := by
  obtain ⟨hUne, hUl⟩ := isWord_spec hU
  have hsp : ∀ c ∈ [' '], isSpace c = true := by decide
  apply lineMatch_of_reDecimal
  apply reDecimal_numeral ip fp _ _ hip hfp (by simp [noHead, isDigit])
    (by simp [noHead, isPoint])
  have h1 := reMixed_skip (numeralText ip fp) [' '] (U ++ ' ' :: N) hsp
    (noHead_append _ hUne hUl (fun c hc => isSpace_of_isLetter hc))
    (noHead_append _ hUne hUl (fun c hc => isDigit_of_isLetter hc))
  have h2 := reUnit_word (numeralText ip fp) none [' '] U [' '] N hsp hU hsp
    (noHead_of_trim htrim).1 hline (by simp [noHead, isLetter])
  simp only [List.singleton_append] at h1 h2
  rw [h1, h2]

theorem lineMatch_mixed (ip fp n d U N : Str) (hip : isDigits ip = true)
    (hfp : fp.all isDigit = true) (hn : isDigits n = true) (hd : isDigits d = true)
    (hU : isWord U = true) (htrim : trim N = N) (hline : isOneLine N = true) :
    lineMatch (numeralText ip fp ++ ' ' :: (n ++ '/' :: (d ++ ' ' :: (U ++ ' ' :: N)))) =
      some ⟨numeralText ip fp, some (n ++ '/' :: d), some U, N⟩ := by
  have hsp : ∀ c ∈ [' '], isSpace c = true := by decide
  apply lineMatch_of_reDecimal
  apply reDecimal_numeral ip fp _ _ hip hfp (by simp [noHead, isDigit])
    (by simp [noHead, isPoint])
  have h2 := reUnit_word (numeralText ip fp) (some (n ++ '/' :: d)) [' '] U [' '] N hsp hU hsp
    (noHead_of_trim htrim).1 hline (by simp [noHead, isLetter])
  have h1 := reMixed_frac (numeralText ip fp) [' '] n d (' ' :: (U ++ ' ' :: N)) _ (by simp) hsp
    hn hd (by simp [noHead, isDigit]) (by simpa using h2)
  simpa using h1

theorem noHead_append_two {p q1 q2 : Char → Bool} {ws U : Str}
    (hws : ∀ c ∈ ws, q1 c = true) (h1 : ∀ c, q1 c = true → p c = false)
    (hU : ∀ c ∈ U, q2 c = true) (h2 : ∀ c, q2 c = true → p c = false) :
    noHead p (ws ++ U) = true := by
  cases ws with
  | nil =>
    cases U with
    | nil => rfl
    | cons u us => simp [noHead, h2 u (hU u (by simp))]
  | cons w ws => simp [noHead, h1 w (hws w (by simp))]

theorem lineMatch_count (ip fp ws U : Str) (hip : isDigits ip = true)
    (hfp : fp.all isDigit = true) (hws : ∀ c ∈ ws, isSpace c = true) (hU : isWord U = true) :
    lineMatch (numeralText ip fp ++ (ws ++ U)) = some ⟨numeralText ip fp, none, some U, []⟩ := by
  obtain ⟨hUne, hUl⟩ := isWord_spec hU
  apply lineMatch_of_reDecimal
  apply reDecimal_numeral ip fp _ _ hip hfp
    (noHead_append_two hws (fun c hc => isDigit_of_isSpace hc) hUl
      (fun c hc => isDigit_of_isLetter hc))
    (noHead_append_two hws (fun c hc => isPoint_of_isSpace hc) hUl
      (fun c hc => isPoint_of_isLetter hc))
  have hs : noHead isSpace U = true := by
    simpa using noHead_append [] hUne hUl (fun c hc => isSpace_of_isLetter hc)
  have hd : noHead isDigit U = true := by
    simpa using noHead_append [] hUne hUl (fun c hc => isDigit_of_isLetter hc)
  have h1 := reMixed_skip (numeralText ip fp) ws U hws hs hd
  have h2 := reUnit_word (numeralText ip fp) none ws U [] [] hws hU (by simp) rfl rfl rfl
  simp only [List.append_nil] at h2
  rw [h1, h2]

theorem lineMatch_no_unit (ip fp r : Str) (hip : isDigits ip = true)
    (hfp : fp.all isDigit = true) (hs : noHead isSpace r = true) (hd : noHead isDigit r = true)
    (hp : noHead isPoint r = true) (hl : noHead isLetter r = true)
    (hline : isOneLine r = true) :
    lineMatch (numeralText ip fp ++ r) = some ⟨numeralText ip fp, none, none, r⟩ := by
  apply lineMatch_of_reDecimal
  apply reDecimal_numeral ip fp _ _ hip hfp hd hp
  have h1 := reMixed_skip (numeralText ip fp) [] r (by simp) hs hd
  have h2 := reUnit_bare (numeralText ip fp) none [] r (by simp) hs hline hl
  simp only [List.nil_append] at h1 h2
  rw [h1, h2]

theorem lineMatch_none (s : Str) (hd : noHead isDigit s = true) : lineMatch s = none := by
  have h1 : reDecimal s = none := plus_none isDigit _ s hd
  have h2 : reFraction s = none := plus_none isDigit _ s hd
  simp [lineMatch, h1, h2]

theorem parse_no_unit (ip fp r : Str) (hip : isDigits ip = true)
    (hfp : fp.all isDigit = true) (hd : noHead isDigit r = true)
    (hp : noHead isPoint r = true) (hl : noHead isLetter r = true)
    (hne : r ≠ []) (htrim : trim r = r) (hline : isOneLine r = true) :
    parseIngredientLine (numeralText ip fp ++ r) =
      some { qty := finiteOrNull (toDouble (numeralValue ip fp)), unit := [], name := r,
             key := normalizeName r } := by
  have htl : trim (numeralText ip fp ++ r) = numeralText ip fp ++ r :=
    trim_eq_self (noHead_numeralText _ hip (fun c hc => isSpace_of_isDigit hc))
      (noHead_reverse_append _ hne (noHead_of_trim htrim).2)
  have hm := lineMatch_no_unit ip fp r hip hfp (noHead_of_trim htrim).1 hd hp hl hline
  have hne2 : trim (numeralText ip fp ++ r) ≠ [] := by
    rw [htl]; simp [hne]
  rw [parse_of_lineMatch _ _ hne2 (by rw [htl]; exact hm)]
  simp [toNumber_numeral hip hfp, htrim, hne, toLowerCase,
    numAdd_zero (numeralValue_nonneg ip fp)]

theorem parse_basic (ip fp U N : Str) (hip : isDigits ip = true)
    (hfp : fp.all isDigit = true) (hU : isWord U = true) (hN : N ≠ []) (htrim : trim N = N)
    (hline : isOneLine N = true) :
    parseIngredientLine (numeralText ip fp ++ ' ' :: (U ++ ' ' :: N)) =
      some { qty := finiteOrNull (toDouble (numeralValue ip fp)), unit := toLowerCase U,
             name := N, key := normalizeName N } := by
  have htl : trim (numeralText ip fp ++ ' ' :: (U ++ ' ' :: N)) =
      numeralText ip fp ++ ' ' :: (U ++ ' ' :: N) := by
    apply trim_eq_self (noHead_numeralText _ hip (fun c hc => isSpace_of_isDigit hc))
    have := noHead_reverse_append (p := isSpace) (numeralText ip fp ++ ' ' :: (U ++ [' '])) hN
      (noHead_of_trim htrim).2
    simpa using this
  have hm := lineMatch_basic ip fp U N hip hfp hU htrim hline
  have hne : trim (numeralText ip fp ++ ' ' :: (U ++ ' ' :: N)) ≠ [] := by
    rw [htl]; simp
  rw [parse_of_lineMatch _ _ hne (by rw [htl]; exact hm)]
  simp [toNumber_numeral hip hfp, htrim, hN, numAdd_zero (numeralValue_nonneg ip fp)]


theorem digitsValue_one : digitsValue "1".toList = 1 := by decide

theorem digitsValue_two : digitsValue "2".toList = 2 := by decide

theorem parse_two_cups_flour :
    parseIngredientLine "2 cups flour".toList =
      some { qty := some 2, unit := "cups".toList, name := "flour".toList,
             key := "flour".toList } := by
  have h := parse_basic "2".toList [] "cups".toList "flour".toList (by decide)
    (by decide) (by decide) (by decide) (by decide) (by decide)
  have hv : finiteOrNull (toDouble (numeralValue "2".toList [])) = some 2 := by
    rw [numeralValue_int, digitsValue_two, finite_nat 2 (by norm_num)]
    norm_num
  have hl : toLowerCase "cups".toList = "cups".toList := by decide
  have hk : normalizeName "flour".toList = "flour".toList := by decide
  rw [hv, hl, hk] at h
  exact h

theorem parse_one_cups_flour :
    parseIngredientLine "1 cups flour".toList =
      some { qty := some 1, unit := "cups".toList, name := "flour".toList,
             key := "flour".toList } := by
  have h := parse_basic "1".toList [] "cups".toList "flour".toList (by decide)
    (by decide) (by decide) (by decide) (by decide) (by decide)
  have hv : finiteOrNull (toDouble (numeralValue "1".toList [])) = some 1 := by
    rw [numeralValue_int, digitsValue_one, finite_nat 1 (by norm_num)]
    norm_num
  have hl : toLowerCase "cups".toList = "cups".toList := by decide
  have hk : normalizeName "flour".toList = "flour".toList := by decide
  rw [hv, hl, hk] at h
  exact h

theorem parse_one_cup_flour :
    parseIngredientLine "1 cup flour".toList =
      some { qty := some 1, unit := "cup".toList, name := "flour".toList,
             key := "flour".toList } := by
  have h := parse_basic "1".toList [] "cup".toList "flour".toList (by decide)
    (by decide) (by decide) (by decide) (by decide) (by decide)
  have hv : finiteOrNull (toDouble (numeralValue "1".toList [])) = some 1 := by
    rw [numeralValue_int, digitsValue_one, finite_nat 1 (by norm_num)]
    norm_num
  have hl : toLowerCase "cup".toList = "cup".toList := by decide
  have hk : normalizeName "flour".toList = "flour".toList := by decide
  rw [hv, hl, hk] at h
  exact h

theorem parse_one_tsp_salt :
    parseIngredientLine "1 tsp salt".toList =
      some { qty := some 1, unit := "tsp".toList, name := "salt".toList,
             key := "salt".toList } := by
  have h := parse_basic "1".toList [] "tsp".toList "salt".toList (by decide)
    (by decide) (by decide) (by decide) (by decide) (by decide)
  have hv : finiteOrNull (toDouble (numeralValue "1".toList [])) = some 1 := by
    rw [numeralValue_int, digitsValue_one, finite_nat 1 (by norm_num)]
    norm_num
  have hl : toLowerCase "tsp".toList = "tsp".toList := by decide
  have hk : normalizeName "salt".toList = "salt".toList := by decide
  rw [hv, hl, hk] at h
  exact h

/-! ## The aggregation map -/

theorem mapGet_mapSet_same (m : AggMap) (k : Str) (e : Entry) :
    mapGet (mapSet m k e) k = some e := by
  induction m with
  | nil => simp [mapSet, mapGet]
  | cons kv m ih =>
    obtain ⟨k1, e1⟩ := kv
    by_cases h : k1 = k
    · simp [mapSet, mapGet, h]
    · simp [mapSet, mapGet, h, ih]

theorem mapGet_mapSet_other (m : AggMap) (k k2 : Str) (e : Entry) (hk : k ≠ k2) :
    mapGet (mapSet m k e) k2 = mapGet m k2 := by
  induction m with
  | nil => simp [mapSet, mapGet, hk]
  | cons kv m ih =>
    obtain ⟨k1, e1⟩ := kv
    by_cases h : k1 = k
    · subst h
      simp [mapSet, mapGet, hk]
    · by_cases h2 : k1 = k2
      · simp only [mapSet, if_neg h, mapGet, if_pos h2]
      · simp only [mapSet, if_neg h, mapGet, if_neg h2, ih]

theorem mapSet_of_mapGet (m : AggMap) (k : Str) (e : Entry) (h : mapGet m k = some e) :
    mapSet m k e = m := by
  induction m with
  | nil => simp [mapGet] at h
  | cons kv m ih =>
    obtain ⟨k1, e1⟩ := kv
    by_cases h1 : k1 = k
    · simp only [mapGet, h1, if_true, Option.some.injEq] at h
      simp [mapSet, h1, h]
    · simp only [mapGet, h1, if_false] at h
      simp [mapSet, h1, ih h]

theorem mapSet_absent (m : AggMap) (k : Str) (e : Entry) (h : mapGet m k = none) :
    mapSet m k e = m ++ [(k, e)] := by
  induction m with
  | nil => rfl
  | cons kv m ih =>
    obtain ⟨k1, e1⟩ := kv
    by_cases h1 : k1 = k
    · simp [mapGet, h1] at h
    · simp only [mapGet, h1, if_false] at h
      simp [mapSet, h1, ih h]

theorem addToAggregate_absent (m : AggMap) (item : Parsed) (f : ℚ)
    (h : mapGet m (aggKey item) = none) :
    addToAggregate m item f =
      m ++ [(aggKey item,
        { displayName := item.name, unit := item.unit,
          qty := (match item.qty with
            | none => none
            | some q => some (q * f)),
          category := guessCategory item.name })] := by
  simp only [addToAggregate, h]
  exact mapSet_absent m _ _ h

theorem addToAggregate_present (m : AggMap) (item : Parsed) (f : ℚ) (e : Entry)
    (h : mapGet m (aggKey item) = some e) :
    addToAggregate m item f =
      mapSet m (aggKey item)
        { e with qty := (match e.qty, item.qty with
            | some x, some y => some (x + y * f)
            | _, _ => e.qty) } := by
  simp only [addToAggregate, h]
  cases he : e.qty <;> cases hi : item.qty <;> simp

theorem mapGet_addToAggregate_other (m : AggMap) (item : Parsed) (f : ℚ) (k : Str)
    (hk : aggKey item ≠ k) : mapGet (addToAggregate m item f) k = mapGet m k := by
  cases h : mapGet m (aggKey item) with
  | none =>
    rw [addToAggregate_absent m item f h, ← mapSet_absent m _ _ h]
    exact mapGet_mapSet_other m _ k _ hk
  | some e =>
    rw [addToAggregate_present m item f e h]
    exact mapGet_mapSet_other m _ k _ hk

/-- One call keeps an entry in place with its first-insertion fields, and keeps a
`null` quantity `null`. -/
theorem addToAggregate_keeps (m : AggMap) (item : Parsed) (f : ℚ) (k : Str) (e : Entry)
    (h : mapGet m k = some e) :
    ∃ e2, mapGet (addToAggregate m item f) k = some e2 ∧ e2.displayName = e.displayName ∧
      e2.unit = e.unit ∧ e2.category = e.category ∧ (e.qty = none → e2.qty = none) := by
  by_cases hk : aggKey item = k
  · subst hk
    rw [addToAggregate_present m item f e h, mapGet_mapSet_same]
    refine ⟨_, rfl, rfl, rfl, rfl, ?_⟩
    intro hq
    simp [hq]
  · rw [mapGet_addToAggregate_other m item f k hk]
    exact ⟨e, h, rfl, rfl, rfl, fun hq => hq⟩

theorem addAll_keeps (calls : List (Parsed × ℚ)) : ∀ (m : AggMap) (k : Str) (e : Entry),
    mapGet m k = some e →
    ∃ e2, mapGet (addAll m calls) k = some e2 ∧ e2.displayName = e.displayName ∧
      e2.unit = e.unit ∧ e2.category = e.category ∧ (e.qty = none → e2.qty = none) := by
  induction calls with
  | nil => intro m k e h; exact ⟨e, h, rfl, rfl, rfl, fun hq => hq⟩
  | cons c calls ih =>
    intro m k e h
    obtain ⟨e1, h1, hn, hu, hc, hq⟩ := addToAggregate_keeps m c.1 c.2 k e h
    obtain ⟨e2, h2, hn2, hu2, hc2, hq2⟩ := ih (addToAggregate m c.1 c.2) k e1 h1
    exact ⟨e2, h2, hn2.trans hn, hu2.trans hu, hc2.trans hc, fun h0 => hq2 (hq h0)⟩

theorem addAll_absent (calls : List (Parsed × ℚ)) : ∀ (m : AggMap) (k : Str),
    mapGet m k = none → firstFor k calls = none → mapGet (addAll m calls) k = none := by
  induction calls with
  | nil => intro m k h _; exact h
  | cons c calls ih =>
    intro m k h hf
    have hk : aggKey c.1 ≠ k := by
      intro hk
      simp [firstFor, List.find?, hk] at hf
    have hf2 : firstFor k calls = none := by
      simpa [firstFor, List.find?, hk] using hf
    have h1 : mapGet (addToAggregate m c.1 c.2) k = none := by
      rw [mapGet_addToAggregate_other m c.1 c.2 k hk]; exact h
    exact ih _ k h1 hf2

theorem addAll_first (calls : List (Parsed × ℚ)) : ∀ (m : AggMap) (k : Str) (it : Parsed) (f : ℚ),
    mapGet m k = none → firstFor k calls = some (it, f) →
    ∃ e, mapGet (addAll m calls) k = some e ∧ e.displayName = it.name ∧ e.unit = it.unit ∧
      e.category = guessCategory it.name ∧ (it.qty = none → e.qty = none) := by
  induction calls with
  | nil => intro m k it f _ hf; simp [firstFor] at hf
  | cons c calls ih =>
    intro m k it f h hf
    by_cases hk : aggKey c.1 = k
    · have hc : c = (it, f) := by
        simpa [firstFor, List.find?, hk] using hf
      subst hc
      subst hk
      have hadd := addToAggregate_absent m it f h
      have hget : mapGet (addToAggregate m it f) (aggKey it) =
          some { displayName := it.name, unit := it.unit,
                 qty := (match it.qty with
                   | none => none
                   | some q => some (q * f)),
                 category := guessCategory it.name } := by
        rw [hadd, ← mapSet_absent m _ _ h]
        exact mapGet_mapSet_same m _ _
      obtain ⟨e2, h2, hn2, hu2, hc2, hq2⟩ := addAll_keeps calls _ _ _ hget
      refine ⟨e2, h2, hn2, hu2, hc2, ?_⟩
      intro h0
      apply hq2
      simp [h0]
    · have hf2 : firstFor k calls = some (it, f) := by
        simpa [firstFor, List.find?, hk] using hf
      have h1 : mapGet (addToAggregate m c.1 c.2) k = none := by
        rw [mapGet_addToAggregate_other m c.1 c.2 k hk]; exact h
      exact ih _ k it f h1 hf2

theorem parse_mixed (ip fp n d U N : Str) (hip : isDigits ip = true)
    (hfp : fp.all isDigit = true) (hn : isDigits n = true) (hd : isDigits d = true)
    (hd0 : digitsValue d ≠ 0) (hU : isWord U = true) (hN : N ≠ []) (htrim : trim N = N)
    (hline : isOneLine N = true) :
    parseIngredientLine
        (numeralText ip fp ++ ' ' :: (n ++ '/' :: (d ++ ' ' :: (U ++ ' ' :: N)))) =
      some { qty := finiteOrNull (numAdd (toDouble (numeralValue ip fp))
               (numDiv (toDouble (digitsValue n : ℚ)) (toDouble (digitsValue d : ℚ)))),
             unit := toLowerCase U, name := N, key := normalizeName N } := by
  have htl : trim (numeralText ip fp ++ ' ' :: (n ++ '/' :: (d ++ ' ' :: (U ++ ' ' :: N)))) =
      numeralText ip fp ++ ' ' :: (n ++ '/' :: (d ++ ' ' :: (U ++ ' ' :: N))) := by
    apply trim_eq_self (noHead_numeralText _ hip (fun c hc => isSpace_of_isDigit hc))
    have := noHead_reverse_append (p := isSpace)
      (numeralText ip fp ++ ' ' :: (n ++ '/' :: (d ++ ' ' :: (U ++ [' '])))) hN
      (noHead_of_trim htrim).2
    simpa using this
  have hm := lineMatch_mixed ip fp n d U N hip hfp hn hd hU htrim hline
  have hne : trim (numeralText ip fp ++ ' ' :: (n ++ '/' :: (d ++ ' ' :: (U ++ ' ' :: N)))) ≠
      [] := by
    rw [htl]; simp
  rw [parse_of_lineMatch _ _ hne (by rw [htl]; exact hm)]
  simp [toNumber_numeral hip hfp, toNumber_fraction hn hd, hd0, htrim, hN]

theorem parse_fallback (ip fp ws U : Str) (hip : isDigits ip = true)
    (hfp : fp.all isDigit = true) (hws : ws.all isSpace = true)
    (hU : U.all isLetter = true) :
    parseIngredientLine (numeralText ip fp ++ (ws ++ U)) =
      some { qty := finiteOrNull (toDouble (numeralValue ip fp)), unit := toLowerCase U,
             name := trim (numeralText ip fp ++ (ws ++ U)),
             key := normalizeName (trim (numeralText ip fp ++ (ws ++ U))) } := by
  have hws2 : ∀ c ∈ ws, isSpace c = true := by simpa using hws
  cases U with
  | nil =>
    have htl : trim (numeralText ip fp ++ (ws ++ [])) = numeralText ip fp := by
      simpa using trim_append_spaces (trim_numeralText hip hfp) (numeralText_ne_nil hip) hws2
    have hm := lineMatch_no_unit ip fp [] hip hfp rfl rfl rfl rfl rfl
    simp only [List.append_nil] at hm
    have hne : trim (numeralText ip fp ++ (ws ++ [])) ≠ [] := by
      rw [htl]; exact numeralText_ne_nil hip
    rw [parse_of_lineMatch _ _ hne (by rw [htl]; exact hm)]
    simp [toNumber_numeral hip hfp, htl, toLowerCase, trim,
      numAdd_zero (numeralValue_nonneg ip fp)]
  | cons u us =>
    have hUl : ∀ c ∈ u :: us, isLetter c = true := by simpa using hU
    have hW : isWord (u :: us) = true := by
      simp only [isWord, List.isEmpty_cons, Bool.not_false, Bool.true_and]
      exact hU
    have htl : trim (numeralText ip fp ++ (ws ++ u :: us)) =
        numeralText ip fp ++ (ws ++ u :: us) := by
      apply trim_eq_self (noHead_numeralText _ hip (fun c hc => isSpace_of_isDigit hc))
      have := noHead_reverse_append (p := isSpace) (numeralText ip fp ++ ws) (s := u :: us)
        (by simp) (noHead_reverse_of_all (by simp) hUl (fun c hc => isSpace_of_isLetter hc))
      simpa using this
    have hm := lineMatch_count ip fp ws (u :: us) hip hfp hws2 hW
    have hne : trim (numeralText ip fp ++ (ws ++ u :: us)) ≠ [] := by
      rw [htl]; simp
    rw [parse_of_lineMatch _ _ hne (by rw [htl]; exact hm)]
    simp [toNumber_numeral hip hfp, htl, trim, numAdd_zero (numeralValue_nonneg ip fp)]

theorem parse_unparseable (line : Str) (hne : trim line ≠ [])
    (hd : noHead isDigit (trim line) = true) :
    parseIngredientLine line =
      some { qty := none, unit := [], name := trim line, key := normalizeName (trim line) } :=
  parse_of_no_match line hne (lineMatch_none _ hd)

/-! ## Two contributions under one key -/

theorem entry_eta (e : Entry) : { e with qty := e.qty } = e := by
  cases e; rfl

theorem merge_two (p1 p2 : Parsed) (f1 f2 q1 q2 : ℚ) (hkey : p1.key = p2.key)
    (hunit : p1.unit = p2.unit) (h1 : p1.qty = some q1) (h2 : p2.qty = some q2) :
    addToAggregate (addToAggregate [] p1 f1) p2 f2 =
      [(aggKey p1,
        { displayName := p1.name, unit := p1.unit, qty := some (q1 * f1 + q2 * f2),
          category := guessCategory p1.name })] := by
  have ha : aggKey p2 = aggKey p1 := by simp [aggKey, hkey, hunit]
  rw [addToAggregate_absent [] p1 f1 rfl]
  rw [addToAggregate_present _ p2 f2
    { displayName := p1.name, unit := p1.unit, qty := (match p1.qty with
        | none => none
        | some q => some (q * f1)), category := guessCategory p1.name }
    (by simp [mapGet, ha])]
  simp [mapSet, ha, h1, h2]

theorem null_absorbed (m : AggMap) (item : Parsed) (f : ℚ) (e : Entry)
    (hget : mapGet m (aggKey item) = some e) (hnull : item.qty = none) :
    addToAggregate m item f = m := by
  rw [addToAggregate_present m item f e hget]
  have hm : (match e.qty, item.qty with
      | some x, some y => some (x + y * f)
      | _, _ => e.qty) = e.qty := by
    rw [hnull]; cases e.qty <;> rfl
  rw [hm, entry_eta]
  exact mapSet_of_mapGet m _ e hget

/-! ## The end-to-end example -/

theorem groupedBuild_example :
    groupedBuild
        [(Raw.seq ["2 cups flour".toList, "1 tsp salt".toList], 2),
         (Raw.seq ["1 cup flour".toList], 1)] =
      [("Pantry".toList,
        [{ displayName := "flour".toList, unit := "cups".toList, qty := some 4,
           category := "Pantry".toList },
         { displayName := "flour".toList, unit := "cup".toList, qty := some 1,
           category := "Pantry".toList },
         { displayName := "salt".toList, unit := "tsp".toList, qty := some 2,
           category := "Pantry".toList }])] := by
  have hA : splitIngredients (Raw.seq ["2 cups flour".toList, "1 tsp salt".toList]) =
      ["2 cups flour".toList, "1 tsp salt".toList] := by decide
  have hB : splitIngredients (Raw.seq ["1 cup flour".toList]) = ["1 cup flour".toList] := by
    decide
  have hraw : groupedBuild
        [(Raw.seq ["2 cups flour".toList, "1 tsp salt".toList], 2),
         (Raw.seq ["1 cup flour".toList], 1)] =
      [("Pantry".toList,
        [{ displayName := "flour".toList, unit := "cups".toList, qty := some (2 * 2),
           category := "Pantry".toList },
         { displayName := "flour".toList, unit := "cup".toList, qty := some (1 * 1),
           category := "Pantry".toList },
         { displayName := "salt".toList, unit := "tsp".toList, qty := some (1 * 2),
           category := "Pantry".toList }])] := by
    simp only [groupedBuild, aggregateAll, aggregateRecipe, List.foldl, hA, hB,
      parse_two_cups_flour, parse_one_tsp_salt, parse_one_cup_flour]
    rfl
  rw [hraw]
  norm_num

/-! ## Numerals that are not doubles -/

theorem digitsValue_append_zeros (s : Str) (k : ℕ) :
    digitsValue (s ++ List.replicate k '0') = digitsValue s * 10 ^ k := by
  induction k with
  | zero => simp
  | succ k ih =>
    rw [List.replicate_succ', ← List.append_assoc]
    unfold digitsValue at ih ⊢
    rw [List.foldl_append, ih]
    simp only [List.foldl_cons, List.foldl_nil]
    have : ('0' : Char).toNat - 48 = 0 := by decide
    rw [this, pow_succ]
    ring

theorem isDigits_bigNumeral : isDigits bigNumeral = true := by
  simp only [isDigits, bigNumeral, List.isEmpty_cons, Bool.not_false, Bool.true_and,
    List.all_cons, List.all_replicate]
  decide

theorem digitsValue_bigNumeral : digitsValue bigNumeral = 10 ^ 309 := by
  have h := digitsValue_append_zeros ['1'] 309
  have h1 : digitsValue ['1'] = 1 := by decide
  rw [h1, one_mul] at h
  exact h

theorem two_pow_le_ten_pow : (2 : ℚ) ^ (1024 : ℤ) ≤ ((10 ^ 309 : ℕ) : ℚ) := by
  have h1 : (2 : ℚ) ^ (10 : ℕ) ≤ 10 ^ (3 : ℕ) * (1025 / 1000) := by norm_num
  have h2 : ((1025 : ℚ) / 1000) ^ (102 : ℕ) * 2 ^ (4 : ℕ) ≤ 10 ^ (3 : ℕ) := by norm_num
  have e1 : (2 : ℚ) ^ (1024 : ℤ) = ((2 : ℚ) ^ (10 : ℕ)) ^ (102 : ℕ) * 2 ^ (4 : ℕ) := by
    rw [← pow_mul, ← pow_add]
    exact (zpow_natCast (2 : ℚ) 1024)
  have e2 : ((10 ^ 309 : ℕ) : ℚ) = ((10 : ℚ) ^ (3 : ℕ)) ^ (102 : ℕ) * 10 ^ (3 : ℕ) := by
    push_cast
    rw [← pow_mul, ← pow_add]
  rw [e1, e2]
  calc ((2 : ℚ) ^ (10 : ℕ)) ^ (102 : ℕ) * 2 ^ (4 : ℕ)
      ≤ ((10 : ℚ) ^ (3 : ℕ) * (1025 / 1000)) ^ (102 : ℕ) * 2 ^ (4 : ℕ) := by
        apply mul_le_mul_of_nonneg_right _ (by positivity)
        exact pow_le_pow_left₀ (by positivity) h1 _
    _ = ((10 : ℚ) ^ (3 : ℕ)) ^ (102 : ℕ) * (((1025 : ℚ) / 1000) ^ (102 : ℕ) * 2 ^ (4 : ℕ)) := by
        rw [mul_pow]; ring
    _ ≤ ((10 : ℚ) ^ (3 : ℕ)) ^ (102 : ℕ) * 10 ^ (3 : ℕ) :=
        mul_le_mul_of_nonneg_left h2 (by positivity)

theorem toDouble_bigNumeral : toDouble (numeralValue bigNumeral []) = Num.posInf := by
  rw [numeralValue_int, digitsValue_bigNumeral]
  exact toDouble_overflow two_pow_le_ten_pow

theorem roundHalfEven_tie (k : ℤ) (hk : k % 2 = 0) : roundHalfEven ((k : ℚ) + 1 / 2) = k := by
  have hf : ⌊(k : ℚ) + 1 / 2⌋ = k := by
    rw [Int.floor_eq_iff]
    constructor <;> norm_num
  unfold roundHalfEven
  rw [hf]
  have e : (k : ℚ) + 1 / 2 - k = 1 / 2 := by ring
  rw [e, if_neg (lt_irrefl _), if_neg (lt_irrefl _), if_pos hk]

theorem toDouble_tie :
    toDouble ((9007199254740993 : ℕ) : ℚ) = Num.fin 9007199254740992 := by
  have hq : (0 : ℚ) < ((9007199254740993 : ℕ) : ℚ) := by norm_num
  have hlog : Int.log 2 (((9007199254740993 : ℕ) : ℚ)) = 53 := by
    rw [Int.log_natCast]
    have : Nat.log 2 9007199254740993 = 53 := by
      rw [Nat.log_eq_iff (by norm_num)]
      norm_num
    rw [this]; rfl
  have he : ulpExp ((9007199254740993 : ℕ) : ℚ) = 1 := by
    unfold ulpExp; rw [hlog]; norm_num
  have hx : ((9007199254740993 : ℕ) : ℚ) / 2 ^ (1 : ℤ) = ((4503599627370496 : ℤ) : ℚ) + 1 / 2 := by
    norm_num
  have hm : roundMag ((9007199254740993 : ℕ) : ℚ) = 9007199254740992 := by
    unfold roundMag
    rw [he, hx, roundHalfEven_tie _ (by norm_num)]
    norm_num
  rw [toDouble, if_pos hq.le, hm, if_pos]
  calc (9007199254740992 : ℚ) < 2 ^ (54 : ℤ) := by norm_num
    _ ≤ 2 ^ (1024 : ℤ) := zpow_le_zpow_right₀ (by norm_num) (by norm_num)

/-! ## Claims about the ingredient line parser -/

/-- C2 (the code at the failing input): on `"1/2 cup milk"` the first alternative of
the pattern, `\d+(?:\.\d+)?`, takes the `1` and the match is completed with the rest
of the text as the name, so the parser returns quantity `1`, an empty unit and the
name `"/2 cup milk"`, and not quantity `1/2`, unit `"cup"`, name `"milk"`. -/
theorem parseIngredientLine_simple_fraction :
    parseIngredientLine "1/2 cup milk".toList =
        some { qty := some 1, unit := [], name := "/2 cup milk".toList,
               key := "/2 cup milk".toList } ∧
      parseIngredientLine "1/2 cup milk".toList ≠
        some { qty := some (1 / 2), unit := "cup".toList, name := "milk".toList,
               key := normalizeName "milk".toList } := by
  have h := parse_no_unit "1".toList [] "/2 cup milk".toList (by decide) (by decide) (by decide)
    (by decide) (by decide) (by decide) (by decide) (by decide)
  have hv : finiteOrNull (toDouble (numeralValue "1".toList [])) = some 1 := by
    have : digitsValue "1".toList = 1 := by decide
    rw [numeralValue_int, this, finite_nat 1 (by norm_num)]
    norm_num
  have hk : normalizeName "/2 cup milk".toList = "/2 cup milk".toList := by decide
  rw [hv, hk] at h
  have h2 : parseIngredientLine "1/2 cup milk".toList =
      some { qty := some 1, unit := [], name := "/2 cup milk".toList,
             key := "/2 cup milk".toList } := h
  refine ⟨h2, ?_⟩
  rw [h2]
  intro hc
  have hu := congrArg (fun o => o.map (fun r => r.unit)) hc
  exact absurd hu (by decide)

/-- C3 (counterexample): with the numeral `1` followed by 309 zeros in the place of `w`,
`Number` gives `Infinity`, the sum is not finite and the quantity is `null`, not
`w + 1/2`. -/
theorem parseIngredientLine_mixed_overflow :
    parseIngredientLine (bigNumeral ++ " 1/2 cups sugar".toList) =
      some { qty := none, unit := "cups".toList, name := "sugar".toList,
             key := "sugar".toList } := by
  have h := parse_mixed bigNumeral [] "1".toList "2".toList "cups".toList "sugar".toList
    isDigits_bigNumeral (by decide) (by decide) (by decide) (by decide) (by decide)
    (by decide) (by decide) (by decide)
  have hl : toLowerCase "cups".toList = "cups".toList := by decide
  have hk : normalizeName "sugar".toList = "sugar".toList := by decide
  have hq : finiteOrNull (numAdd (toDouble (numeralValue bigNumeral []))
      (numDiv (toDouble (digitsValue "1".toList : ℚ)) (toDouble (digitsValue "2".toList : ℚ)))) =
      none := by
    rw [toDouble_bigNumeral, digitsValue_one, digitsValue_two, toDouble_nat 1 (by norm_num),
      toDouble_nat 2 (by norm_num)]
    have hd : numDiv (Num.fin ((1 : ℕ) : ℚ)) (Num.fin ((2 : ℕ) : ℚ)) = Num.fin (1 / 2) := by
      have h2 : ((2 : ℕ) : ℚ) ≠ 0 := by norm_num
      rw [numDiv, if_neg h2]
      have := @toDouble_of_double (1 / 2) 1 (-1) (by norm_num) (by norm_num) (by norm_num)
        (lt_of_lt_of_le (by norm_num) (one_le_zpow₀ (by norm_num) (by norm_num)))
      simpa using this
    rw [hd]
    rfl
  rw [hq, hl, hk] at h
  exact h

/-- C3 (amended): a line `w n/d U N` (a numeral `w`, a fraction with a non-zero
denominator, an alphabetic word `U` and a non-empty trimmed remainder `N` on one line,
separated by single spaces) parses to unit `U` lower-cased, name `N` and the quantity
`w + n/d` as the code computes it: `w`, `n` and `d` are read as doubles, the quotient
and the sum are rounded to doubles, and a result that is not finite gives `null`.
When `w`, `n`, `d`, `n/d` and `w + n/d` are doubles the quantity is `w + n/d`. -/
theorem parseIngredientLine_mixed (ip fp n d U N : Str) (hip : isDigits ip = true)
    (hfp : fp.all isDigit = true) (hn : isDigits n = true) (hd : isDigits d = true)
    (hd0 : digitsValue d ≠ 0) (hU : isWord U = true) (hN : N ≠ []) (htrim : trim N = N)
    (hline : isOneLine N = true) :
    parseIngredientLine
        (numeralText ip fp ++ ' ' :: (n ++ '/' :: (d ++ ' ' :: (U ++ ' ' :: N)))) =
      some { qty := finiteOrNull (numAdd (toDouble (numeralValue ip fp))
               (numDiv (toDouble (digitsValue n : ℚ)) (toDouble (digitsValue d : ℚ)))),
             unit := toLowerCase U, name := N, key := normalizeName N } ∧
    (toDouble (numeralValue ip fp) = Num.fin (numeralValue ip fp) →
      toDouble (digitsValue n : ℚ) = Num.fin (digitsValue n : ℚ) →
      toDouble (digitsValue d : ℚ) = Num.fin (digitsValue d : ℚ) →
      toDouble ((digitsValue n : ℚ) / (digitsValue d : ℚ)) =
        Num.fin ((digitsValue n : ℚ) / (digitsValue d : ℚ)) →
      toDouble (numeralValue ip fp + (digitsValue n : ℚ) / (digitsValue d : ℚ)) =
        Num.fin (numeralValue ip fp + (digitsValue n : ℚ) / (digitsValue d : ℚ)) →
      parseIngredientLine
          (numeralText ip fp ++ ' ' :: (n ++ '/' :: (d ++ ' ' :: (U ++ ' ' :: N)))) =
        some { qty := some (numeralValue ip fp + (digitsValue n : ℚ) / (digitsValue d : ℚ)),
               unit := toLowerCase U, name := N, key := normalizeName N }) := by
  have h := parse_mixed ip fp n d U N hip hfp hn hd hd0 hU hN htrim hline
  refine ⟨h, ?_⟩
  intro hw hnn hdd hq hs
  have hd1 : (digitsValue d : ℚ) ≠ 0 := by exact_mod_cast hd0
  rw [h, hw, hnn, hdd, numDiv, if_neg hd1, hq, numAdd, hs]
  rfl

/-- C3 at `"2 1/2 cups sugar"`: quantity `5/2`, unit `"cups"`, name `"sugar"`. -/
theorem parseIngredientLine_mixed_witness :
    parseIngredientLine "2 1/2 cups sugar".toList =
      some { qty := some (5 / 2), unit := "cups".toList, name := "sugar".toList,
             key := "sugar".toList } := by
  have h := (parseIngredientLine_mixed "2".toList [] "1".toList "2".toList "cups".toList
    "sugar".toList (by decide) (by decide) (by decide) (by decide) (by decide) (by decide)
    (by decide) (by decide) (by decide)).2
  have hl : toLowerCase "cups".toList = "cups".toList := by decide
  have hk : normalizeName "sugar".toList = "sugar".toList := by decide
  rw [numeralValue_int, digitsValue_one, digitsValue_two, hl, hk] at h
  have h1 := toDouble_nat 1 (by norm_num)
  have h2 := toDouble_nat 2 (by norm_num)
  have h3 : toDouble (((1 : ℕ) : ℚ) / ((2 : ℕ) : ℚ)) = Num.fin (((1 : ℕ) : ℚ) / ((2 : ℕ) : ℚ)) :=
    @toDouble_of_double _ 1 (-1) (by norm_num) (by norm_num) (by norm_num)
      (lt_of_lt_of_le (by norm_num) (one_le_zpow₀ (by norm_num) (by norm_num)))
  have h4 : toDouble (((2 : ℕ) : ℚ) + ((1 : ℕ) : ℚ) / ((2 : ℕ) : ℚ)) =
      Num.fin (((2 : ℕ) : ℚ) + ((1 : ℕ) : ℚ) / ((2 : ℕ) : ℚ)) :=
    @toDouble_of_double _ 5 (-1) (by norm_num) (by norm_num) (by norm_num)
      (lt_of_lt_of_le (by norm_num) (zpow_le_zpow_right₀ (by norm_num : (1 : ℚ) ≤ 2)
        (by norm_num : (2 : ℤ) ≤ 1024)))
  have h5 := h h2 h1 h2 h3 h4
  norm_num at h5
  exact h5

/-- C4 (counterexample): for the numeral `1` followed by 309 zeros `Number` gives
`Infinity` and the quantity is `null`, not the value of the numeral; and the numeral
`9007199254740993`, which is `2 ^ 53 + 1`, is read as `9007199254740992`. -/
theorem parseIngredientLine_basic_overflow :
    parseIngredientLine (bigNumeral ++ " cups flour".toList) =
        some { qty := none, unit := "cups".toList, name := "flour".toList,
               key := "flour".toList } ∧
      parseIngredientLine "9007199254740993 cups flour".toList =
        some { qty := some 9007199254740992, unit := "cups".toList, name := "flour".toList,
               key := "flour".toList } := by
  have hl : toLowerCase "cups".toList = "cups".toList := by decide
  have hk : normalizeName "flour".toList = "flour".toList := by decide
  constructor
  · have h := parse_basic bigNumeral [] "cups".toList "flour".toList
      isDigits_bigNumeral (by decide) (by decide) (by decide) (by decide) (by decide)
    rw [toDouble_bigNumeral, hl, hk] at h
    exact h
  · have h := parse_basic "9007199254740993".toList [] "cups".toList "flour".toList
      (by decide) (by decide) (by decide) (by decide) (by decide) (by decide)
    have hv : digitsValue "9007199254740993".toList = 9007199254740993 := by decide
    rw [numeralValue_int, hv, toDouble_tie, hl, hk] at h
    exact h

/-- C4 (amended): a line `q U N` (a numeral `q`, an alphabetic word `U` and a non-empty
trimmed remainder `N` on one line, separated by single spaces) parses to the unit `U`
lower-cased, the name `N`, the key `normalizeName(N)` and, as quantity, the double
nearest to the value of `q`, or `null` when that is not finite. When the value of `q`
is a double the quantity is the value of `q`. -/
theorem parseIngredientLine_basic (ip fp U N : Str) (hip : isDigits ip = true)
    (hfp : fp.all isDigit = true) (hU : isWord U = true) (hN : N ≠ []) (htrim : trim N = N)
    (hline : isOneLine N = true) :
    parseIngredientLine (numeralText ip fp ++ ' ' :: (U ++ ' ' :: N)) =
      some { qty := finiteOrNull (toDouble (numeralValue ip fp)), unit := toLowerCase U,
             name := N, key := normalizeName N } ∧
    (toDouble (numeralValue ip fp) = Num.fin (numeralValue ip fp) →
      parseIngredientLine (numeralText ip fp ++ ' ' :: (U ++ ' ' :: N)) =
        some { qty := some (numeralValue ip fp), unit := toLowerCase U, name := N,
               key := normalizeName N }) := by
  have h := parse_basic ip fp U N hip hfp hU hN htrim hline
  refine ⟨h, ?_⟩
  intro hw
  rw [h, hw]
  rfl

/-- C4 at `"2 cups flour"`: quantity `2`, unit `"cups"`, name `"flour"`, key `"flour"`. -/
theorem parseIngredientLine_basic_witness :
    parseIngredientLine "2 cups flour".toList =
      some { qty := some 2, unit := "cups".toList, name := "flour".toList,
             key := "flour".toList } := by
  have h := (parseIngredientLine_basic "2".toList [] "cups".toList "flour".toList (by decide)
    (by decide) (by decide) (by decide) (by decide) (by decide)).2
  have hl : toLowerCase "cups".toList = "cups".toList := by decide
  have hk : normalizeName "flour".toList = "flour".toList := by decide
  rw [numeralValue_int, digitsValue_two, hl, hk] at h
  have h2 := h (toDouble_nat 2 (by norm_num))
  norm_num at h2
  exact h2

/-- C5: when nothing follows the quantity and the unit (the line is a numeral, then
white space, then an alphabetic word that may be missing), the parser returns the
parsed quantity (the numeral read as a double, `null` when that is not finite), the
word lower-cased as unit, and as name the whole trimmed line in its original casing. -/
theorem parseIngredientLine_fallback (ip fp ws U : Str) (hip : isDigits ip = true)
    (hfp : fp.all isDigit = true) (hws : ws.all isSpace = true)
    (hU : U.all isLetter = true) :
    parseIngredientLine (numeralText ip fp ++ (ws ++ U)) =
      some { qty := finiteOrNull (toDouble (numeralValue ip fp)), unit := toLowerCase U,
             name := trim (numeralText ip fp ++ (ws ++ U)),
             key := normalizeName (trim (numeralText ip fp ++ (ws ++ U))) } :=
  parse_fallback ip fp ws U hip hfp hws hU

/-- C5 at `"2 eggs"`: quantity `2`, unit `"eggs"`, name `"2 eggs"`. -/
theorem parseIngredientLine_fallback_witness :
    parseIngredientLine "2 eggs".toList =
      some { qty := some 2, unit := "eggs".toList, name := "2 eggs".toList,
             key := "2 eggs".toList } := by
  have h := parseIngredientLine_fallback "2".toList [] " ".toList "eggs".toList (by decide)
    (by decide) (by decide) (by decide)
  have hv : finiteOrNull (toDouble (numeralValue "2".toList [])) = some 2 := by
    rw [numeralValue_int, digitsValue_two, finite_nat 2 (by norm_num)]
    norm_num
  have hl : toLowerCase "eggs".toList = "eggs".toList := by decide
  have ht : trim (numeralText "2".toList [] ++ (" ".toList ++ "eggs".toList)) = "2 eggs".toList := by
    decide
  have hk : normalizeName "2 eggs".toList = "2 eggs".toList := by decide
  rw [hv, hl, ht, hk] at h
  exact h

/-- C6: a line whose trimmed text is not empty and does not begin with a decimal digit
is returned whole: quantity `null`, empty unit, the trimmed line as name and its
normalization as key. -/
theorem parseIngredientLine_unparseable (line : Str) (hne : trim line ≠ [])
    (hd : noHead isDigit (trim line) = true) :
    parseIngredientLine line =
      some { qty := none, unit := [], name := trim line, key := normalizeName (trim line) } :=
  parse_unparseable line hne hd

/-- C6 at `"salt to taste"`: quantity `null`, unit `""`, name `"salt to taste"`. -/
theorem parseIngredientLine_unparseable_witness :
    parseIngredientLine "salt to taste".toList =
      some { qty := none, unit := [], name := "salt to taste".toList,
             key := "salt to taste".toList } := by
  have h := parseIngredientLine_unparseable "salt to taste".toList (by decide) (by decide)
  have ht : trim "salt to taste".toList = "salt to taste".toList := by decide
  have hk : normalizeName "salt to taste".toList = "salt to taste".toList := by decide
  rw [ht, hk] at h
  exact h

/-! ## Claims about the quantity aggregator -/

/-- C7 (merge law): two items with the same normalized key and the same unit and
quantities `q1`, `q2`, added to an empty map at factors `f1`, `f2`, leave exactly one
entry, whose quantity is `q1 * f1 + q2 * f2`. -/
theorem addToAggregate_merge (p1 p2 : Parsed) (f1 f2 q1 q2 : ℚ) (hkey : p1.key = p2.key)
    (hunit : p1.unit = p2.unit) (h1 : p1.qty = some q1) (h2 : p2.qty = some q2) :
    addToAggregate (addToAggregate [] p1 f1) p2 f2 =
      [(aggKey p1,
        { displayName := p1.name, unit := p1.unit, qty := some (q1 * f1 + q2 * f2),
          category := guessCategory p1.name })] :=
  merge_two p1 p2 f1 f2 q1 q2 hkey hunit h1 h2

/-- C7 at `"2 cups flour"` then `"1 cups flour"`, both at factor 1: the single entry
flour/cups with quantity `3`. -/
theorem addToAggregate_merge_witness :
    ∃ p1 p2, parseIngredientLine "2 cups flour".toList = some p1 ∧
      parseIngredientLine "1 cups flour".toList = some p2 ∧
      addToAggregate (addToAggregate [] p1 1) p2 1 =
        [("flour__cups".toList,
          { displayName := "flour".toList, unit := "cups".toList, qty := some 3,
            category := "Pantry".toList })] := by
  refine ⟨_, _, parse_two_cups_flour, parse_one_cups_flour, ?_⟩
  rw [addToAggregate_merge
    { qty := some 2, unit := "cups".toList, name := "flour".toList, key := "flour".toList }
    { qty := some 1, unit := "cups".toList, name := "flour".toList, key := "flour".toList }
    1 1 2 1 rfl rfl rfl rfl]
  have hk : aggKey (Parsed.mk (some 2) "cups".toList "flour".toList "flour".toList) =
      "flour__cups".toList := by decide
  have hc : guessCategory "flour".toList = "Pantry".toList := by decide
  rw [hk]
  simp only [hc]
  norm_num

/-- C8 (null absorption): when the map holds an entry with a non-null quantity under
the key of an item whose own quantity is `null`, the call leaves the map as it was; the
entry still has the quantity it had. -/
theorem addToAggregate_null_absorbed (m : AggMap) (item : Parsed) (f q : ℚ) (e : Entry)
    (hget : mapGet m (aggKey item) = some e) (hq : e.qty = some q)
    (hnull : item.qty = none) :
    addToAggregate m item f = m ∧
      ∃ e2, mapGet (addToAggregate m item f) (aggKey item) = some e2 ∧ e2.qty = some q := by
  have h := null_absorbed m item f e hget hnull
  refine ⟨h, e, ?_, hq⟩
  rw [h]; exact hget

/-- C8 at a map holding `(large) eggs` with quantity 2 and the unquantified line `eggs`. -/
theorem addToAggregate_null_absorbed_witness :
    addToAggregate
        [("eggs__".toList,
          { displayName := "(large) eggs".toList, unit := [], qty := some 2,
            category := "Other".toList })]
        { qty := none, unit := [], name := "eggs".toList, key := "eggs".toList } 3 =
      [("eggs__".toList,
        { displayName := "(large) eggs".toList, unit := [], qty := some 2,
          category := "Other".toList })] :=
  (addToAggregate_null_absorbed
    [("eggs__".toList,
      { displayName := "(large) eggs".toList, unit := [], qty := some 2,
        category := "Other".toList })]
    { qty := none, unit := [], name := "eggs".toList, key := "eggs".toList } 3 2
    { displayName := "(large) eggs".toList, unit := [], qty := some 2,
      category := "Other".toList } rfl rfl rfl).1

/-- C9 (null first stays null): when the first call of a sequence that files under the
key `k` carries a `null` quantity, the entry under `k` has a `null` quantity after the
whole sequence, whatever the later calls carry. -/
theorem addAll_null_first (calls : List (Parsed × ℚ)) (k : Str) (it : Parsed) (f : ℚ)
    (hfirst : firstFor k calls = some (it, f)) (hnull : it.qty = none) :
    ∃ e, mapGet (addAll [] calls) k = some e ∧ e.qty = none := by
  obtain ⟨e, he, _, _, _, hq⟩ := addAll_first calls [] k it f rfl hfirst
  exact ⟨e, he, hq hnull⟩

/-- C9 at the unquantified line `eggs` followed by `(large) eggs` with quantity 2. -/
theorem addAll_null_first_witness :
    ∃ e, mapGet
        (addAll []
          [({ qty := none, unit := [], name := "eggs".toList, key := "eggs".toList }, 1),
           ({ qty := some 2, unit := [], name := "(large) eggs".toList,
              key := "eggs".toList }, 3)])
        "eggs__".toList = some e ∧ e.qty = none :=
  addAll_null_first _ "eggs__".toList
    { qty := none, unit := [], name := "eggs".toList, key := "eggs".toList } 1 rfl rfl

/-- C10 (first-insertion fields are frozen): after any sequence of calls from an empty
map, the entry under a key has the name, the unit and the category `guessCategory(name)`
of the first item of the sequence filed under that key. -/
theorem addAll_first_fields (calls : List (Parsed × ℚ)) (k : Str) (e : Entry)
    (h : mapGet (addAll [] calls) k = some e) :
    ∃ it f, firstFor k calls = some (it, f) ∧ e.displayName = it.name ∧ e.unit = it.unit ∧
      e.category = guessCategory it.name := by
  cases hf : firstFor k calls with
  | none =>
    rw [addAll_absent calls [] k rfl hf] at h
    cases h
  | some c =>
    obtain ⟨it, f⟩ := c
    obtain ⟨e2, he2, hn, hu, hc, _⟩ := addAll_first calls [] k it f rfl hf
    rw [he2] at h
    cases h
    exact ⟨it, f, rfl, hn, hu, hc⟩

/-- C10 at `Flour` followed by `flour (sifted)`, both filed under `flour__cups`: the
entry keeps the name `Flour`. -/
theorem addAll_first_fields_witness :
    ∃ it f,
      firstFor "flour__cups".toList
          [({ qty := some 2, unit := "cups".toList, name := "Flour".toList,
              key := "flour".toList }, 1),
           ({ qty := some 1, unit := "cups".toList, name := "flour (sifted)".toList,
              key := "flour".toList }, 2)] = some (it, f) ∧
        "Flour".toList = it.name ∧ "cups".toList = it.unit ∧
        "Pantry".toList = guessCategory it.name :=
  addAll_first_fields
    [({ qty := some 2, unit := "cups".toList, name := "Flour".toList,
        key := "flour".toList }, 1),
     ({ qty := some 1, unit := "cups".toList, name := "flour (sifted)".toList,
        key := "flour".toList }, 2)]
    "flour__cups".toList
    { displayName := "Flour".toList, unit := "cups".toList, qty := some (2 * 1 + 1 * 2),
      category := "Pantry".toList }
    rfl

/-! ## The end-to-end claim -/

/-- C1 (as stated, refuted): for Recipe A `["2 cups flour", "1 tsp salt"]` at factor 2
and Recipe B `["1 cup flour"]` at factor 1, the `Pantry` section is not the two entries
flour 5 cups, salt 2 tsp. -/
theorem groupedBuild_example_not_merged :
    ¬ ∃ es,
      sectionOf "Pantry".toList
          (groupedBuild
            [(Raw.seq ["2 cups flour".toList, "1 tsp salt".toList], 2),
             (Raw.seq ["1 cup flour".toList], 1)]) = some es ∧
        es.map (fun e => (e.displayName, e.qty, e.unit)) =
          [("flour".toList, some (5 : ℚ), "cups".toList),
           ("salt".toList, some (2 : ℚ), "tsp".toList)] := by
  rintro ⟨es, hsec, hes⟩
  rw [groupedBuild_example] at hsec
  simp only [sectionOf, if_true, Option.some.injEq] at hsec
  subst hsec
  have hlen := congrArg List.length hes
  simp at hlen

/-- C1 (amended): for the same recipes the grouped result is the single section
`Pantry` with three entries, in this order: flour 4 cups, flour 1 cup, salt 2 tsp;
the units `cups` and `cup` are kept apart. -/
theorem groupedBuild_example_sections :
    groupedBuild
        [(Raw.seq ["2 cups flour".toList, "1 tsp salt".toList], 2),
         (Raw.seq ["1 cup flour".toList], 1)] =
      [("Pantry".toList,
        [{ displayName := "flour".toList, unit := "cups".toList, qty := some 4,
           category := "Pantry".toList },
         { displayName := "flour".toList, unit := "cup".toList, qty := some 1,
           category := "Pantry".toList },
         { displayName := "salt".toList, unit := "tsp".toList, qty := some 2,
           category := "Pantry".toList }])] :=
  groupedBuild_example

/-! ## Units and the scaling resolver -/

theorem aggKey_ne (p1 p2 : Parsed) (hkey : p1.key = p2.key) (hunit : p1.unit ≠ p2.unit) :
    aggKey p1 ≠ aggKey p2 := by
  intro h
  apply hunit
  simp only [aggKey, hkey, List.append_assoc] at h
  exact List.append_cancel_left (List.append_cancel_left h)

theorem two_units (p1 p2 : Parsed) (f1 f2 : ℚ) (hkey : p1.key = p2.key)
    (hunit : p1.unit ≠ p2.unit) :
    addToAggregate (addToAggregate [] p1 f1) p2 f2 =
      [(aggKey p1,
        { displayName := p1.name, unit := p1.unit, qty := p1.qty.map (fun q => q * f1),
          category := guessCategory p1.name }),
       (aggKey p2,
        { displayName := p2.name, unit := p2.unit, qty := p2.qty.map (fun q => q * f2),
          category := guessCategory p2.name })] := by
  have hne := aggKey_ne p1 p2 hkey hunit
  rw [addToAggregate_absent [] p1 f1 rfl]
  rw [addToAggregate_absent _ p2 f2 (by simp [mapGet, hne])]
  cases p1.qty <;> cases p2.qty <;> rfl

theorem clampMultiplier_spec :
    clampMultiplier none = 1 ∧
      (∀ x : ℚ, x ≤ 0 → clampMultiplier (some x) = 1) ∧
      (∀ x : ℚ, 100 < x → clampMultiplier (some x) = 100) ∧
      (∀ x : ℚ, 0 < x → x < 1 / 100 → clampMultiplier (some x) = 1 / 100) ∧
      (∀ x : ℚ, 1 / 100 ≤ x → x ≤ 100 → clampMultiplier (some x) = x) ∧
      ∀ n : Option ℚ, 1 / 100 ≤ clampMultiplier n ∧ clampMultiplier n ≤ 100 := by
  refine ⟨rfl, ?_, ?_, ?_, ?_, ?_⟩
  · intro x hx
    simp [clampMultiplier, hx]
  · intro x hx
    have h0 : ¬ x ≤ 0 := by linarith
    have h1 : max x (1 / 100) = x := max_eq_left (by linarith)
    simp only [clampMultiplier, if_neg h0, h1]
    exact min_eq_right (le_of_lt hx)
  · intro x h0 hx
    have h0' : ¬ x ≤ 0 := not_le.mpr h0
    have h1 : max x (1 / 100) = 1 / 100 := max_eq_right (le_of_lt hx)
    simp only [clampMultiplier, if_neg h0', h1]
    exact min_eq_left (by norm_num)
  · intro x h1 h2
    have h0 : ¬ x ≤ 0 := by linarith
    simp only [clampMultiplier, if_neg h0, max_eq_left h1]
    exact min_eq_left h2
  · intro n
    cases n with
    | none => simp only [clampMultiplier]; norm_num
    | some x =>
      by_cases h0 : x ≤ 0
      · simp only [clampMultiplier, if_pos h0]; norm_num
      · simp only [clampMultiplier, if_neg h0]
        refine ⟨le_min (le_max_right _ _) (by norm_num), min_le_right _ _⟩

theorem factorGet_factorSet_same (m : FactorMap) (k : Str) (v : ℚ) :
    factorGet (factorSet m k v) k = some v := by
  induction m with
  | nil => simp [factorSet, factorGet]
  | cons kv m ih =>
    obtain ⟨k1, v1⟩ := kv
    by_cases h : k1 = k
    · simp [factorSet, factorGet, h]
    · simp [factorSet, factorGet, h, ih]

theorem factorGet_factorSet_other (m : FactorMap) (k k2 : Str) (v : ℚ) (hk : k ≠ k2) :
    factorGet (factorSet m k v) k2 = factorGet m k2 := by
  induction m with
  | nil => simp [factorSet, factorGet, hk]
  | cons kv m ih =>
    obtain ⟨k1, v1⟩ := kv
    by_cases h : k1 = k
    · subst h
      simp [factorSet, factorGet, hk]
    · by_cases h2 : k1 = k2
      · simp only [factorSet, if_neg h, factorGet, if_pos h2]
      · simp only [factorSet, if_neg h, factorGet, if_neg h2, ih]

theorem orDefault_zero (v : Option ℚ) : orDefault v 0 = v.getD 0 := by
  cases v with
  | none => rfl
  | some x =>
    by_cases h : x = 0
    · simp [orDefault, h]
    · simp [orDefault, h]

theorem fold_addFactor {α : Type} (key : α → Str) (val : α → ℚ) (l : List α) :
    ∀ (m : FactorMap) (id : Str),
      factorGet (l.foldl (fun m a => addFactor m (key a) (val a)) m) id =
        if l.any (fun a => decide (key a = id)) || (factorGet m id).isSome then
          some ((factorGet m id).getD 0 +
            ((l.filter (fun a => decide (key a = id))).map val).sum)
        else none := by
  induction l with
  | nil =>
    intro m id
    cases h : factorGet m id <;> simp [h]
  | cons a l ih =>
    intro m id
    rw [List.foldl_cons, ih]
    by_cases hk : key a = id
    · subst hk
      simp only [addFactor, factorGet_factorSet_same, orDefault_zero, List.any_cons,
        decide_True, Bool.true_or, Option.isSome_some, Bool.or_true, if_true,
        Option.getD_some, List.filter_cons_of_pos, List.map_cons, List.sum_cons]
      congr 1
      ring
    · have hk2 : decide (key a = id) = false := by simpa using hk
      simp only [addFactor, factorGet_factorSet_other _ _ _ _ hk, List.any_cons, hk2,
        Bool.false_or, List.filter_cons, Bool.false_eq_true, if_false]


theorem sum_bounds (l : List ℚ) (a b : ℚ) (h : ∀ x ∈ l, a ≤ x ∧ x ≤ b) :
    a * l.length ≤ l.sum ∧ l.sum ≤ b * l.length := by
  induction l with
  | nil => simp
  | cons x l ih =>
    have hx := h x (by simp)
    have hl := ih (fun y hy => h y (by simp [hy]))
    simp only [List.sum_cons, List.length_cons, Nat.cast_add, Nat.cast_one]
    constructor <;> nlinarith [hx.1, hx.2, hl.1, hl.2]

theorem clampMultiplier_bounds (n : Option ℚ) :
    1 / 100 ≤ clampMultiplier n ∧ clampMultiplier n ≤ 100 := by
  cases n with
  | none => simp only [clampMultiplier]; norm_num
  | some x =>
    by_cases h0 : x ≤ 0
    · simp only [clampMultiplier, if_pos h0]; norm_num
    · simp only [clampMultiplier, if_neg h0]
      exact ⟨le_min (le_max_right _ _) (by norm_num), min_le_right _ _⟩

/-- The sum that the factor map holds for an id: all its contributions. -/
theorem factorGet_recipeFactors (useMeals : Bool) (meals : List Meal)
    (selected : List (Str × Option (Option ℚ))) (id : Str) :
    factorGet (recipeFactors useMeals meals selected) id =
      if hasDemand id (effectiveMeals useMeals meals) selected then
        some (mealSum id (effectiveMeals useMeals meals) +
          ((selected.filter (fun r => decide (r.1 = id))).map
            (fun r => clampMultiplier (orOne r.2))).sum)
      else none := by
  have hm : (if useMeals then
      meals.foldl (fun m meal => addFactor m meal.recipe_id (clampMultiplier (orOne meal.servings)))
        ([] : FactorMap)
    else []) =
      (effectiveMeals useMeals meals).foldl
        (fun m meal => addFactor m meal.recipe_id (clampMultiplier (orOne meal.servings))) [] := by
    cases useMeals <;> simp [effectiveMeals]
  simp only [recipeFactors, hm]
  rw [fold_addFactor (fun r : Str × Option (Option ℚ) => r.1)
    (fun r => clampMultiplier (orOne r.2)) selected]
  rw [fold_addFactor (fun m : Meal => m.recipe_id) (fun m => clampMultiplier (orOne m.servings))
    (effectiveMeals useMeals meals)]
  simp only [factorGet, Option.isSome_none, Bool.or_false, Option.getD_none, zero_add, hasDemand,
    mealSum]
  by_cases h1 : (effectiveMeals useMeals meals).any (fun a => decide (a.recipe_id = id)) = true
  · simp [h1, add_comm]
  · have h1' : (effectiveMeals useMeals meals).any (fun a => decide (a.recipe_id = id)) = false := by
      simpa using h1
    have hf : (effectiveMeals useMeals meals).filter (fun a => decide (a.recipe_id = id)) = [] := by
      rw [List.filter_eq_nil_iff]
      intro a ha
      have := List.any_eq_false.mp h1' a ha
      simpa using this
    simp only [h1', hf, Bool.false_or, Option.isSome_none, Bool.or_false, Option.getD_none,
      List.map_nil, List.sum_nil, zero_add, if_false, Bool.false_eq_true]


theorem manual_sum_eq (selected : List (Str × Option (Option ℚ))) (id : Str)
    (hnodup : (selected.map Prod.fst).Nodup) :
    ((selected.filter (fun r => decide (r.1 = id))).map
      (fun r => clampMultiplier (orOne r.2))).sum = manualPart id selected := by
  induction selected with
  | nil => rfl
  | cons r l ih =>
    have hn : r.1 ∉ l.map Prod.fst ∧ (l.map Prod.fst).Nodup := by
      simpa using hnodup
    by_cases hk : r.1 = id
    · have hf : l.filter (fun r => decide (r.1 = id)) = [] := by
        rw [List.filter_eq_nil_iff]
        intro a ha hd
        have ha1 : a.1 = id := by simpa using hd
        apply hn.1
        rw [hk, ← ha1]
        exact List.mem_map_of_mem Prod.fst ha
      simp [manualPart, List.find?, hk, hf]
    · have ih2 := ih hn.2
      simp only [manualPart] at ih2 ⊢
      simp [List.find?, hk, ih2]

theorem demandCount_pos (id : Str) (meals : List Meal)
    (selected : List (Str × Option (Option ℚ))) (h : hasDemand id meals selected = true) :
    1 ≤ demandCount id meals selected := by
  simp only [hasDemand, Bool.or_eq_true, List.any_eq_true, decide_eq_true_eq] at h
  simp only [demandCount]
  rcases h with ⟨m, hm, hid⟩ | ⟨r, hr, hid⟩
  · have : m ∈ meals.filter (fun m => decide (m.recipe_id = id)) := by
      simp [List.mem_filter, hm, hid]
    have := List.length_pos_of_mem this
    omega
  · have : r ∈ selected.filter (fun r => decide (r.1 = id)) := by
      simp [List.mem_filter, hr, hid]
    have := List.length_pos_of_mem this
    omega

theorem total_bounds (id : Str) (meals : List Meal)
    (selected : List (Str × Option (Option ℚ))) :
    (1 / 100 : ℚ) * (demandCount id meals selected : ℚ) ≤
        mealSum id meals +
          ((selected.filter (fun r => decide (r.1 = id))).map
            (fun r => clampMultiplier (orOne r.2))).sum ∧
      mealSum id meals +
          ((selected.filter (fun r => decide (r.1 = id))).map
            (fun r => clampMultiplier (orOne r.2))).sum ≤
        100 * (demandCount id meals selected : ℚ) := by
  have h1 := sum_bounds
    ((meals.filter (fun m => decide (m.recipe_id = id))).map
      (fun m => clampMultiplier (orOne m.servings))) (1 / 100) 100
    (by
      intro x hx
      obtain ⟨m, _, rfl⟩ := List.mem_map.mp hx
      exact clampMultiplier_bounds _)
  have h2 := sum_bounds
    ((selected.filter (fun r => decide (r.1 = id))).map
      (fun r => clampMultiplier (orOne r.2))) (1 / 100) 100
    (by
      intro x hx
      obtain ⟨m, _, rfl⟩ := List.mem_map.mp hx
      exact clampMultiplier_bounds _)
  simp only [List.length_map] at h1 h2
  simp only [demandCount, mealSum, Nat.cast_add]
  constructor <;> linarith [h1.1, h1.2, h2.1, h2.2]

theorem finalFactor_of_demand (useMeals : Bool) (meals : List Meal)
    (selected : List (Str × Option (Option ℚ))) (g : ℚ) (r : Recipe)
    (h : hasDemand r.id (effectiveMeals useMeals meals) selected = true) :
    finalFactor (recipeFactors useMeals meals selected) g r =
      (mealSum r.id (effectiveMeals useMeals meals) +
        ((selected.filter (fun x => decide (x.1 = r.id))).map
          (fun x => clampMultiplier (orOne x.2))).sum) * g := by
  have hb := total_bounds r.id (effectiveMeals useMeals meals) selected
  have hc := demandCount_pos r.id _ _ h
  have hc' : (1 : ℚ) ≤ (demandCount r.id (effectiveMeals useMeals meals) selected : ℚ) := by
    exact_mod_cast hc
  have hne : mealSum r.id (effectiveMeals useMeals meals) +
      ((selected.filter (fun x => decide (x.1 = r.id))).map
        (fun x => clampMultiplier (orOne x.2))).sum ≠ 0 := by
    intro h0
    rw [h0] at hb
    linarith [hb.1]
  simp only [finalFactor, factorGet_recipeFactors, h, if_true, orDefault, if_neg hne]

theorem finalFactor_no_demand (useMeals : Bool) (meals : List Meal)
    (selected : List (Str × Option (Option ℚ))) (g : ℚ) (r : Recipe)
    (h : hasDemand r.id (effectiveMeals useMeals meals) selected = false) :
    finalFactor (recipeFactors useMeals meals selected) g r = 1 * g := by
  simp [finalFactor, factorGet_recipeFactors, h, orDefault]

theorem finalFactor_bounds (useMeals : Bool) (meals : List Meal)
    (selected : List (Str × Option (Option ℚ))) (multiplier : Option ℚ) (r : Recipe) :
    1 / 10000 ≤
        finalFactor (recipeFactors useMeals meals selected) (clampMultiplier multiplier) r ∧
      finalFactor (recipeFactors useMeals meals selected) (clampMultiplier multiplier) r ≤
        10000 * (max 1 (demandCount r.id (effectiveMeals useMeals meals) selected) : ℕ) := by
  have hg := clampMultiplier_bounds multiplier
  cases h : hasDemand r.id (effectiveMeals useMeals meals) selected with
  | false =>
    rw [finalFactor_no_demand _ _ _ _ _ h]
    have hm : (1 : ℚ) ≤ (max 1 (demandCount r.id (effectiveMeals useMeals meals) selected) : ℕ) := by
      exact_mod_cast le_max_left _ _
    constructor <;> nlinarith [hg.1, hg.2]
  | true =>
    rw [finalFactor_of_demand _ _ _ _ _ h]
    have hb := total_bounds r.id (effectiveMeals useMeals meals) selected
    have hc := demandCount_pos r.id _ _ h
    have hmax : max 1 (demandCount r.id (effectiveMeals useMeals meals) selected) =
        demandCount r.id (effectiveMeals useMeals meals) selected := max_eq_right hc
    rw [hmax]
    have hc' : (1 : ℚ) ≤ (demandCount r.id (effectiveMeals useMeals meals) selected : ℚ) := by
      exact_mod_cast hc
    constructor <;> nlinarith [hg.1, hg.2, hb.1, hb.2]


theorem factorGet_isSome_of_mem (m : FactorMap) (k : Str) (h : k ∈ m.map Prod.fst) :
    (factorGet m k).isSome = true := by
  induction m with
  | nil => simp at h
  | cons kv m ih =>
    obtain ⟨k1, v1⟩ := kv
    by_cases hk : k1 = k
    · simp [factorGet, hk]
    · have h2 : k ∈ m.map Prod.fst := by
        simp only [List.map_cons, List.mem_cons] at h
        rcases h with h | h
        · exact absurd h.symm hk
        · exact h
      simp [factorGet, hk, ih h2]

theorem buildRecipes_demand (useMeals : Bool) (meals : List Meal)
    (selected : List (Str × Option (Option ℚ))) (fetch : Str → Option Recipe) (r : Recipe)
    (hr : r ∈ buildRecipes (recipeFactors useMeals meals selected) fetch) :
    ∃ id, hasDemand id (effectiveMeals useMeals meals) selected = true ∧ fetch id = some r := by
  simp only [buildRecipes, List.mem_filterMap] at hr
  obtain ⟨id, hid, hf⟩ := hr
  refine ⟨id, ?_, hf⟩
  have h := factorGet_isSome_of_mem _ _ hid
  rw [factorGet_recipeFactors] at h
  cases hd : hasDemand id (effectiveMeals useMeals meals) selected with
  | true => rfl
  | false => simp [hd] at h

/-! ## Claims about units and the scaling resolver -/

/-- C11 (no unit conversion): two items with the same normalized key and different unit
strings, added to an empty map, make two entries under two different keys, each with its
own scaled quantity. -/
theorem addToAggregate_units_apart (p1 p2 : Parsed) (f1 f2 : ℚ) (hkey : p1.key = p2.key)
    (hunit : p1.unit ≠ p2.unit) :
    aggKey p1 ≠ aggKey p2 ∧
      addToAggregate (addToAggregate [] p1 f1) p2 f2 =
        [(aggKey p1,
          { displayName := p1.name, unit := p1.unit, qty := p1.qty.map (fun q => q * f1),
            category := guessCategory p1.name }),
         (aggKey p2,
          { displayName := p2.name, unit := p2.unit, qty := p2.qty.map (fun q => q * f2),
            category := guessCategory p2.name })] :=
  ⟨aggKey_ne p1 p2 hkey hunit, two_units p1 p2 f1 f2 hkey hunit⟩

/-- C11 at `"2 cups flour"` and `"1 cup flour"`, at factors 3 and 1: flour/cups with
quantity 6 and flour/cup with quantity 1. -/
theorem addToAggregate_units_apart_witness :
    ∃ p1 p2, parseIngredientLine "2 cups flour".toList = some p1 ∧
      parseIngredientLine "1 cup flour".toList = some p2 ∧
      addToAggregate (addToAggregate [] p1 3) p2 1 =
        [("flour__cups".toList,
          { displayName := "flour".toList, unit := "cups".toList, qty := some 6,
            category := "Pantry".toList }),
         ("flour__cup".toList,
          { displayName := "flour".toList, unit := "cup".toList, qty := some 1,
            category := "Pantry".toList })] := by
  refine ⟨_, _, parse_two_cups_flour, parse_one_cup_flour, ?_⟩
  rw [(addToAggregate_units_apart
    { qty := some 2, unit := "cups".toList, name := "flour".toList, key := "flour".toList }
    { qty := some 1, unit := "cup".toList, name := "flour".toList, key := "flour".toList }
    3 1 rfl (by decide)).2]
  have hk1 : aggKey (Parsed.mk (some 2) "cups".toList "flour".toList "flour".toList) =
      "flour__cups".toList := by decide
  have hk2 : aggKey (Parsed.mk (some 1) "cup".toList "flour".toList "flour".toList) =
      "flour__cup".toList := by decide
  have hc : guessCategory "flour".toList = "Pantry".toList := by decide
  rw [hk1, hk2]
  simp only [hc, Option.map_some']
  norm_num

/-- C12 (clamping): `clampMultiplier` gives 1 on a non-finite or non-positive number,
100 above 100, 1/100 strictly between 0 and 1/100, the number itself otherwise; the
result always lies in `[1/100, 100]`. -/
theorem clampMultiplier_cases :
    clampMultiplier none = 1 ∧
      (∀ x : ℚ, x ≤ 0 → clampMultiplier (some x) = 1) ∧
      (∀ x : ℚ, 100 < x → clampMultiplier (some x) = 100) ∧
      (∀ x : ℚ, 0 < x → x < 1 / 100 → clampMultiplier (some x) = 1 / 100) ∧
      (∀ x : ℚ, 1 / 100 ≤ x → x ≤ 100 → clampMultiplier (some x) = x) ∧
      ∀ n : Option ℚ, 1 / 100 ≤ clampMultiplier n ∧ clampMultiplier n ≤ 100 :=
  clampMultiplier_spec

/-- C13 (scaling resolver): when the manual selection has one entry per recipe id, a
recipe with at least one source of demand is scaled by (sum of its clamped meal
servings + its clamped manual factor, an absent source counting 0) times the clamped
global multiplier; and every recipe of the aggregation loop was requested for an id that
has a source of demand, so that, the store answering with the record of the requested
id, a recipe without demand contributes nothing. -/
theorem finalFactor_formula (useMeals : Bool) (meals : List Meal)
    (selected : List (Str × Option (Option ℚ))) (multiplier : Option ℚ)
    (fetch : Str → Option Recipe) (hnodup : (selected.map Prod.fst).Nodup)
    (hfetch : ∀ id r, fetch id = some r → r.id = id) :
    (∀ r : Recipe, hasDemand r.id (effectiveMeals useMeals meals) selected = true →
        finalFactor (recipeFactors useMeals meals selected) (clampMultiplier multiplier) r =
          (mealSum r.id (effectiveMeals useMeals meals) + manualPart r.id selected) *
            clampMultiplier multiplier) ∧
      ∀ r ∈ buildRecipes (recipeFactors useMeals meals selected) fetch,
        hasDemand r.id (effectiveMeals useMeals meals) selected = true := by
  constructor
  · intro r h
    rw [finalFactor_of_demand _ _ _ _ _ h, manual_sum_eq selected r.id hnodup]
  · intro r hr
    obtain ⟨id, hd, hf⟩ := buildRecipes_demand useMeals meals selected fetch r hr
    rw [hfetch id r hf]
    exact hd

/-- C13 at recipe `7` with two meals (servings 2 and a missing servings field), a
manual factor 3 and the global multiplier 2: the factor is `(2 + 1 + 3) * 2 = 12`. -/
theorem finalFactor_formula_witness :
    finalFactor
        (recipeFactors true
          [⟨"7".toList, some (some 2)⟩, ⟨"7".toList, none⟩, ⟨"8".toList, some (some 5)⟩]
          [("7".toList, some (some 3))])
        (clampMultiplier (some 2)) ⟨"7".toList, Raw.absent⟩ = 12 := by
  have h := (finalFactor_formula true
    [⟨"7".toList, some (some 2)⟩, ⟨"7".toList, none⟩, ⟨"8".toList, some (some 5)⟩]
    [("7".toList, some (some 3))] (some 2) (fun id => some ⟨id, Raw.absent⟩)
    (by decide) (by intro id r h; cases h; rfl)).1 ⟨"7".toList, Raw.absent⟩ (by decide)
  rw [h]
  have h7 : ("7".toList = "7".toList) = True := by simp
  have h8 : ("8".toList = "7".toList) = False := by simp
  simp only [mealSum, manualPart, effectiveMeals, if_true, List.filter, List.find?, h7, h8,
    decide_True, decide_False, List.map, List.sum_cons, List.sum_nil, orOne]
  have c2 : clampMultiplier (some 2) = 2 := clampMultiplier_spec.2.2.2.2.1 2 (by norm_num) (by norm_num)
  have c1 : clampMultiplier (some 1) = 1 := clampMultiplier_spec.2.2.2.2.1 1 (by norm_num) (by norm_num)
  have c3 : clampMultiplier (some 3) = 3 := clampMultiplier_spec.2.2.2.2.1 3 (by norm_num) (by norm_num)
  rw [c2, c1, c3]
  norm_num

/-- C14 (as stated, refuted): a recipe selected manually at factor 100 with the global
multiplier 2 is scaled by 200, outside `[1/100, 100]`. -/
theorem finalFactor_above_range :
    ¬ (1 / 100 ≤
          finalFactor (recipeFactors false [] [("7".toList, some (some 100))])
            (clampMultiplier (some 2)) ⟨"7".toList, Raw.absent⟩ ∧
        finalFactor (recipeFactors false [] [("7".toList, some (some 100))])
            (clampMultiplier (some 2)) ⟨"7".toList, Raw.absent⟩ ≤ 100) := by
  have h := finalFactor_of_demand false [] [("7".toList, some (some 100))]
    (clampMultiplier (some 2)) ⟨"7".toList, Raw.absent⟩ (by decide)
  have c2 : clampMultiplier (some 2) = 2 := clampMultiplier_spec.2.2.2.2.1 2 (by norm_num) (by norm_num)
  have c100 : clampMultiplier (some 100) = 100 :=
    clampMultiplier_spec.2.2.2.2.1 100 (by norm_num) (by norm_num)
  rw [h, c2]
  simp only [mealSum, effectiveMeals, List.filter, decide_True, List.map, List.sum_cons,
    List.sum_nil, orOne, c100, Bool.false_eq_true, if_false]
  norm_num

/-- C14 (amended): the scale factor of a recipe is at least `1/10000` and at most
`10000 * n`, where `n` is the number of demand sources of the recipe (its meal
occurrences and its manual selection; 1 when the record's id has none): the servings,
the manual factor and the global multiplier are each clamped, their sum and product are
not. -/
theorem finalFactor_range (useMeals : Bool) (meals : List Meal)
    (selected : List (Str × Option (Option ℚ))) (multiplier : Option ℚ) (r : Recipe) :
    1 / 10000 ≤
        finalFactor (recipeFactors useMeals meals selected) (clampMultiplier multiplier) r ∧
      finalFactor (recipeFactors useMeals meals selected) (clampMultiplier multiplier) r ≤
        10000 * (max 1 (demandCount r.id (effectiveMeals useMeals meals) selected) : ℕ) :=
  finalFactor_bounds useMeals meals selected multiplier r

/-! ## Whole words in the category patterns -/

theorem toNat_ofNat_ascii : ∀ n, n < 128 → (Char.ofNat n).toNat = n := by decide

theorem isWordChar_canonChar (c : Char) : isWordChar (canonChar c) = isWordChar c := by
  unfold canonChar
  split
  · rename_i h
    simp only [Bool.and_eq_true, decide_eq_true_eq] at h
    have h1 := toNat_ofNat_ascii (c.toNat - 32) (by omega)
    have hl : isLetter c = true := by
      simp only [isLetter, Bool.or_eq_true, Bool.and_eq_true, decide_eq_true_eq]; omega
    have hu : isLetter (Char.ofNat (c.toNat - 32)) = true := by
      simp only [isLetter, h1, Bool.or_eq_true, Bool.and_eq_true, decide_eq_true_eq]; omega
    simp [isWordChar, hl, hu]
  · rfl

theorem isWordChar_of_canon {c d : Char} (h : canonChar c = canonChar d) :
    isWordChar c = isWordChar d := by
  rw [← isWordChar_canonChar c, ← isWordChar_canonChar d, h]

theorem lastOr_cons (prev : Option Char) (c : Char) (w : Str) :
    lastOr prev (c :: w) = lastOr (some c) w := rfl

theorem lastOr_append (prev : Option Char) (a b : Str) :
    lastOr prev (a ++ b) = lastOr (lastOr prev a) b := by
  simp [lastOr, List.foldl_append]

theorem isWordOpt_lastOr (w : Str) : ∀ (prev : Option Char),
    isWordOpt (lastOr prev w) =
      (match w.reverse with
        | [] => isWordOpt prev
        | c :: _ => isWordChar c) := by
  induction w with
  | nil => intro prev; rfl
  | cons c w ih =>
    intro prev
    rw [lastOr_cons, ih, List.reverse_cons]
    cases hr : w.reverse with
    | nil => simp [isWordOpt]
    | cons d t => simp

theorem wordBoundary_eq (prev : Option Char) (s : Str) :
    wordBoundary prev s = (isWordOpt prev != !noHead isWordChar s) := by
  cases prev <;> cases s <;> simp [wordBoundary, isWordOpt, noHead]

theorem matchWord_iff (kw : Str) : ∀ (prev : Option Char) (s : Str) (last : Option Char) (r : Str),
    matchWord kw prev s = some (last, r) ↔
      ∃ w, s = w ++ r ∧ w.map canonChar = kw.map canonChar ∧ last = lastOr prev w := by
  induction kw with
  | nil =>
    intro prev s last r
    simp only [matchWord, Option.some.injEq, Prod.mk.injEq, List.map_nil, List.map_eq_nil_iff]
    constructor
    · rintro ⟨h1, h2⟩
      exact ⟨[], by simp [h2], rfl, by simp [lastOr, h1]⟩
    · rintro ⟨w, h1, h2, h3⟩
      subst h2
      simp only [lastOr, List.foldl_nil] at h3
      exact ⟨h3.symm, by simpa using h1⟩
  | cons k ks ih =>
    intro prev s last r
    cases s with
    | nil =>
      simp only [matchWord]
      constructor
      · intro h; cases h
      rintro ⟨w, h1, h2, _⟩
      have hw : w = [] := (List.append_eq_nil.mp h1.symm).1
      subst hw
      simp at h2
    | cons c cs =>
      simp only [matchWord]
      by_cases hc : canonChar k = canonChar c
      · rw [if_pos hc, ih]
        constructor
        · rintro ⟨w, h1, h2, h3⟩
          exact ⟨c :: w, by simp [h1], by simp [h2, hc], by simpa [lastOr_cons] using h3⟩
        · rintro ⟨w, h1, h2, h3⟩
          cases w with
          | nil => simp at h2
          | cons d w =>
            simp only [List.cons_append, List.cons.injEq] at h1
            simp only [List.map_cons, List.cons.injEq] at h2
            obtain ⟨rfl, h1⟩ := h1
            exact ⟨w, h1, h2.2, by simpa [lastOr_cons] using h3⟩
      · rw [if_neg hc]
        constructor
        · intro h; cases h
        rintro ⟨w, h1, h2, _⟩
        cases w with
        | nil => simp at h2
        | cons d w =>
          simp only [List.cons_append, List.cons.injEq] at h1
          simp only [List.map_cons, List.cons.injEq] at h2
          obtain ⟨rfl, _⟩ := h1
          exact absurd h2.1.symm hc


theorem hintAt_iff (kws : List Str) (prev : Option Char) (s : Str) :
    hintAt kws prev s = true ↔
      wordBoundary prev s = true ∧
        ∃ kw ∈ kws, ∃ w r, s = w ++ r ∧ w.map canonChar = kw.map canonChar ∧
          wordBoundary (lastOr prev w) r = true := by
  simp only [hintAt, Bool.and_eq_true, List.any_eq_true]
  constructor
  · rintro ⟨hb, kw, hkw, h⟩
    refine ⟨hb, kw, hkw, ?_⟩
    cases hm : matchWord kw prev s with
    | none => rw [hm] at h; cases h
    | some res =>
      obtain ⟨last, r⟩ := res
      rw [hm] at h
      obtain ⟨w, h1, h2, h3⟩ := (matchWord_iff kw prev s last r).mp hm
      exact ⟨w, r, h1, h2, by rw [← h3]; exact h⟩
  · rintro ⟨hb, kw, hkw, w, r, h1, h2, h3⟩
    refine ⟨hb, kw, hkw, ?_⟩
    have hm := (matchWord_iff kw prev s (lastOr prev w) r).mpr ⟨w, h1, h2, rfl⟩
    rw [hm]
    exact h3

theorem hintTest_iff (kws : List Str) (s : Str) : ∀ (prev : Option Char),
    hintTest kws prev s = true ↔
      ∃ pre rest, s = pre ++ rest ∧ hintAt kws (lastOr prev pre) rest = true := by
  induction s with
  | nil =>
    intro prev
    simp only [hintTest]
    constructor
    · intro h
      exact ⟨[], [], rfl, h⟩
    · rintro ⟨pre, rest, h1, h2⟩
      obtain ⟨rfl, rfl⟩ := List.append_eq_nil.mp h1.symm
      exact h2
  | cons c cs ih =>
    intro prev
    simp only [hintTest, Bool.or_eq_true, ih]
    constructor
    · rintro (h | ⟨pre, rest, h1, h2⟩)
      · exact ⟨[], c :: cs, rfl, h⟩
      · exact ⟨c :: pre, rest, by simp [h1], by simpa [lastOr_cons] using h2⟩
    · rintro ⟨pre, rest, h1, h2⟩
      cases pre with
      | nil =>
        left
        simp only [List.nil_append] at h1
        subst h1
        exact h2
      | cons d pre =>
        right
        simp only [List.cons_append, List.cons.injEq] at h1
        obtain ⟨rfl, h1⟩ := h1
        exact ⟨pre, rest, h1, by simpa [lastOr_cons] using h2⟩

theorem keywordOk_spec {kw : Str} (h : keywordOk kw = true) :
    noHead isWordChar kw = false ∧ noHead isWordChar kw.reverse = false := by
  simpa [keywordOk] using h

theorem noHead_map_canon {a b : Str} (h : a.map canonChar = b.map canonChar) :
    noHead isWordChar a = noHead isWordChar b := by
  cases a with
  | nil =>
    cases b with
    | nil => rfl
    | cons d b => simp at h
  | cons c a =>
    cases b with
    | nil => simp at h
    | cons d b =>
      simp only [List.map_cons, List.cons.injEq] at h
      simp [noHead, isWordChar_of_canon h.1]

theorem noHead_reverse_map_canon {a b : Str} (h : a.map canonChar = b.map canonChar) :
    noHead isWordChar a.reverse = noHead isWordChar b.reverse := by
  apply noHead_map_canon
  rw [List.map_reverse, List.map_reverse, h]

/-- With a word at a position, `\b` before it says that no word character precedes. -/
theorem wordBoundary_before (prev : Option Char) (w r : Str)
    (hw : noHead isWordChar w = false) :
    wordBoundary prev (w ++ r) = !isWordOpt prev := by
  cases w with
  | nil => simp [noHead] at hw
  | cons c w =>
    have hc : isWordChar c = true := by simpa [noHead] using hw
    rw [wordBoundary_eq]
    simp [noHead, hc]

/-- After a word, `\b` says that no word character follows. -/
theorem wordBoundary_after (prev : Option Char) (w r : Str)
    (hw : noHead isWordChar w.reverse = false) :
    wordBoundary (lastOr prev w) r = noHead isWordChar r := by
  rw [wordBoundary_eq, isWordOpt_lastOr]
  cases hr : w.reverse with
  | nil => rw [hr] at hw; simp [noHead] at hw
  | cons c t =>
    rw [hr] at hw
    have hc : isWordChar c = true := by simpa [noHead] using hw
    simp [hc]

theorem hintTest_iff_occurs (kws : List Str) (name : Str)
    (hok : ∀ kw ∈ kws, keywordOk kw = true) :
    hintTest kws none name = true ↔ ∃ kw ∈ kws, OccursAsWord kw name := by
  rw [hintTest_iff]
  constructor
  · rintro ⟨pre, rest, h1, h2⟩
    obtain ⟨hb, kw, hkw, w, r, h3, h4, h5⟩ := (hintAt_iff _ _ _).mp h2
    obtain ⟨ha, hz⟩ := keywordOk_spec (hok kw hkw)
    have hwa : noHead isWordChar w = false := by rw [noHead_map_canon h4]; exact ha
    have hwz : noHead isWordChar w.reverse = false := by
      rw [noHead_reverse_map_canon h4]; exact hz
    refine ⟨kw, hkw, pre, w, r, by rw [h1, h3, List.append_assoc], h4, ?_, ?_⟩
    · rw [h3, wordBoundary_before _ _ _ hwa, isWordOpt_lastOr] at hb
      cases hr : pre.reverse with
      | nil => rfl
      | cons c t =>
        rw [hr] at hb
        simpa [noHead] using hb
    · rw [wordBoundary_after _ _ _ hwz] at h5
      exact h5
  · rintro ⟨kw, hkw, pre, w, post, h1, h2, h3, h4⟩
    obtain ⟨ha, hz⟩ := keywordOk_spec (hok kw hkw)
    have hwa : noHead isWordChar w = false := by rw [noHead_map_canon h2]; exact ha
    have hwz : noHead isWordChar w.reverse = false := by
      rw [noHead_reverse_map_canon h2]; exact hz
    refine ⟨pre, w ++ post, by rw [h1, List.append_assoc], ?_⟩
    rw [hintAt_iff]
    refine ⟨?_, kw, hkw, w, post, rfl, h2, ?_⟩
    · rw [wordBoundary_before _ _ _ hwa, isWordOpt_lastOr]
      cases hr : pre.reverse with
      | nil => rfl
      | cons c t =>
        rw [hr] at h3
        simpa [noHead] using h3
    · rw [wordBoundary_after _ _ _ hwz]
      exact h4


theorem hints_keywordOk : ∀ c ∈ CATEGORY_HINTS, ∀ kw ∈ c.2, keywordOk kw = true := by decide

theorem hints_not_other : ∀ c ∈ CATEGORY_HINTS, c.1 ≠ "Other".toList := by decide

theorem OccursAsWord_congr (kw : Str) {a b : Str} (h : a.map canonChar = b.map canonChar) :
    OccursAsWord kw a → OccursAsWord kw b := by
  rintro ⟨pre, w, post, h1, h2, h3, h4⟩
  subst h1
  rw [List.map_append, List.map_append] at h
  obtain ⟨x, post2, hb, hx, hpost⟩ := List.map_eq_append_iff.mp h.symm
  obtain ⟨pre2, w2, hx2, hpre, hw⟩ := List.map_eq_append_iff.mp hx
  refine ⟨pre2, w2, post2, by rw [hb, hx2], by rw [hw, h2], ?_, ?_⟩
  · rw [noHead_reverse_map_canon hpre]; exact h3
  · rw [noHead_map_canon hpost]; exact h4

theorem hintTest_congr (kws : List Str) (hok : ∀ kw ∈ kws, keywordOk kw = true) {a b : Str}
    (h : a.map canonChar = b.map canonChar) :
    hintTest kws none a = hintTest kws none b := by
  rw [Bool.eq_iff_iff, hintTest_iff_occurs kws a hok, hintTest_iff_occurs kws b hok]
  constructor
  · rintro ⟨kw, hkw, ho⟩
    exact ⟨kw, hkw, OccursAsWord_congr kw h ho⟩
  · rintro ⟨kw, hkw, ho⟩
    exact ⟨kw, hkw, OccursAsWord_congr kw h.symm ho⟩

theorem find_congr {α : Type} (l : List α) (p q : α → Bool) (h : ∀ x ∈ l, p x = q x) :
    l.find? p = l.find? q := by
  induction l with
  | nil => rfl
  | cons x l ih =>
    have hx := h x (by simp)
    have := ih (fun y hy => h y (by simp [hy]))
    simp [List.find?, hx, this]

theorem guessCategory_congr {a b : Str} (h : a.map canonChar = b.map canonChar) :
    guessCategory a = guessCategory b := by
  have hf : CATEGORY_HINTS.find? (fun c => hintTest c.2 none a) =
      CATEGORY_HINTS.find? (fun c => hintTest c.2 none b) :=
    find_congr _ _ _ (fun c hc => hintTest_congr c.2 (hints_keywordOk c hc) h)
  simp only [guessCategory, hf]

theorem guessCategory_other_iff (name : Str) :
    guessCategory name = "Other".toList ↔
      ∀ c ∈ CATEGORY_HINTS, ∀ kw ∈ c.2, ¬ OccursAsWord kw name := by
  constructor
  · intro h c hc kw hkw ho
    have ht : hintTest c.2 none name = true :=
      (hintTest_iff_occurs c.2 name (hints_keywordOk c hc)).mpr ⟨kw, hkw, ho⟩
    cases hf : CATEGORY_HINTS.find? (fun c => hintTest c.2 none name) with
    | none =>
      have := List.find?_eq_none.mp hf c hc
      simp [ht] at this
    | some d =>
      simp only [guessCategory, hf] at h
      exact hints_not_other d (List.mem_of_find?_eq_some hf) h
  · intro h
    have hf : CATEGORY_HINTS.find? (fun c => hintTest c.2 none name) = none := by
      rw [List.find?_eq_none]
      intro c hc ht
      obtain ⟨kw, hkw, ho⟩ := (hintTest_iff_occurs c.2 name (hints_keywordOk c hc)).mp ht
      exact h c hc kw hkw ho
    simp only [guessCategory, hf]

theorem guessCategory_meat (name : Str)
    (hmeat : ∃ kw ∈ keywordsOf "Meat & Seafood".toList, OccursAsWord kw name)
    (hprod : ∀ kw ∈ keywordsOf "Produce".toList, ¬ OccursAsWord kw name) :
    guessCategory name = "Meat & Seafood".toList := by
  have hP : hintTest (keywordsOf "Produce".toList) none name = false := by
    cases ht : hintTest (keywordsOf "Produce".toList) none name with
    | false => rfl
    | true =>
      obtain ⟨kw, hkw, ho⟩ := (hintTest_iff_occurs _ name (by decide)).mp ht
      exact absurd ho (hprod kw hkw)
  have hM : hintTest (keywordsOf "Meat & Seafood".toList) none name = true :=
    (hintTest_iff_occurs _ name (by decide)).mpr hmeat
  have hP2 : hintTest (CATEGORY_HINTS.get ⟨0, by decide⟩).2 none name = false := hP
  have hM2 : hintTest (CATEGORY_HINTS.get ⟨1, by decide⟩).2 none name = true := hM
  simp only [guessCategory, CATEGORY_HINTS, List.find?] at hP2 hM2 ⊢
  simp only [List.get] at hP2 hM2
  rw [hP2, hM2]


theorem not_occurs_of_hintTest (kws : List Str) (name : Str)
    (hok : ∀ kw ∈ kws, keywordOk kw = true) (h : hintTest kws none name = false) :
    ∀ kw ∈ kws, ¬ OccursAsWord kw name := by
  intro kw hkw ho
  have ht := (hintTest_iff_occurs kws name hok).mpr ⟨kw, hkw, ho⟩
  rw [h] at ht
  cases ht

theorem canonChar_lowerChar (c : Char) : canonChar (lowerChar c) = canonChar c := by
  unfold lowerChar
  split
  · rename_i h
    simp only [Bool.and_eq_true, decide_eq_true_eq] at h
    have h1 := toNat_ofNat_ascii (c.toNat + 32) (by omega)
    have h2 : ¬ ((97 ≤ c.toNat && c.toNat ≤ 122) = true) := by
      simp only [Bool.and_eq_true, decide_eq_true_eq]; omega
    have h3 : (97 ≤ c.toNat + 32 && c.toNat + 32 ≤ 122) = true := by
      simp only [Bool.and_eq_true, decide_eq_true_eq]; omega
    simp only [canonChar, h1, h3, if_true, if_neg h2, Nat.add_sub_cancel, Char.ofNat_toNat]
  · rfl

theorem map_canon_toLowerCase (s : Str) :
    (toLowerCase s).map canonChar = s.map canonChar := by
  simp [toLowerCase, List.map_map, Function.comp_def, canonChar_lowerChar]

/-! ## Claims about the category classifier -/

/-- C15 (category precedence): a name in which a Meat & Seafood keyword occurs as a
whole word and no Produce keyword does is classified `Meat & Seafood`, whatever
keywords of later rules occur in it. -/
theorem guessCategory_precedence (name : Str)
    (hmeat : ∃ kw ∈ keywordsOf "Meat & Seafood".toList, OccursAsWord kw name)
    (hprod : ∀ kw ∈ keywordsOf "Produce".toList, ¬ OccursAsWord kw name) :
    guessCategory name = "Meat & Seafood".toList :=
  guessCategory_meat name hmeat hprod

/-- C15 at `"chicken broth"`: the Pantry keyword `broth` occurs in it as a whole word,
and the category is `Meat & Seafood`. -/
theorem guessCategory_precedence_witness :
    OccursAsWord "broth".toList "chicken broth".toList ∧
      "broth".toList ∈ keywordsOf "Pantry".toList ∧
      guessCategory "chicken broth".toList = "Meat & Seafood".toList :=
  ⟨⟨"chicken ".toList, "broth".toList, [], rfl, rfl, by decide, by decide⟩, by decide,
    guessCategory_precedence "chicken broth".toList
      ⟨"chicken".toList, by decide, [], "chicken".toList, " broth".toList, rfl, rfl,
        by decide, by decide⟩
      (not_occurs_of_hintTest _ _ (by decide) (by decide))⟩

/-- C16 (default category, whole words, letter case): the category is `Other` exactly
when no keyword of any rule occurs in the name as a whole word, letter case aside;
`onions` and `breadcrumbs`, which hold a keyword only inside a longer word, are `Other`;
and two names that differ only in the case of letters, such as a name and its lower-cased
form, get the same category. -/
theorem guessCategory_other_and_case :
    (∀ name : Str, guessCategory name = "Other".toList ↔
        ∀ c ∈ CATEGORY_HINTS, ∀ kw ∈ c.2, ¬ OccursAsWord kw name) ∧
      guessCategory "onions".toList = "Other".toList ∧
      guessCategory "breadcrumbs".toList = "Other".toList ∧
      (∀ a b : Str, a.map canonChar = b.map canonChar → guessCategory a = guessCategory b) ∧
      ∀ name : Str, guessCategory (toLowerCase name) = guessCategory name :=
  ⟨guessCategory_other_iff, by decide, by decide, fun _ _ h => guessCategory_congr h,
    fun name => guessCategory_congr (map_canon_toLowerCase name)⟩

/-! ## The name normalizer against its reference -/

theorem isSpace_space : isSpace ' ' = true := by decide

/-! ## Quantity formatting against its reference -/

theorem digitChar_spec : ∀ d, d < 10 →
    isDigit (digitChar d) = true ∧ (d ≠ 0 → isZeroChar (digitChar d) = false) := by
  decide

theorem digitChar_zero : digitChar 0 = '0' := rfl

theorem isDigit_not_point {c : Char} (h : isDigit c = true) : (c.toNat == 46) = false :=
  (toNat_of_isDigit h).1

theorem natDigitsAux_digits (fuel : Nat) : ∀ (n : Nat) (acc : Str),
    (∀ c ∈ acc, isDigit c = true) → ∀ c ∈ natDigitsAux fuel n acc, isDigit c = true := by
  induction fuel with
  | zero => intro n acc h; simpa [natDigitsAux] using h
  | succ fuel ih =>
    intro n acc h
    simp only [natDigitsAux]
    split
    · rename_i hn
      intro c hc
      rcases List.mem_cons.mp hc with rfl | hc
      · exact (digitChar_spec n hn).1
      · exact h c hc
    · apply ih
      intro c hc
      rcases List.mem_cons.mp hc with rfl | hc
      · exact (digitChar_spec (n % 10) (Nat.mod_lt _ (by norm_num))).1
      · exact h c hc

theorem natDigits_digits (n : Nat) : ∀ c ∈ natDigits n, isDigit c = true :=
  natDigitsAux_digits _ _ _ (by simp)

theorem stripPointZeros_append (ip t : Str) (h : ∀ c ∈ ip, isDigit c = true) :
    stripPointZeros (ip ++ t) = ip ++ stripPointZeros t := by
  induction ip with
  | nil => rfl
  | cons c ip ih =>
    have hc := isDigit_not_point (h c (by simp))
    have := ih (fun d hd => h d (by simp [hd]))
    simp [stripPointZeros, hc, this]

theorem stripTrailingZeros_append (ip t : Str) (h : ∀ c ∈ ip, isDigit c = true) :
    stripTrailingZeros (ip ++ t) = ip ++ stripTrailingZeros t := by
  induction ip with
  | nil => rfl
  | cons c ip ih =>
    have hc := isDigit_not_point (h c (by simp))
    have := ih (fun d hd => h d (by simp [hd]))
    simp [stripTrailingZeros, hc, this]

theorem stripPointZeros_digits (ip : Str) (h : ∀ c ∈ ip, isDigit c = true) :
    stripPointZeros ip = ip := by
  have := stripPointZeros_append ip [] h
  simpa [stripPointZeros] using this

theorem stripTrailingZeros_digits (ip : Str) (h : ∀ c ∈ ip, isDigit c = true) :
    stripTrailingZeros ip = ip := by
  have := stripTrailingZeros_append ip [] h
  simpa [stripTrailingZeros] using this

theorem point_not_zero : isZeroChar '.' = false := by decide

theorem zero_is_zero : isZeroChar '0' = true := by decide

/-- The code side on a whole number of hundredths. -/
theorem strips_whole (ip : Str) (h : ∀ c ∈ ip, isDigit c = true) :
    stripTrailingZeros (stripPointZeros ip) = ip := by
  rw [stripPointZeros_digits ip h, stripTrailingZeros_digits ip h]

/-- The code side on one fractional digit. -/
theorem strips_one (ip : Str) (a : Char) (h : ∀ c ∈ ip, isDigit c = true)
    (ha : isDigit a = true) (hz : isZeroChar a = false) :
    stripTrailingZeros (stripPointZeros (ip ++ ['.', a])) = ip ++ ['.', a] := by
  have hp := isDigit_not_point ha
  have h1 : stripPointZeros ['.', a] = ['.', a] := by
    simp [stripPointZeros, hz, hp]
  have h2 : stripTrailingZeros ['.', a] = ['.', a] := by
    simp [stripTrailingZeros, fractionMatch, dropTrailingZeros, List.dropWhile, hz, hp]
  rw [stripPointZeros_append ip _ h, h1, stripTrailingZeros_append ip _ h, h2]

/-- The code side on two fractional digits. -/
theorem strips_two (ip : Str) (a b : Char) (h : ∀ c ∈ ip, isDigit c = true)
    (ha : isDigit a = true) (hb : isDigit b = true) (hz : isZeroChar b = false) :
    stripTrailingZeros (stripPointZeros (ip ++ ['.', a, b])) = ip ++ ['.', a, b] := by
  have hpa := isDigit_not_point ha
  have hpb := isDigit_not_point hb
  have h1 : stripPointZeros ['.', a, b] = ['.', a, b] := by
    simp [stripPointZeros, hz, hpa, hpb]
  have h2 : stripTrailingZeros ['.', a, b] = ['.', a, b] := by
    simp [stripTrailingZeros, fractionMatch, dropTrailingZeros, List.dropWhile, hz, hpa, hpb]
  rw [stripPointZeros_append ip _ h, h1, stripTrailingZeros_append ip _ h, h2]

theorem stripFraction_whole (ip : Str) :
    stripFraction (ip ++ ['.', '0', '0']) = ip := by
  simp [stripFraction, dropTrailingZeros, List.dropWhile, zero_is_zero, point_not_zero]

theorem stripFraction_one (ip : Str) (a : Char) (ha : isDigit a = true)
    (hz : isZeroChar a = false) :
    stripFraction (ip ++ ['.', a, '0']) = ip ++ ['.', a] := by
  have hne : a ≠ '.' := by
    intro h; subst h; simp [isDigit] at ha
  simp [stripFraction, dropTrailingZeros, List.dropWhile, zero_is_zero, hz, hne]

theorem stripFraction_two (ip : Str) (a b : Char) (hb : isDigit b = true)
    (hz : isZeroChar b = false) :
    stripFraction (ip ++ ['.', a, b]) = ip ++ ['.', a, b] := by
  have hne : b ≠ '.' := by
    intro h; subst h; simp [isDigit] at hb
  simp [stripFraction, dropTrailingZeros, List.dropWhile, hz, hne]


theorem format_hundredths (n : Nat) :
    stripTrailingZeros (stripPointZeros (hundredthsToString (n : ℤ))) =
      stripFraction (twoDecimals n) := by
  have hip := natDigits_digits (n / 100)
  have hneg : ¬ ((n : ℤ) < 0) := by omega
  have habs : (n : ℤ).natAbs = n := Int.natAbs_ofNat n
  simp only [hundredthsToString, if_neg hneg, habs, List.nil_append, twoDecimals]
  by_cases h100 : n % 100 = 0
  · have h10 : n % 10 = 0 := by omega
    have hd : n % 100 / 10 = 0 := by omega
    simp only [h100, if_true, List.append_nil, h10, digitChar_zero, Nat.zero_div]
    rw [strips_whole _ hip, stripFraction_whole]
  · rw [if_neg h100]
    have ha := digitChar_spec (n % 100 / 10) (by omega)
    by_cases h10 : n % 10 = 0
    · have hd : n % 100 / 10 ≠ 0 := by omega
      rw [if_pos h10, h10, digitChar_zero]
      rw [strips_one _ _ hip ha.1 (ha.2 hd), stripFraction_one _ _ ha.1 (ha.2 hd)]
    · have hb := digitChar_spec (n % 10) (by omega)
      rw [if_neg h10]
      rw [strips_two _ _ _ hip ha.1 hb.1 (hb.2 h10), stripFraction_two _ _ _ hb.1 (hb.2 h10)]

theorem mathRound_eq (x : ℚ) (k : ℤ) (h1 : (k : ℚ) ≤ x + 1 / 2) (h2 : x + 1 / 2 < k + 1) :
    mathRound x = k :=
  Int.floor_eq_iff.mpr ⟨h1, h2⟩

theorem digitChar_toNat : ∀ d, d < 10 → (digitChar d).toNat - 48 = d := by decide

theorem natDigitsAux_acc (fuel : Nat) : ∀ (n : Nat) (acc : Str),
    natDigitsAux fuel n acc = natDigitsAux fuel n [] ++ acc := by
  induction fuel with
  | zero => intro n acc; simp [natDigitsAux]
  | succ fuel ih =>
    intro n acc
    simp only [natDigitsAux]
    split
    · simp
    · rw [ih (n / 10) (digitChar (n % 10) :: acc), ih (n / 10) [digitChar (n % 10)]]
      simp

theorem digitsValue_natDigitsAux (fuel : Nat) : ∀ n, n < fuel →
    digitsValue (natDigitsAux fuel n []) = n := by
  induction fuel with
  | zero => intro n h; omega
  | succ fuel ih =>
    intro n h
    simp only [natDigitsAux]
    split
    · rename_i hn
      simp [digitsValue, digitChar_toNat n hn]
    · rename_i hn
      rw [natDigitsAux_acc]
      have h1 := ih (n / 10) (by omega)
      have h2 := digitChar_toNat (n % 10) (by omega)
      simp only [digitsValue] at h1 ⊢
      rw [List.foldl_append, h1]
      simp only [List.foldl_cons, List.foldl_nil, h2]
      omega

/-- The numeral of `n` reads back as `n`. -/
theorem digitsValue_natDigits (n : Nat) : digitsValue (natDigits n) = n :=
  digitsValue_natDigitsAux (n + 1) n (by omega)

/-! ## The order of the output -/

theorem char_eq_of_toNat {a b : Char} (h : a.toNat = b.toNat) : a = b := by
  rw [← Char.ofNat_toNat a, ← Char.ofNat_toNat b, h]

theorem lex_cons_iff (m n : Nat) (l1 l2 : List Nat) :
    List.Lex (fun x y : Nat => x < y) (m :: l1) (n :: l2) ↔
      m < n ∨ (m = n ∧ List.Lex (fun x y : Nat => x < y) l1 l2) := by
  constructor
  · intro h
    cases h with
    | cons h => exact Or.inr ⟨rfl, h⟩
    | rel h => exact Or.inl h
  · rintro (h | ⟨rfl, h⟩)
    · exact List.Lex.rel h
    · exact List.Lex.cons h

theorem lex_nil_iff (l : List Nat) : ¬ List.Lex (fun x y : Nat => x < y) l [] := by
  intro h; cases h

theorem localeCompare_lt_iff (a : Str) : ∀ b : Str, localeCompare a b = Ordering.lt ↔ lexLT a b := by
  induction a with
  | nil =>
    intro b
    cases b with
    | nil => simp [localeCompare, lexLT, lex_nil_iff]
    | cons y b => simp [localeCompare, lexLT, List.Lex.nil]
  | cons x a ih =>
    intro b
    cases b with
    | nil => simp [localeCompare, lexLT, lex_nil_iff]
    | cons y b =>
      have ih2 := ih b
      simp only [lexLT] at ih2
      simp only [localeCompare, lexLT, List.map_cons, lex_cons_iff]
      by_cases h1 : x.toNat < y.toNat
      · simp [h1]
      · rw [if_neg h1]
        by_cases h2 : y.toNat < x.toNat
        · rw [if_pos h2]
          constructor
          · intro h; cases h
          · rintro (h | ⟨h, _⟩) <;> omega
        · rw [if_neg h2, ih2]
          have he : x.toNat = y.toNat := by omega
          simp [h1, he]

theorem localeCompare_eq_iff (a : Str) : ∀ b : Str, localeCompare a b = Ordering.eq ↔ a = b := by
  induction a with
  | nil =>
    intro b
    cases b <;> simp [localeCompare]
  | cons x a ih =>
    intro b
    cases b with
    | nil => simp [localeCompare]
    | cons y b =>
      simp only [localeCompare, List.cons.injEq]
      by_cases h1 : x.toNat < y.toNat
      · rw [if_pos h1]
        constructor
        · intro h; cases h
        · rintro ⟨rfl, _⟩; omega
      · rw [if_neg h1]
        by_cases h2 : y.toNat < x.toNat
        · rw [if_pos h2]
          constructor
          · intro h; cases h
          · rintro ⟨rfl, _⟩; omega
        · rw [if_neg h2, ih b]
          have he : x = y := char_eq_of_toNat (by omega)
          simp [he]

theorem localeCompare_swap (a : Str) : ∀ b : Str,
    localeCompare b a = (localeCompare a b).swap := by
  induction a with
  | nil => intro b; cases b <;> rfl
  | cons x a ih =>
    intro b
    cases b with
    | nil => rfl
    | cons y b =>
      simp only [localeCompare]
      by_cases h1 : x.toNat < y.toNat
      · have h2 : ¬ y.toNat < x.toNat := by omega
        simp [h1, h2, Ordering.swap]
      · by_cases h2 : y.toNat < x.toNat
        · simp [h1, h2, Ordering.swap]
        · simp [h1, h2, ih b]

theorem localeCompare_gt_iff (a b : Str) : localeCompare a b = Ordering.gt ↔ lexLT b a := by
  rw [← localeCompare_lt_iff, localeCompare_swap a b]
  cases localeCompare a b <;> simp [Ordering.swap]


theorem lex_trans (a : List Nat) : ∀ b c : List Nat,
    List.Lex (fun x y : Nat => x < y) a b → List.Lex (fun x y : Nat => x < y) b c →
      List.Lex (fun x y : Nat => x < y) a c := by
  induction a with
  | nil =>
    intro b c h1 h2
    cases b with
    | nil => exact absurd h1 (lex_nil_iff _)
    | cons y b =>
      cases c with
      | nil => exact absurd h2 (lex_nil_iff _)
      | cons z c => exact List.Lex.nil
  | cons x a ih =>
    intro b c h1 h2
    cases b with
    | nil => exact absurd h1 (lex_nil_iff _)
    | cons y b =>
      cases c with
      | nil => exact absurd h2 (lex_nil_iff _)
      | cons z c =>
        rw [lex_cons_iff] at h1 h2 ⊢
        rcases h1 with h1 | ⟨rfl, h1⟩
        · rcases h2 with h2 | ⟨rfl, h2⟩
          · exact Or.inl (by omega)
          · exact Or.inl h1
        · rcases h2 with h2 | ⟨rfl, h2⟩
          · exact Or.inl h2
          · exact Or.inr ⟨rfl, ih b c h1 h2⟩

theorem lexLT_trans {a b c : Str} (h1 : lexLT a b) (h2 : lexLT b c) : lexLT a c :=
  lex_trans _ _ _ h1 h2

theorem lexLT_trichotomy (a b : Str) : lexLT a b ∨ a = b ∨ lexLT b a := by
  cases h : localeCompare a b with
  | lt => exact Or.inl ((localeCompare_lt_iff a b).mp h)
  | eq => exact Or.inr (Or.inl ((localeCompare_eq_iff a b).mp h))
  | gt => exact Or.inr (Or.inr ((localeCompare_gt_iff a b).mp h))

theorem lexLT_asymm {a b : Str} (h1 : lexLT a b) : ¬ lexLT b a := by
  intro h2
  have e1 := (localeCompare_lt_iff a b).mpr h1
  have e2 := (localeCompare_gt_iff a b).mpr h2
  rw [e1] at e2
  cases e2

theorem lexLT_irrefl (a : Str) : ¬ lexLT a a := fun h => lexLT_asymm h h

theorem itemLE_iff (a b : Entry) : itemLE a b ↔ orderedBefore a b := by
  simp only [itemLE, compareItems, orderedBefore]
  by_cases hc : a.category = b.category
  · have hirr : ¬ lexLT a.category b.category := by rw [hc]; exact lexLT_irrefl _
    simp only [hc, ne_eq, not_true_eq_false, if_false, true_and]
    rw [hc] at hirr
    simp only [hirr, false_or]
    cases h : localeCompare a.displayName b.displayName with
    | lt => simp [(localeCompare_lt_iff _ _).mp h]
    | eq => simp [(localeCompare_eq_iff _ _).mp h]
    | gt =>
      have hg := (localeCompare_gt_iff _ _).mp h
      have h1 : ¬ lexLT a.displayName b.displayName := lexLT_asymm hg
      have h2 : a.displayName ≠ b.displayName := by
        intro he; rw [he] at hg; exact lexLT_irrefl _ hg
      simp [h1, h2]
  · simp only [ne_eq, hc, not_false_eq_true, if_true, false_and, or_false]
    cases h : localeCompare a.category b.category with
    | lt => simp [(localeCompare_lt_iff _ _).mp h]
    | eq => exact absurd ((localeCompare_eq_iff _ _).mp h) hc
    | gt =>
      have hg := (localeCompare_gt_iff _ _).mp h
      simp [lexLT_asymm hg]

theorem orderedBefore_total (a b : Entry) : orderedBefore a b ∨ orderedBefore b a := by
  rcases lexLT_trichotomy a.category b.category with h | h | h
  · exact Or.inl (Or.inl h)
  · rcases lexLT_trichotomy a.displayName b.displayName with h2 | h2 | h2
    · exact Or.inl (Or.inr ⟨h, Or.inl h2⟩)
    · exact Or.inl (Or.inr ⟨h, Or.inr h2⟩)
    · exact Or.inr (Or.inr ⟨h.symm, Or.inl h2⟩)
  · exact Or.inr (Or.inl h)

theorem orderedBefore_trans {a b c : Entry} (h1 : orderedBefore a b) (h2 : orderedBefore b c) :
    orderedBefore a c := by
  rcases h1 with h1 | ⟨e1, n1⟩
  · rcases h2 with h2 | ⟨e2, _⟩
    · exact Or.inl (lexLT_trans h1 h2)
    · exact Or.inl (by rw [← e2]; exact h1)
  · rcases h2 with h2 | ⟨e2, n2⟩
    · exact Or.inl (by rw [e1]; exact h2)
    · refine Or.inr ⟨e1.trans e2, ?_⟩
      rcases n1 with n1 | n1
      · rcases n2 with n2 | n2
        · exact Or.inl (lexLT_trans n1 n2)
        · exact Or.inl (by rw [← n2]; exact n1)
      · rw [n1]; exact n2

theorem sortItems_perm (agg : AggMap) : (sortItems agg).Perm (agg.map (fun kv => kv.2)) :=
  List.perm_insertionSort itemLE _

theorem sortItems_sorted (agg : AggMap) : (sortItems agg).Pairwise orderedBefore := by
  have htotal : IsTotal Entry itemLE :=
    ⟨fun a b => by rw [itemLE_iff, itemLE_iff]; exact orderedBefore_total a b⟩
  have htrans : IsTrans Entry itemLE :=
    ⟨fun a b c h1 h2 => by
      rw [itemLE_iff] at h1 h2 ⊢; exact orderedBefore_trans h1 h2⟩
  have h := @List.sorted_insertionSort Entry itemLE _ htotal htrans (agg.map (fun kv => kv.2))
  exact List.Pairwise.imp (fun hab => (itemLE_iff _ _).mp hab) h

/-! ## Grouping into sections -/

theorem firstAppearances_snoc (l : List Str) (c : Str) :
    firstAppearances (l ++ [c]) =
      if c ∈ firstAppearances l then firstAppearances l else firstAppearances l ++ [c] := by
  simp [firstAppearances, List.foldl_append]

theorem mem_firstAppearances (l : List Str) : ∀ c, c ∈ firstAppearances l ↔ c ∈ l := by
  induction l using List.reverseRecOn with
  | nil => intro c; simp [firstAppearances]
  | append_singleton l x ih =>
    intro c
    rw [firstAppearances_snoc]
    by_cases hx : x ∈ firstAppearances l
    · rw [if_pos hx, ih]
      constructor
      · intro h; simp [h]
      · intro h
        rcases List.mem_append.mp h with h | h
        · exact h
        · have : c = x := by simpa using h
          rw [this, ← ih]; exact hx
    · rw [if_neg hx]
      simp [ih]

theorem nodup_firstAppearances (l : List Str) : (firstAppearances l).Nodup := by
  induction l using List.reverseRecOn with
  | nil => simp [firstAppearances]
  | append_singleton l x ih =>
    rw [firstAppearances_snoc]
    by_cases hx : x ∈ firstAppearances l
    · rw [if_pos hx]; exact ih
    · rw [if_neg hx]
      rw [List.nodup_append]
      refine ⟨ih, by simp, ?_⟩
      intro a ha hb
      have : a = x := by simpa using hb
      exact hx (this ▸ ha)

theorem groupByCategory_snoc (xs : List Entry) (x : Entry) :
    groupByCategory (xs ++ [x]) = groupPush (groupByCategory xs) (sectionKey x) x := by
  simp [groupByCategory, List.foldl_append, sectionKey]

theorem groupPush_mem (L : List Str) (f : Str → List Entry) (k : Str) (x : Entry)
    (hk : k ∈ L) (hn : L.Nodup) :
    groupPush (L.map (fun c => (c, f c))) k x =
      L.map (fun c => (c, if c = k then f c ++ [x] else f c)) := by
  induction L with
  | nil => simp at hk
  | cons c L ih =>
    have hn2 : c ∉ L ∧ L.Nodup := by simpa using hn
    by_cases hc : c = k
    · subst hc
      have hrest : L.map (fun d => (d, if d = c then f d ++ [x] else f d)) =
          L.map (fun d => (d, f d)) := by
        apply List.map_congr_left
        intro d hd
        have : d ≠ c := fun h => hn2.1 (h ▸ hd)
        simp [this]
      simp [groupPush, hrest]
    · have hk2 : k ∈ L := by
        rcases List.mem_cons.mp hk with h | h
        · exact absurd h.symm hc
        · exact h
      simp [groupPush, hc, ih hk2 hn2.2]

theorem groupPush_not_mem (L : List Str) (f : Str → List Entry) (k : Str) (x : Entry)
    (hk : k ∉ L) :
    groupPush (L.map (fun c => (c, f c))) k x = L.map (fun c => (c, f c)) ++ [(k, [x])] := by
  induction L with
  | nil => simp [groupPush]
  | cons c L ih =>
    have hc : c ≠ k := fun h => hk (by simp [h])
    have hk2 : k ∉ L := fun h => hk (by simp [h])
    simp [groupPush, hc, ih hk2]

/-- The grouping loop, for any items: one section per distinct key, in the order of
first appearance, holding the items with that key in their order. -/
theorem groupByCategory_eq (items : List Entry) :
    groupByCategory items =
      (firstAppearances (items.map sectionKey)).map
        (fun c => (c, items.filter (fun it => decide (sectionKey it = c)))) := by
  induction items using List.reverseRecOn with
  | nil => simp [groupByCategory, firstAppearances]
  | append_singleton xs x ih =>
    rw [groupByCategory_snoc, ih, List.map_append, List.map_singleton, firstAppearances_snoc]
    by_cases hk : sectionKey x ∈ firstAppearances (xs.map sectionKey)
    · rw [if_pos hk, groupPush_mem _ _ _ _ hk (nodup_firstAppearances _)]
      apply List.map_congr_left
      intro c _
      by_cases hc : c = sectionKey x
      · simp [hc, List.filter_append]
      · have hc2 : ¬ sectionKey x = c := fun h => hc h.symm
        simp [hc, hc2, List.filter_append]
    · rw [if_neg hk, groupPush_not_mem _ _ _ _ hk, List.map_append, List.map_singleton]
      have hempty : xs.filter (fun it => decide (sectionKey it = sectionKey x)) = [] := by
        rw [List.filter_eq_nil_iff]
        intro y hy hd
        apply hk
        rw [mem_firstAppearances]
        have : sectionKey y = sectionKey x := by simpa using hd
        rw [← this]
        exact List.mem_map_of_mem sectionKey hy
      congr 1
      · apply List.map_congr_left
        intro c hc
        have hc2 : ¬ sectionKey x = c := fun h => hk (h ▸ hc)
        simp [List.filter_append, hc2]
      · simp [List.filter_append, hempty]


theorem filter_snoc (xs : List Entry) (x : Entry) (c : Str) :
    (xs ++ [x]).filter (fun it => decide (it.category = c)) =
      xs.filter (fun it => decide (it.category = c)) ++ (if x.category = c then [x] else []) := by
  by_cases h : x.category = c <;> simp [List.filter_append, h]


theorem sectionKey_of_ne {it : Entry} (h : it.category ≠ []) : sectionKey it = it.category := by
  simp [sectionKey, h]

/-- With no empty category, the grouping loop files every item under its category. -/
theorem groupByCategory_by_category (items : List Entry)
    (hne : ∀ it ∈ items, it.category ≠ []) :
    groupByCategory items =
      (firstAppearances (items.map (fun it => it.category))).map
        (fun c => (c, items.filter (fun it => decide (it.category = c)))) := by
  rw [groupByCategory_eq]
  have h1 : items.map sectionKey = items.map (fun it => it.category) :=
    List.map_congr_left (fun it hit => sectionKey_of_ne (hne it hit))
  rw [h1]
  apply List.map_congr_left
  intro c _
  have h2 : items.filter (fun it => decide (sectionKey it = c)) =
      items.filter (fun it => decide (it.category = c)) := by
    apply List.filter_congr
    intro it hit
    rw [sectionKey_of_ne (hne it hit)]
  rw [h2]

theorem hints_label_ne_nil : ∀ c ∈ CATEGORY_HINTS, c.1 ≠ [] := by decide

theorem guessCategory_ne_nil (name : Str) : guessCategory name ≠ [] := by
  unfold guessCategory
  cases hf : CATEGORY_HINTS.find? (fun c => hintTest c.2 none name) with
  | none => decide
  | some c => exact hints_label_ne_nil c (List.mem_of_find?_eq_some hf)

theorem mem_of_mapGet (m : AggMap) (k : Str) (e : Entry) (h : mapGet m k = some e) :
    ∃ k1, (k1, e) ∈ m := by
  induction m with
  | nil => simp [mapGet] at h
  | cons kv m ih =>
    obtain ⟨k1, e1⟩ := kv
    by_cases hk : k1 = k
    · simp only [mapGet, if_pos hk, Option.some.injEq] at h
      exact ⟨k1, by simp [h]⟩
    · simp only [mapGet, if_neg hk] at h
      obtain ⟨k2, h2⟩ := ih h
      exact ⟨k2, by simp [h2]⟩

theorem mem_mapSet (m : AggMap) (k : Str) (e : Entry) (kv : Str × Entry)
    (h : kv ∈ mapSet m k e) : kv ∈ m ∨ kv.2 = e := by
  induction m with
  | nil =>
    have : kv = (k, e) := by simpa [mapSet] using h
    exact Or.inr (by rw [this])
  | cons kv1 m ih =>
    obtain ⟨k1, e1⟩ := kv1
    by_cases hk : k1 = k
    · simp only [mapSet, if_pos hk, List.mem_cons] at h
      rcases h with h | h
      · exact Or.inr (by rw [h])
      · exact Or.inl (by simp [h])
    · simp only [mapSet, if_neg hk, List.mem_cons] at h
      rcases h with h | h
      · exact Or.inl (by simp [h])
      · rcases ih h with h2 | h2
        · exact Or.inl (by simp [h2])
        · exact Or.inr h2

theorem addToAggregate_categories (m : AggMap) (item : Parsed) (f : ℚ)
    (hm : ∀ kv ∈ m, kv.2.category ≠ []) :
    ∀ kv ∈ addToAggregate m item f, kv.2.category ≠ [] := by
  intro kv hkv
  cases hg : mapGet m (aggKey item) with
  | none =>
    rw [addToAggregate_absent m item f hg] at hkv
    rcases List.mem_append.mp hkv with h | h
    · exact hm kv h
    · have h2 := List.mem_singleton.mp h
      rw [h2]
      exact guessCategory_ne_nil _
  | some e =>
    rw [addToAggregate_present m item f e hg] at hkv
    rcases mem_mapSet _ _ _ _ hkv with h | h
    · exact hm kv h
    · rw [h]
      obtain ⟨k1, hk1⟩ := mem_of_mapGet m _ e hg
      exact hm _ hk1

theorem addAll_categories (calls : List (Parsed × ℚ)) : ∀ (m : AggMap),
    (∀ kv ∈ m, kv.2.category ≠ []) → ∀ kv ∈ addAll m calls, kv.2.category ≠ [] := by
  induction calls with
  | nil => intro m hm; exact hm
  | cons c calls ih =>
    intro m hm
    exact ih _ (addToAggregate_categories m c.1 c.2 hm)

/-! ## Trimming and the line splitter -/

/-! ### Trimming, continued -/

theorem trim_decomp (s : Str) :
    ∃ pre post, s = pre ++ (trim s ++ post) ∧ (∀ c ∈ pre, isSpace c = true) ∧
      (∀ c ∈ post, isSpace c = true) := by
  refine ⟨s.takeWhile isSpace, ((s.dropWhile isSpace).reverse.takeWhile isSpace).reverse, ?_, ?_, ?_⟩
  · have h1 := List.takeWhile_append_dropWhile isSpace s
    have h2 := List.takeWhile_append_dropWhile isSpace (s.dropWhile isSpace).reverse
    have h3 : trim s ++ ((s.dropWhile isSpace).reverse.takeWhile isSpace).reverse =
        s.dropWhile isSpace := by
      have := congrArg List.reverse h2
      rw [List.reverse_append, List.reverse_reverse] at this
      exact this
    rw [h3, h1]
  · intro c hc
    exact List.mem_takeWhile_imp hc
  · intro c hc
    exact List.mem_takeWhile_imp (List.mem_reverse.mp hc)

theorem mem_trim {s : Str} {c : Char} (h : c ∈ trim s) : c ∈ s := by
  obtain ⟨pre, post, hs, _, _⟩ := trim_decomp s
  rw [hs]
  simp [h]

theorem noHead_dropWhile (p : Char → Bool) (s : Str) : noHead p (s.dropWhile p) = true := by
  induction s with
  | nil => rfl
  | cons c cs ih =>
    by_cases hc : p c = true
    · simpa [List.dropWhile, hc] using ih
    · have hc' : p c = false := by simpa using hc
      simp [List.dropWhile, hc', noHead]

theorem trim_trimmed (s : Str) :
    noHead isSpace (trim s) = true ∧ noHead isSpace (trim s).reverse = true := by
  constructor
  · obtain ⟨pre, post, hs, _, _⟩ := trim_decomp s
    have hy : noHead isSpace (s.dropWhile isSpace) = true := noHead_dropWhile _ _
    have h2 := List.takeWhile_append_dropWhile isSpace (s.dropWhile isSpace).reverse
    have h3 : trim s ++ ((s.dropWhile isSpace).reverse.takeWhile isSpace).reverse =
        s.dropWhile isSpace := by
      have := congrArg List.reverse h2
      rw [List.reverse_append, List.reverse_reverse] at this
      exact this
    rw [← h3] at hy
    cases ht : trim s with
    | nil => rfl
    | cons c cs =>
      rw [ht] at hy
      simpa [noHead] using hy
  · have : (trim s).reverse = (s.dropWhile isSpace).reverse.dropWhile isSpace := by
      simp [trim]
    rw [this]
    exact noHead_dropWhile _ _

theorem trim_idem (s : Str) : trim (trim s) = trim s :=
  trim_eq_self (trim_trimmed s).1 (trim_trimmed s).2

/-! ### The line splitter -/

theorem splitLines_eq (s : Str) : ∀ acc : Str,
    splitLines acc s = (splitPieces s).modifyHead (fun t => acc ++ t) := by
  induction s with
  | nil => intro acc; simp [splitLines, splitPieces, dropCR]
  | cons c cs ih =>
    intro acc
    simp only [splitPieces] at ih ⊢
    by_cases hb : (c.toNat == 10 || c.toNat == 8226) = true
    · have hcr : (c.toNat == 13) = false := by
        simp only [Bool.or_eq_true, beq_iff_eq] at hb
        simp only [beq_eq_false_iff_ne]
        omega
      have hbr : isBreak c = true := hb
      have h0 := ih []
      simp only [List.nil_append] at h0
      have hid : List.modifyHead (fun t : Str => t) (List.splitOnP isBreak (dropCR cs)) =
          List.splitOnP isBreak (dropCR cs) := by
        cases List.splitOnP isBreak (dropCR cs) <;> simp
      simp only [splitLines, hb, if_true, dropCR, hcr, Bool.false_and, Bool.false_eq_true,
        if_false, List.splitOnP_cons, hbr, List.modifyHead_cons, List.append_nil, h0, hid]
    · have hb' : (c.toNat == 10 || c.toNat == 8226) = false := by simpa using hb
      have hbr : isBreak c = false := hb'
      have hfun : (fun t : Str => acc ++ c :: t) = (fun t : Str => (acc ++ [c]) ++ t) := by
        funext t; simp
      cases cs with
      | nil =>
        simp only [splitLines, hb', Bool.false_eq_true, if_false, Bool.and_false, dropCR,
          List.splitOnP_cons, hbr, List.splitOnP_nil, List.modifyHead_cons, List.append_nil]
      | cons d ds =>
        by_cases hcr : (c.toNat == 13 && d.toNat == 10) = true
        · have h1 : splitLines acc (c :: d :: ds) = splitLines acc (d :: ds) := by
            simp only [splitLines, hb', Bool.false_eq_true, if_false, hcr, if_true]
          have h2 : dropCR (c :: d :: ds) = dropCR (d :: ds) := by
            simp only [dropCR, hcr, if_true]
          rw [h1, h2]
          exact ih acc
        · have hcr' : (c.toNat == 13 && d.toNat == 10) = false := by simpa using hcr
          have h1 : splitLines acc (c :: d :: ds) = splitLines (acc ++ [c]) (d :: ds) := by
            simp only [splitLines, hb', Bool.false_eq_true, if_false, hcr']
          have h2 : dropCR (c :: d :: ds) = c :: dropCR (d :: ds) := by
            simp only [dropCR, hcr', Bool.false_eq_true, if_false]
          rw [h1, h2, ih (acc ++ [c]), List.splitOnP_cons, hbr]
          simp only [Bool.false_eq_true, if_false, List.modifyHead_modifyHead]
          congr 1
          funext t
          simp

theorem splitIngredients_blob (s : Str) :
    splitIngredients (Raw.blob s) = splitReference s := by
  by_cases hs : s = []
  · subst hs
    decide
  · simp only [splitIngredients, if_neg hs, splitReference]
    rw [splitLines_eq s []]
    have hid : List.modifyHead (fun t : Str => [] ++ t) (splitPieces s) = splitPieces s := by
      cases splitPieces s <;> simp
    rw [hid]

theorem splitLines_no_break (s : Str) : ∀ acc : Str, (∀ c ∈ acc, isBreak c = false) →
    ∀ l ∈ splitLines acc s, ∀ c ∈ l, isBreak c = false := by
  induction s with
  | nil =>
    intro acc hacc l hl
    have : l = acc := by simpa [splitLines] using hl
    rw [this]; exact hacc
  | cons c cs ih =>
    intro acc hacc l hl
    simp only [splitLines] at hl
    split at hl
    · rcases List.mem_cons.mp hl with h | h
      · rw [h]; exact hacc
      · exact ih [] (by simp) l h
    · rename_i hb
      have hbr : isBreak c = false := by simpa [isBreak] using hb
      split at hl
      · exact ih acc hacc l hl
      · apply ih (acc ++ [c]) _ l hl
        intro d hd
        rcases List.mem_append.mp hd with h | h
        · exact hacc d h
        · have : d = c := by simpa using h
          rw [this]; exact hbr

theorem splitIngredients_blob_lines (s : Str) :
    ∀ l ∈ splitIngredients (Raw.blob s),
      l ≠ [] ∧ trim l = l ∧ ∀ c ∈ l, isBreak c = false := by
  intro l hl
  by_cases hs : s = []
  · subst hs
    simp [splitIngredients] at hl
  · simp only [splitIngredients, if_neg hs, List.mem_filter, List.mem_map] at hl
    obtain ⟨⟨piece, hp, rfl⟩, hne⟩ := hl
    refine ⟨by simpa using hne, trim_idem piece, ?_⟩
    intro c hc
    exact splitLines_no_break s [] (by simp) piece hp c (mem_trim hc)


theorem parse_zero_denominator (ip fp n d U N : Str) (hip : isDigits ip = true)
    (hfp : fp.all isDigit = true) (hn : isDigits n = true) (hd : isDigits d = true)
    (hd0 : digitsValue d = 0) (hU : isWord U = true) (hN : N ≠ []) (htrim : trim N = N)
    (hline : isOneLine N = true) :
    parseIngredientLine
        (numeralText ip fp ++ ' ' :: (n ++ '/' :: (d ++ ' ' :: (U ++ ' ' :: N)))) =
      some { qty := none, unit := toLowerCase U, name := N, key := normalizeName N } := by
  have htl : trim (numeralText ip fp ++ ' ' :: (n ++ '/' :: (d ++ ' ' :: (U ++ ' ' :: N)))) =
      numeralText ip fp ++ ' ' :: (n ++ '/' :: (d ++ ' ' :: (U ++ ' ' :: N))) := by
    apply trim_eq_self (noHead_numeralText _ hip (fun c hc => isSpace_of_isDigit hc))
    have := @noHead_reverse_append isSpace
      (numeralText ip fp ++ ' ' :: (n ++ '/' :: (d ++ ' ' :: (U ++ [' '])))) N hN
      (noHead_of_trim htrim).2
    simpa using this
  have hm := lineMatch_mixed ip fp n d U N hip hfp hn hd hU htrim hline
  have hne : trim (numeralText ip fp ++ ' ' :: (n ++ '/' :: (d ++ ' ' :: (U ++ ' ' :: N)))) ≠
      [] := by
    rw [htl]; simp
  rw [parse_of_lineMatch _ _ hne (by rw [htl]; exact hm)]
  simp [toNumber_numeral hip hfp, toNumber_fraction hn hd, hd0, htrim, hN, numAdd_nan,
    finiteOrNull]

/-! ## Claims about the line splitter and malformed fractions -/

/-- C21 (the code at the failing input): from an array the splitter returns a
white-space-only element and an element with surrounding spaces as they are, while the
same lines given as one string come out trimmed and without the blank one. -/
theorem splitIngredients_seq_untrimmed :
    splitIngredients (Raw.seq ["  ".toList, " 2 cups flour ".toList]) =
        ["  ".toList, " 2 cups flour ".toList] ∧
      splitIngredients (Raw.blob "  \n 2 cups flour ".toList) = ["2 cups flour".toList] := by
  decide

/-- C22 (line splitter on one string): the result is the list of the pieces between
CRLF, LF and bullet separators, each trimmed, the empty ones dropped, order and
duplicates kept; every returned line is non-empty, trimmed and free of LF and bullet. -/
theorem splitIngredients_blob_spec (s : Str) :
    splitIngredients (Raw.blob s) = splitReference s ∧
      (∀ l ∈ splitIngredients (Raw.blob s),
        l ≠ [] ∧ trim l = l ∧ ∀ c ∈ l, isBreak c = false) ∧
      splitIngredients (Raw.blob "a\r\nb • a\n\n c ".toList) =
        ["a".toList, "b".toList, "a".toList, "c".toList] :=
  ⟨splitIngredients_blob s, splitIngredients_blob_lines s, by decide⟩

/-- C23 (malformed fraction): a line `w n/d U N` whose denominator `d` is zero parses
to quantity `null`, while the unit is `U` lower-cased and the name is `N`. -/
theorem parseIngredientLine_zero_denominator (ip fp n d U N : Str)
    (hip : isDigits ip = true) (hfp : fp.all isDigit = true) (hn : isDigits n = true)
    (hd : isDigits d = true) (hd0 : digitsValue d = 0) (hU : isWord U = true) (hN : N ≠ [])
    (htrim : trim N = N) (hline : isOneLine N = true) :
    parseIngredientLine
        (numeralText ip fp ++ ' ' :: (n ++ '/' :: (d ++ ' ' :: (U ++ ' ' :: N)))) =
      some { qty := none, unit := toLowerCase U, name := N, key := normalizeName N } :=
  parse_zero_denominator ip fp n d U N hip hfp hn hd hd0 hU hN htrim hline

/-- C23 at `"2 1/0 Cups sugar"`: quantity `null`, unit `"cups"`, name `"sugar"`. -/
theorem parseIngredientLine_zero_denominator_witness :
    parseIngredientLine "2 1/0 Cups sugar".toList =
      some { qty := none, unit := "cups".toList, name := "sugar".toList,
             key := "sugar".toList } := by
  have h := parseIngredientLine_zero_denominator "2".toList [] "1".toList "0".toList
    "Cups".toList "sugar".toList (by decide) (by decide) (by decide) (by decide) (by decide)
    (by decide) (by decide) (by decide) (by decide)
  have hl : toLowerCase "Cups".toList = "cups".toList := by decide
  have hk : normalizeName "sugar".toList = "sugar".toList := by decide
  rw [hl, hk] at h
  exact h

/-! ## Idempotence of the name normalizer -/

/-! ### Characters of the output of each step -/

theorem mem_replaceParens {c : Char} (t : Str) :
    ∀ b, c ∈ replaceParens b t → c ∈ t ∨ c = ' ' := by
  induction t with
  | nil => intro b h; cases b <;> simp [replaceParens] at h
  | cons d ds ih =>
    intro b h
    cases b with
    | true =>
      by_cases hd : (d.toNat == 41) = true
      · rw [replaceParens, if_pos hd] at h
        rcases ih false h with h1 | h1
        · exact Or.inl (List.mem_cons_of_mem _ h1)
        · exact Or.inr h1
      · rw [replaceParens, if_neg hd] at h
        rcases ih true h with h1 | h1
        · exact Or.inl (List.mem_cons_of_mem _ h1)
        · exact Or.inr h1
    | false =>
      by_cases hd : (d.toNat == 40 && ds.any (fun e => e.toNat == 41)) = true
      · rw [replaceParens, if_pos hd] at h
        rcases List.mem_cons.mp h with h1 | h1
        · exact Or.inr h1
        · rcases ih true h1 with h2 | h2
          · exact Or.inl (List.mem_cons_of_mem _ h2)
          · exact Or.inr h2
      · rw [replaceParens, if_neg hd] at h
        rcases List.mem_cons.mp h with h1 | h1
        · exact Or.inl (h1 ▸ List.mem_cons_self _ _)
        · rcases ih false h1 with h2 | h2
          · exact Or.inl (List.mem_cons_of_mem _ h2)
          · exact Or.inr h2

theorem mem_replaceRuns {p : Char → Bool} {c : Char} (t : Str) :
    ∀ b, c ∈ replaceRuns p b t → (c ∈ t ∧ p c = false) ∨ c = ' ' := by
  induction t with
  | nil => intro b h; simp [replaceRuns] at h
  | cons d ds ih =>
    intro b h
    by_cases hd : p d = true
    · cases b with
      | true =>
        rw [replaceRuns, if_pos hd, if_pos rfl] at h
        rcases ih true h with h1 | h1
        · exact Or.inl ⟨List.mem_cons_of_mem _ h1.1, h1.2⟩
        · exact Or.inr h1
      | false =>
        rw [replaceRuns, if_pos hd, if_neg (by simp)] at h
        rcases List.mem_cons.mp h with h1 | h1
        · exact Or.inr h1
        · rcases ih true h1 with h2 | h2
          · exact Or.inl ⟨List.mem_cons_of_mem _ h2.1, h2.2⟩
          · exact Or.inr h2
    · rw [replaceRuns, if_neg hd] at h
      rcases List.mem_cons.mp h with h1 | h1
      · exact Or.inl ⟨h1 ▸ List.mem_cons_self _ _, by rw [h1]; simpa using hd⟩
      · rcases ih false h1 with h2 | h2
        · exact Or.inl ⟨List.mem_cons_of_mem _ h2.1, h2.2⟩
        · exact Or.inr h2

/-! ### Each step leaves its own normal form -/

theorem any_close_replaceParens (t : Str) (b : Bool)
    (h : t.any (fun e => e.toNat == 41) = false) :
    (replaceParens b t).any (fun e => e.toNat == 41) = false := by
  rw [Bool.eq_false_iff]
  intro hany
  obtain ⟨c, hc, hc41⟩ := List.any_eq_true.mp hany
  rcases mem_replaceParens t b hc with h1 | h1
  · have : t.any (fun e => e.toNat == 41) = true := List.any_eq_true.mpr ⟨c, h1, hc41⟩
    rw [h] at this; cases this
  · rw [h1] at hc41; revert hc41; decide

theorem any_close_replaceRuns {p : Char → Bool} (t : Str) (b : Bool)
    (h : t.any (fun e => e.toNat == 41) = false) :
    (replaceRuns p b t).any (fun e => e.toNat == 41) = false := by
  rw [Bool.eq_false_iff]
  intro hany
  obtain ⟨c, hc, hc41⟩ := List.any_eq_true.mp hany
  rcases mem_replaceRuns t b hc with h1 | h1
  · have : t.any (fun e => e.toNat == 41) = true := List.any_eq_true.mpr ⟨c, h1.1, hc41⟩
    rw [h] at this; cases this
  · rw [h1] at hc41; revert hc41; decide

theorem noPair_cons (c : Char) (cs : Str) :
    noPair (c :: cs) = true ↔
      ((c.toNat == 40) = true → cs.any (fun e => e.toNat == 41) = false) ∧ noPair cs = true := by
  rw [noPair]
  cases h40 : (c.toNat == 40) <;> cases hany : cs.any (fun e => e.toNat == 41) <;> simp

theorem noPair_replaceParens (t : Str) : ∀ b, noPair (replaceParens b t) = true := by
  induction t with
  | nil => intro b; cases b <;> rfl
  | cons d ds ih =>
    intro b
    cases b with
    | true =>
      by_cases hd : (d.toNat == 41) = true
      · rw [replaceParens, if_pos hd]; exact ih false
      · rw [replaceParens, if_neg hd]; exact ih true
    | false =>
      by_cases hd : (d.toNat == 40 && ds.any (fun e => e.toNat == 41)) = true
      · rw [replaceParens, if_pos hd, noPair_cons]
        exact ⟨fun h => absurd h (by decide), ih true⟩
      · rw [replaceParens, if_neg hd, noPair_cons]
        refine ⟨fun h40 => any_close_replaceParens ds false ?_, ih false⟩
        rw [h40] at hd
        simpa using hd

theorem noPair_replaceRuns {p : Char → Bool} (t : Str) :
    ∀ b, noPair t = true → noPair (replaceRuns p b t) = true := by
  induction t with
  | nil => intro b _; rfl
  | cons d ds ih =>
    intro b h
    rw [noPair_cons] at h
    by_cases hd : p d = true
    · cases b with
      | true => rw [replaceRuns, if_pos hd, if_pos rfl]; exact ih true h.2
      | false =>
        rw [replaceRuns, if_pos hd, if_neg (by simp), noPair_cons]
        exact ⟨fun h => absurd h (by decide), ih true h.2⟩
    · rw [replaceRuns, if_neg hd, noPair_cons]
      exact ⟨fun h40 => any_close_replaceRuns ds false (h.1 h40), ih false h.2⟩

theorem noPair_append_right (a : Str) {b : Str} (h : noPair (a ++ b) = true) :
    noPair b = true := by
  induction a with
  | nil => exact h
  | cons c cs ih =>
    rw [List.cons_append, noPair_cons] at h
    exact ih h.2

theorem noPair_append_left (a : Str) {b : Str} (h : noPair (a ++ b) = true) :
    noPair a = true := by
  induction a with
  | nil => rfl
  | cons c cs ih =>
    rw [List.cons_append, noPair_cons] at h
    rw [noPair_cons]
    refine ⟨fun h40 => ?_, ih h.2⟩
    have := h.1 h40
    rw [List.any_append] at this
    simpa using (Bool.or_eq_false_iff.mp this).1

theorem noPair_trim {t : Str} (h : noPair t = true) : noPair (trim t) = true := by
  obtain ⟨pre, post, heq, -, -⟩ := trim_decomp t
  rw [heq] at h
  exact noPair_append_left _ (noPair_append_right pre h)

theorem spaced_replaceRuns (t : Str) :
    ∀ b, spaced b (replaceRuns isSpace b t) = true := by
  induction t with
  | nil => intro b; rfl
  | cons d ds ih =>
    intro b
    by_cases hd : isSpace d = true
    · cases b with
      | true => rw [replaceRuns, if_pos hd, if_pos rfl]; exact ih true
      | false =>
        rw [replaceRuns, if_pos hd, if_neg (by simp), spaced, if_pos isSpace_space]
        simp [ih true]
    · rw [replaceRuns, if_neg hd, spaced, if_neg hd]
      exact ih false

theorem spaced_append_right (a : Str) {m : Str} :
    ∀ b, spaced b (a ++ m) = true → ∃ b1, spaced b1 m = true := by
  induction a with
  | nil => intro b h; exact ⟨b, h⟩
  | cons c cs ih =>
    intro b h
    rw [List.cons_append, spaced] at h
    by_cases hc : isSpace c = true
    · rw [if_pos hc] at h
      simp only [Bool.and_eq_true] at h
      exact ih true h.2
    · rw [if_neg hc] at h
      exact ih false h

theorem spaced_append_left (m : Str) {post : Str} :
    ∀ b, spaced b (m ++ post) = true → spaced b m = true := by
  induction m with
  | nil => intro b _; rfl
  | cons c cs ih =>
    intro b h
    rw [List.cons_append, spaced] at h
    rw [spaced]
    by_cases hc : isSpace c = true
    · rw [if_pos hc] at h
      rw [if_pos hc]
      simp only [Bool.and_eq_true] at h ⊢
      exact ⟨h.1, ih true h.2⟩
    · rw [if_neg hc] at h
      rw [if_neg hc]
      exact ih false h

theorem spaced_of_noHead {m : Str} (hm : noHead isSpace m = true) (b1 b2 : Bool)
    (h : spaced b1 m = true) : spaced b2 m = true := by
  cases m with
  | nil => rfl
  | cons c cs =>
    have hc : ¬ isSpace c = true := by simpa [noHead] using hm
    rw [spaced, if_neg hc] at h
    rw [spaced, if_neg hc]
    exact h

theorem spaced_trim {t : Str} {b : Bool} (h : spaced b t = true) :
    spaced false (trim t) = true := by
  obtain ⟨pre, post, heq, -, -⟩ := trim_decomp t
  rw [heq] at h
  obtain ⟨b1, h1⟩ := spaced_append_right pre b h
  exact spaced_of_noHead (trim_trimmed t).1 b1 false (spaced_append_left _ b1 h1)

/-! ### A text in normal form is left as it is -/

theorem replaceParens_of_noPair (t : Str) (h : noPair t = true) :
    replaceParens false t = t := by
  induction t with
  | nil => rfl
  | cons c cs ih =>
    rw [noPair_cons] at h
    have hc : ¬ (c.toNat == 40 && cs.any (fun e => e.toNat == 41)) = true := by
      intro hh
      simp only [Bool.and_eq_true] at hh
      have := h.1 hh.1
      rw [this] at hh
      exact absurd hh.2 (by simp)
    rw [replaceParens, if_neg hc, ih h.2]

theorem replaceRuns_of_none {p : Char → Bool} (t : Str) (h : ∀ c ∈ t, p c = false) :
    ∀ b, replaceRuns p b t = t := by
  induction t with
  | nil => intro b; rfl
  | cons c cs ih =>
    intro b
    have hc : ¬ p c = true := by simp [h c (List.mem_cons_self _ _)]
    rw [replaceRuns, if_neg hc, ih (fun d hd => h d (List.mem_cons_of_mem _ hd))]

theorem replaceRuns_of_spaced (t : Str) :
    ∀ b, spaced b t = true → replaceRuns isSpace b t = t := by
  induction t with
  | nil => intro b _; rfl
  | cons c cs ih =>
    intro b h
    rw [spaced] at h
    by_cases hc : isSpace c = true
    · rw [if_pos hc] at h
      simp only [Bool.and_eq_true, Bool.not_eq_true', beq_iff_eq] at h
      obtain ⟨⟨h32, hb⟩, hrest⟩ := h
      have hsp : c = ' ' := char_eq_of_toNat (by rw [h32]; rfl)
      rw [hb, replaceRuns, if_pos hc, if_neg (by simp), ih true hrest, hsp]
    · rw [if_neg hc] at h
      rw [replaceRuns, if_neg hc, ih false h]

theorem normalizeName_of_isNormalized {t : Str} (h : isNormalized t) :
    normalizeName t = t := by
  obtain ⟨h1, h2, h3, h4, h5⟩ := h
  rw [normalizeName, h1, replaceParens_of_noPair t h2, replaceRuns_of_none t h3 false,
    replaceRuns_of_spaced t false h4, h5]

/-! ### The output of the normalizer is in normal form -/

theorem lowerChar_idem (c : Char) : lowerChar (lowerChar c) = lowerChar c := by
  unfold lowerChar
  by_cases h : (65 ≤ c.toNat && c.toNat ≤ 90) = true
  · rw [if_pos h]
    simp only [Bool.and_eq_true, decide_eq_true_eq] at h
    have h1 : (Char.ofNat (c.toNat + 32)).toNat = c.toNat + 32 :=
      toNat_ofNat_ascii (c.toNat + 32) (by omega)
    rw [h1, if_neg]
    simp only [Bool.and_eq_true, decide_eq_true_eq]
    omega
  · rw [if_neg h, if_neg h]

theorem toLowerCase_of_fixed {t : Str} (h : ∀ c ∈ t, lowerChar c = c) : toLowerCase t = t := by
  induction t with
  | nil => rfl
  | cons c cs ih =>
    rw [toLowerCase, List.map_cons, h c (List.mem_cons_self _ _)]
    congr 1
    exact ih (fun d hd => h d (List.mem_cons_of_mem _ hd))

theorem isNormalized_normalizeName (s : Str) : isNormalized (normalizeName s) := by
  have hsp : lowerChar ' ' = ' ' := by decide
  have hcs : isCommaSemi ' ' = false := by decide
  refine ⟨toLowerCase_of_fixed ?_, ?_, ?_, ?_, trim_idem _⟩
  · intro c hc
    rcases mem_replaceRuns _ _ (mem_trim hc) with h3 | h3
    · rcases mem_replaceRuns _ _ h3.1 with h2 | h2
      · rcases mem_replaceParens _ _ h2.1 with h1 | h1
        · obtain ⟨d, -, hd⟩ := List.mem_map.mp h1
          rw [← hd]; exact lowerChar_idem d
        · rw [h1]; exact hsp
      · rw [h2]; exact hsp
    · rw [h3]; exact hsp
  · exact noPair_trim (noPair_replaceRuns _ _ (noPair_replaceRuns _ _ (noPair_replaceParens _ _)))
  · intro c hc
    rcases mem_replaceRuns _ _ (mem_trim hc) with h3 | h3
    · rcases mem_replaceRuns _ _ h3.1 with h2 | h2
      · exact h2.2
      · rw [h2]; exact hcs
    · rw [h3]; exact hcs
  · exact spaced_trim (spaced_replaceRuns _ false)

theorem normalizeName_idem (s : Str) : normalizeName (normalizeName s) = normalizeName s :=
  normalizeName_of_isNormalized (isNormalized_normalizeName s)

/-! ## Claim about idempotence of the name normalizer -/

/-- C26: `normalizeName` is idempotent: for every string `s`,
`normalizeName (normalizeName s) = normalizeName s`. The parenthetical pass leaves no
opening parenthesis with a closing one after it, so a second pass of it changes
nothing, on its own output and on the output of the whole normalizer; the nested
input `((a)b) x` comes out as `b) x` and stays so. -/
theorem normalizeName_idempotent (s : Str) :
    normalizeName (normalizeName s) = normalizeName s ∧
      noPair (replaceParens false s) = true ∧
      replaceParens false (replaceParens false s) = replaceParens false s ∧
      replaceParens false (normalizeName s) = normalizeName s ∧
      normalizeName "((a)b) x".toList = "b) x".toList ∧
      normalizeName "b) x".toList = "b) x".toList :=
  ⟨normalizeName_idem s, noPair_replaceParens s false,
    replaceParens_of_noPair _ (noPair_replaceParens s false),
    replaceParens_of_noPair _ (isNormalized_normalizeName s).2.1, by decide, by decide⟩

/-! ## Count-only lines -/

/-! ### Lower-case letters -/

theorem isLetter_of_isLower {c : Char} (h : isLower c = true) : isLetter c = true := by
  simp only [isLower, isLetter, Bool.or_eq_true, Bool.and_eq_true, decide_eq_true_eq] at *
  omega

theorem lowerChar_of_isLower {c : Char} (h : isLower c = true) : lowerChar c = c := by
  unfold lowerChar
  rw [if_neg]
  simp only [isLower, Bool.and_eq_true, decide_eq_true_eq] at *
  omega

theorem lowerChar_of_isDigit {c : Char} (h : isDigit c = true) : lowerChar c = c := by
  unfold lowerChar
  rw [if_neg]
  simp only [isDigit, Bool.and_eq_true, decide_eq_true_eq] at *
  omega

theorem isLower_lowerChar {c : Char} (h : isLetter c = true) : isLower (lowerChar c) = true := by
  unfold lowerChar
  by_cases hu : (65 ≤ c.toNat && c.toNat ≤ 90) = true
  · rw [if_pos hu]
    simp only [Bool.and_eq_true, decide_eq_true_eq] at hu
    have h1 : (Char.ofNat (c.toNat + 32)).toNat = c.toNat + 32 :=
      toNat_ofNat_ascii (c.toNat + 32) (by omega)
    simp only [isLower, h1, Bool.and_eq_true, decide_eq_true_eq]
    omega
  · rw [if_neg hu]
    simp only [isLetter, isLower, Bool.or_eq_true, Bool.and_eq_true, decide_eq_true_eq] at *
    omega

theorem isLower_toLowerCase {w : Str} (h : ∀ c ∈ w, isLetter c = true) :
    ∀ c ∈ toLowerCase w, isLower c = true := by
  intro c hc
  obtain ⟨d, hd, hdc⟩ := List.mem_map.mp hc
  rw [← hdc]
  exact isLower_lowerChar (h d hd)

theorem toLowerCase_idem (s : Str) : toLowerCase (toLowerCase s) = toLowerCase s := by
  simp [toLowerCase, lowerChar_idem]

theorem normalizeName_toLowerCase (s : Str) : normalizeName (toLowerCase s) = normalizeName s := by
  rw [normalizeName, toLowerCase_idem, normalizeName]

/-! ### A numeral, one space and a word -/

theorem noPair_of_no_open {t : Str} (h : ∀ c ∈ t, (c.toNat == 40) = false) :
    noPair t = true := by
  induction t with
  | nil => rfl
  | cons c cs ih =>
    rw [noPair_cons]
    refine ⟨fun h40 => ?_, ih (fun d hd => h d (List.mem_cons_of_mem _ hd))⟩
    rw [h c (List.mem_cons_self _ _)] at h40
    cases h40

theorem spaced_of_no_space {t : Str} (h : ∀ c ∈ t, isSpace c = false) :
    ∀ b, spaced b t = true := by
  induction t with
  | nil => intro b; rfl
  | cons c cs ih =>
    intro b
    rw [spaced, if_neg (by simp [h c (List.mem_cons_self _ _)])]
    exact ih (fun d hd => h d (List.mem_cons_of_mem _ hd)) false

theorem spaced_append {a r : Str} (ha : ∀ c ∈ a, isSpace c = false)
    (hr : spaced false r = true) : spaced false (a ++ r) = true := by
  induction a with
  | nil => exact hr
  | cons c cs ih =>
    rw [List.cons_append, spaced, if_neg (by simp [ha c (List.mem_cons_self _ _)])]
    exact ih (fun d hd => ha d (List.mem_cons_of_mem _ hd))

theorem trim_count {m w : Str} (hm : isDigits m = true) (hw : isWord w = true) :
    trim (m ++ ' ' :: w) = m ++ ' ' :: w := by
  obtain ⟨hmne, hmd⟩ := isDigits_spec hm
  obtain ⟨hwne, hwl⟩ := isWord_spec hw
  apply trim_eq_self (noHead_append _ hmne hmd (fun c hc => isSpace_of_isDigit hc))
  have := noHead_reverse_append (p := isSpace) (m ++ [' ']) (s := w) hwne
    (noHead_reverse_of_all hwne hwl (fun c hc => isSpace_of_isLetter hc))
  simpa using this

theorem isNormalized_count {m w : Str} (hm : isDigits m = true)
    (hw : w ≠ [] ∧ ∀ c ∈ w, isLower c = true) : isNormalized (m ++ ' ' :: w) := by
  obtain ⟨hmne, hmd⟩ := isDigits_spec hm
  obtain ⟨hwne, hwl⟩ := hw
  have hcases : ∀ c ∈ m ++ ' ' :: w, isDigit c = true ∨ c = ' ' ∨ isLower c = true := by
    intro c hc
    rcases List.mem_append.mp hc with h | h
    · exact Or.inl (hmd c h)
    · rcases List.mem_cons.mp h with h | h
      · exact Or.inr (Or.inl h)
      · exact Or.inr (Or.inr (hwl c h))
  have hword : isWord w = true := by
    cases w with
    | nil => exact absurd rfl hwne
    | cons c cs =>
      simp only [isWord, List.isEmpty_cons, Bool.not_false, Bool.true_and, List.all_eq_true]
      exact fun d hd => isLetter_of_isLower (hwl d hd)
  refine ⟨toLowerCase_of_fixed ?_, noPair_of_no_open ?_, ?_, ?_, trim_count hm hword⟩
  · intro c hc
    rcases hcases c hc with h | h | h
    · exact lowerChar_of_isDigit h
    · rw [h]; decide
    · exact lowerChar_of_isLower h
  · intro c hc
    rcases hcases c hc with h | h | h
    · simp only [isDigit, Bool.and_eq_true, decide_eq_true_eq] at h
      simp only [beq_eq_false_iff_ne]; omega
    · rw [h]; decide
    · simp only [isLower, Bool.and_eq_true, decide_eq_true_eq] at h
      simp only [beq_eq_false_iff_ne]; omega
  · intro c hc
    rcases hcases c hc with h | h | h
    · simp only [isDigit, Bool.and_eq_true, decide_eq_true_eq] at h
      simp only [isCommaSemi, Bool.or_eq_false_iff, beq_eq_false_iff_ne]; omega
    · rw [h]; decide
    · simp only [isLower, Bool.and_eq_true, decide_eq_true_eq] at h
      simp only [isCommaSemi, Bool.or_eq_false_iff, beq_eq_false_iff_ne]; omega
  · apply spaced_append (fun c hc => isSpace_of_isDigit (hmd c hc))
    rw [spaced, if_pos isSpace_space]
    have := spaced_of_no_space (fun c hc => isSpace_of_isLetter (isLetter_of_isLower (hwl c hc))) true
    simp [this]

theorem normalizeName_count {m w : Str} (hm : isDigits m = true) (hw : isWord w = true) :
    normalizeName (m ++ ' ' :: w) = m ++ ' ' :: toLowerCase w := by
  obtain ⟨hwne, hwl⟩ := isWord_spec hw
  obtain ⟨-, hmd⟩ := isDigits_spec hm
  have hl : toLowerCase (m ++ ' ' :: w) = m ++ ' ' :: toLowerCase w := by
    have h1 : toLowerCase m = m := toLowerCase_of_fixed (fun c hc => lowerChar_of_isDigit (hmd c hc))
    have h2 : lowerChar ' ' = ' ' := by decide
    unfold toLowerCase at h1 ⊢
    rw [List.map_append, List.map_cons, h1, h2]
  rw [← normalizeName_toLowerCase, hl]
  apply normalizeName_of_isNormalized
  apply isNormalized_count hm
  refine ⟨?_, isLower_toLowerCase hwl⟩
  intro h
  apply hwne
  simpa [toLowerCase] using h

theorem parse_count (m w : Str) (hm : isDigits m = true) (hw : isWord w = true) :
    parseIngredientLine (m ++ ' ' :: w) =
      some { qty := finiteOrNull (toDouble (digitsValue m : ℚ)), unit := toLowerCase w,
             name := m ++ ' ' :: w, key := m ++ ' ' :: toLowerCase w } := by
  obtain ⟨-, hwl⟩ := isWord_spec hw
  have h := parse_fallback m [] [' '] w hm rfl (by decide) (by simpa using hwl)
  have hn : numeralText m [] = m := by simp [numeralText]
  rw [hn] at h
  simp only [List.singleton_append] at h
  rw [trim_count hm hw, normalizeName_count hm hw, numeralValue_int] at h
  exact h

theorem two_entries (p1 p2 : Parsed) (f1 f2 : ℚ) (hne : aggKey p1 ≠ aggKey p2) :
    addToAggregate (addToAggregate [] p1 f1) p2 f2 =
      [(aggKey p1,
        { displayName := p1.name, unit := p1.unit, qty := p1.qty.map (fun q => q * f1),
          category := guessCategory p1.name }),
       (aggKey p2,
        { displayName := p2.name, unit := p2.unit, qty := p2.qty.map (fun q => q * f2),
          category := guessCategory p2.name })] := by
  rw [addToAggregate_absent [] p1 f1 rfl]
  rw [addToAggregate_absent _ p2 f2 (by simp [mapGet, hne])]
  cases p1.qty <;> cases p2.qty <;> rfl

theorem aggKey_ne_of_key (p1 p2 : Parsed) (hunit : p1.unit = p2.unit) (hkey : p1.key ≠ p2.key) :
    aggKey p1 ≠ aggKey p2 := by
  intro h
  apply hkey
  simp only [aggKey, hunit] at h
  exact List.append_cancel_right (List.append_cancel_right h)

/-! ## Claim about count-only lines -/

/-- C25: count-only lines never merge. For every alphabetic word `w` and every two
different integer numerals `m` and `n`, the lines `m w` and `n w` parse to items whose
name is the whole line and whose normalized keys, `m w` and `n w` in lower case,
differ; accumulating both gives two entries, each with the parsed quantity of its own
line times its factor, and not one entry with their sum. -/
theorem parseIngredientLine_count_apart (m n w : Str) (f1 f2 : ℚ)
    (hm : isDigits m = true) (hn : isDigits n = true) (hw : isWord w = true) (hmn : m ≠ n) :
    parseIngredientLine (m ++ ' ' :: w) =
        some { qty := finiteOrNull (toDouble (digitsValue m : ℚ)), unit := toLowerCase w,
               name := m ++ ' ' :: w, key := m ++ ' ' :: toLowerCase w } ∧
      parseIngredientLine (n ++ ' ' :: w) =
        some { qty := finiteOrNull (toDouble (digitsValue n : ℚ)), unit := toLowerCase w,
               name := n ++ ' ' :: w, key := n ++ ' ' :: toLowerCase w } ∧
      ∀ p1 p2, parseIngredientLine (m ++ ' ' :: w) = some p1 →
        parseIngredientLine (n ++ ' ' :: w) = some p2 →
        p1.key ≠ p2.key ∧ aggKey p1 ≠ aggKey p2 ∧
        addAll [] [(p1, f1), (p2, f2)] =
          [(aggKey p1,
            { displayName := m ++ ' ' :: w, unit := toLowerCase w,
              qty := p1.qty.map (fun q => q * f1),
              category := guessCategory (m ++ ' ' :: w) }),
           (aggKey p2,
            { displayName := n ++ ' ' :: w, unit := toLowerCase w,
              qty := p2.qty.map (fun q => q * f2),
              category := guessCategory (n ++ ' ' :: w) })] := by
  refine ⟨parse_count m w hm hw, parse_count n w hn hw, ?_⟩
  intro p1 p2 h1 h2
  rw [parse_count m w hm hw] at h1
  rw [parse_count n w hn hw] at h2
  have e1 := (Option.some.inj h1).symm
  have e2 := (Option.some.inj h2).symm
  have hkey : p1.key ≠ p2.key := by
    rw [e1, e2]
    intro h
    exact hmn (List.append_cancel_right h)
  have hagg : aggKey p1 ≠ aggKey p2 :=
    aggKey_ne_of_key p1 p2 (by rw [e1, e2]) hkey
  refine ⟨hkey, hagg, ?_⟩
  have h := two_entries p1 p2 f1 f2 hagg
  simp only [addAll, List.foldl_cons, List.foldl_nil]
  rw [h, e1, e2]

/-- C25 at `"2 eggs"` and `"3 eggs"`, each with factor `1`: the lines parse to the
quantities `2` and `3`, and accumulating them gives two entries, with the quantities
`2` and `3`. -/
theorem parseIngredientLine_count_apart_witness :
    parseIngredientLine "2 eggs".toList =
        some { qty := some 2, unit := "eggs".toList, name := "2 eggs".toList,
               key := "2 eggs".toList } ∧
      parseIngredientLine "3 eggs".toList =
        some { qty := some 3, unit := "eggs".toList, name := "3 eggs".toList,
               key := "3 eggs".toList } ∧
      addAll []
        [({ qty := some 2, unit := "eggs".toList, name := "2 eggs".toList,
            key := "2 eggs".toList }, 1),
         ({ qty := some 3, unit := "eggs".toList, name := "3 eggs".toList,
            key := "3 eggs".toList }, 1)] =
      [("2 eggs__eggs".toList,
        { displayName := "2 eggs".toList, unit := "eggs".toList, qty := some 2,
          category := "Other".toList }),
       ("3 eggs__eggs".toList,
        { displayName := "3 eggs".toList, unit := "eggs".toList, qty := some 3,
          category := "Other".toList })] := by
  have h := parseIngredientLine_count_apart "2".toList "3".toList "eggs".toList 1 1
    (by decide) (by decide) (by decide) (by decide)
  have h2 : digitsValue "2".toList = 2 := by decide
  have h3 : digitsValue "3".toList = 3 := by decide
  have hl : toLowerCase "eggs".toList = "eggs".toList := by decide
  have hc2 : guessCategory ("2".toList ++ ' ' :: "eggs".toList) = "Other".toList := by decide
  have hc3 : guessCategory ("3".toList ++ ' ' :: "eggs".toList) = "Other".toList := by decide
  rw [h2, h3, hl, hc2, hc3, finite_nat 2 (by norm_num), finite_nat 3 (by norm_num)] at h
  have h4 := (h.2.2 _ _ h.1 h.2.1).2.2
  have h5 := h.1
  have h6 := h.2.1
  norm_num at h4 h5 h6
  exact ⟨h5, h6, h4⟩

/-! ## Injectivity of the aggregation key -/

/-! ### What a successful match says about its result -/

theorem star_result {α : Type} (p : Char → Bool) (k : Str → Str → Option α) (Q : α → Prop)
    (hk : ∀ acc r x, (∀ c ∈ acc, p c = true) → k acc r = some x → Q x) (s : Str) :
    ∀ (acc : Str) (x : α), (∀ c ∈ acc, p c = true) → star p k acc s = some x → Q x := by
  induction s with
  | nil =>
    intro acc x hacc h
    rw [star] at h
    exact hk acc [] x hacc h
  | cons c cs ih =>
    intro acc x hacc h
    rw [star] at h
    by_cases hc : p c = true
    · rw [if_pos hc] at h
      cases hs : star p k (acc ++ [c]) cs with
      | some r =>
        rw [hs] at h
        have hr : r = x := Option.some.inj h
        rw [← hr]
        refine ih (acc ++ [c]) r ?_ hs
        intro d hd
        rcases List.mem_append.mp hd with h1 | h1
        · exact hacc d h1
        · rw [List.mem_singleton.mp h1]; exact hc
      | none =>
        rw [hs] at h
        exact hk acc (c :: cs) x hacc h
    · rw [if_neg hc] at h
      exact hk acc (c :: cs) x hacc h

theorem plus_result {α : Type} (p : Char → Bool) (k : Str → Str → Option α) (Q : α → Prop)
    (hk : ∀ acc r x, (∀ c ∈ acc, p c = true) → k acc r = some x → Q x) (s : Str) (x : α)
    (h : plus p k s = some x) : Q x := by
  cases s with
  | nil => rw [plus] at h; cases h
  | cons c cs =>
    rw [plus] at h
    by_cases hc : p c = true
    · rw [if_pos hc] at h
      refine star_result p k Q hk cs [c] x ?_ h
      intro d hd
      rw [List.mem_singleton.mp hd]; exact hc
    · rw [if_neg hc] at h; cases h

theorem lit_result {α : Type} (ch : Nat) (k : Str → Option α) (Q : α → Prop)
    (hk : ∀ r x, k r = some x → Q x) (s : Str) (x : α) (h : lit ch k s = some x) : Q x := by
  cases s with
  | nil => rw [lit] at h; cases h
  | cons c cs =>
    rw [lit] at h
    by_cases hc : (c.toNat == ch) = true
    · rw [if_pos hc] at h; exact hk cs x h
    · rw [if_neg hc] at h; cases h

theorem fraction_result {α : Type} (k : Str → Str → Option α) (Q : α → Prop)
    (hk : ∀ b r x, k b r = some x → Q x) (s : Str) (x : α) (h : fraction k s = some x) :
    Q x := by
  unfold fraction at h
  refine plus_result isDigit _ Q ?_ s x h
  intro n r y _ hy
  refine lit_result 47 _ Q ?_ r y hy
  intro r1 z hz
  refine plus_result isDigit _ Q ?_ r1 z hz
  intro d r2 v _ hv
  exact hk _ r2 v hv

theorem reRest_result (a : Str) (b u : Option Str) (s : Str) (g : Groups)
    (h : reRest a b u s = some g) : g.g3 = u := by
  unfold reRest at h
  refine star_result isSpace _ (fun g => g.g3 = u) ?_ s [] g (by simp) h
  intro _ r x _ hx
  refine star_result isDot _ (fun g => g.g3 = u) ?_ r [] x (by simp) hx
  intro rest r1 y _ hy
  by_cases hr : r1 = []
  · rw [if_pos hr] at hy
    rw [← Option.some.inj hy]
  · rw [if_neg hr] at hy; cases hy

theorem reUnit_result (a : Str) (b : Option Str) (s : Str) (g : Groups)
    (h : reUnit a b s = some g) : unitLetters g := by
  unfold reUnit at h
  refine star_result isSpace _ unitLetters ?_ s [] g (by simp) h
  intro _ r x _ hx
  cases hp : plus isLetter (fun u r1 => reRest a b (some u) r1) r with
  | some y =>
    rw [hp] at hx
    have hxy : y = x := Option.some.inj hx
    rw [← hxy]
    refine plus_result isLetter _ unitLetters ?_ r y hp
    intro u r1 z hu hz
    have h3 := reRest_result a b (some u) r1 z hz
    intro v hv
    rw [h3] at hv
    rw [← Option.some.inj hv]
    exact hu
  | none =>
    rw [hp] at hx
    have h3 := reRest_result a b none r x hx
    intro v hv
    rw [h3] at hv
    cases hv

theorem reMixed_result (a : Str) (s : Str) (g : Groups) (h : reMixed a s = some g) :
    unitLetters g := by
  unfold reMixed at h
  cases hp : plus isSpace (fun _ r => fraction (fun b r1 => reUnit a (some b) r1) r) s with
  | some y =>
    rw [hp] at h
    have hxy : y = g := Option.some.inj h
    rw [← hxy]
    refine plus_result isSpace _ unitLetters ?_ s y hp
    intro _ r z _ hz
    refine fraction_result _ unitLetters ?_ r z hz
    intro b r1 v hv
    exact reUnit_result a (some b) r1 v hv
  | none =>
    rw [hp] at h
    exact reUnit_result a none s g h

theorem lineMatch_result (s : Str) (g : Groups) (h : lineMatch s = some g) :
    unitLetters g := by
  unfold lineMatch at h
  cases hd : reDecimal s with
  | some y =>
    rw [hd] at h
    have hxy : y = g := Option.some.inj h
    rw [← hxy]
    unfold reDecimal at hd
    refine plus_result isDigit _ unitLetters ?_ s y hd
    intro ip r z _ hz
    cases hl : lit 46 (fun r1 => plus isDigit (fun fp r2 => reMixed (ip ++ '.' :: fp) r2) r1) r with
    | some w =>
      rw [hl] at hz
      have hwz : w = z := Option.some.inj hz
      rw [← hwz]
      refine lit_result 46 _ unitLetters ?_ r w hl
      intro r1 v hv
      refine plus_result isDigit _ unitLetters ?_ r1 v hv
      intro fp r2 t _ ht
      exact reMixed_result _ r2 t ht
    | none =>
      rw [hl] at hz
      exact reMixed_result ip r z hz
  | none =>
    rw [hd] at h
    unfold reFraction at h
    refine fraction_result _ unitLetters ?_ s g h
    intro a r v hv
    exact reMixed_result a r v hv

theorem parse_unit_lower (line : Str) (p : Parsed) (h : parseIngredientLine line = some p) :
    ∀ c ∈ p.unit, isLower c = true := by
  by_cases hne : trim line = []
  · simp [parseIngredientLine, hne] at h
  · cases hm : lineMatch (trim line) with
    | none =>
      rw [parse_of_no_match line hne hm] at h
      rw [← Option.some.inj h]
      intro c hc
      cases hc
    | some g =>
      rw [parse_of_lineMatch line g hne hm] at h
      rw [← Option.some.inj h]
      have hg := lineMatch_result _ g hm
      cases h3 : g.g3 with
      | none =>
        intro c hc
        simp [toLowerCase] at hc
      | some u =>
        exact isLower_toLowerCase (hg u h3)

/-! ### The separator cannot be confused with the unit -/

theorem append_sep_inj {α : Type} {x : α} {a1 a2 u1 u2 : List α} (h1 : x ∉ u1) (h2 : x ∉ u2)
    (h : a1 ++ x :: u1 = a2 ++ x :: u2) : a1 = a2 ∧ u1 = u2 := by
  rcases List.append_eq_append_iff.mp h with ⟨t, ht1, ht2⟩ | ⟨t, ht1, ht2⟩
  · cases t with
    | nil =>
      simp only [List.nil_append, List.cons.injEq, true_and] at ht2
      simp only [List.append_nil] at ht1
      exact ⟨ht1.symm, ht2⟩
    | cons y ys =>
      simp only [List.cons_append, List.cons.injEq] at ht2
      exact absurd (by rw [ht2.2]; simp) h1
  · cases t with
    | nil =>
      simp only [List.nil_append, List.cons.injEq, true_and] at ht2
      simp only [List.append_nil] at ht1
      exact ⟨ht1, ht2.symm⟩
    | cons y ys =>
      simp only [List.cons_append, List.cons.injEq] at ht2
      exact absurd (by rw [ht2.2]; simp) h2

theorem aggKey_inj (p1 p2 : Parsed) (h1 : ∀ c ∈ p1.unit, isLower c = true)
    (h2 : ∀ c ∈ p2.unit, isLower c = true) :
    aggKey p1 = aggKey p2 ↔ p1.key = p2.key ∧ p1.unit = p2.unit := by
  constructor
  · intro h
    have hu : ∀ u : Str, (∀ c ∈ u, isLower c = true) → '_' ∉ u := by
      intro u hu hmem
      exact absurd (hu _ hmem) (by decide)
    have e : ∀ p : Parsed, aggKey p = (p.key ++ ['_']) ++ '_' :: p.unit := by
      intro p; simp [aggKey]
    rw [e p1, e p2] at h
    obtain ⟨ha, hb⟩ := append_sep_inj (hu _ h1) (hu _ h2) h
    exact ⟨List.append_cancel_right ha, hb⟩
  · rintro ⟨hk, hu⟩
    rw [aggKey, aggKey, hk, hu]

/-! ## Claim about the aggregation key -/

/-- C24: the aggregation key is injective on parser output. For every two results
`p1` and `p2` of `parseIngredientLine`, the unit holds only the letters a-z, and the
composite keys `p1.key + "__" + p1.unit` and `p2.key + "__" + p2.unit` are equal if
and only if `p1.key = p2.key` and `p1.unit = p2.unit`; two items that differ in the
normalized name or in the unit are filed as two entries. -/
theorem aggKey_injective (l1 l2 : Str) (p1 p2 : Parsed)
    (h1 : parseIngredientLine l1 = some p1) (h2 : parseIngredientLine l2 = some p2) :
    (∀ c ∈ p1.unit, isLower c = true) ∧ (∀ c ∈ p2.unit, isLower c = true) ∧
      (aggKey p1 = aggKey p2 ↔ p1.key = p2.key ∧ p1.unit = p2.unit) ∧
      ((p1.key ≠ p2.key ∨ p1.unit ≠ p2.unit) →
        ∀ f1 f2 : ℚ, addAll [] [(p1, f1), (p2, f2)] =
          [(aggKey p1,
            { displayName := p1.name, unit := p1.unit, qty := p1.qty.map (fun q => q * f1),
              category := guessCategory p1.name }),
           (aggKey p2,
            { displayName := p2.name, unit := p2.unit, qty := p2.qty.map (fun q => q * f2),
              category := guessCategory p2.name })]) := by
  have hu1 := parse_unit_lower l1 p1 h1
  have hu2 := parse_unit_lower l2 p2 h2
  have hinj := aggKey_inj p1 p2 hu1 hu2
  refine ⟨hu1, hu2, hinj, ?_⟩
  intro hne f1 f2
  have hagg : aggKey p1 ≠ aggKey p2 := by
    intro h
    obtain ⟨hk, hu⟩ := hinj.mp h
    rcases hne with h | h
    · exact h hk
    · exact h hu
  simp only [addAll, List.foldl_cons, List.foldl_nil]
  exact two_entries p1 p2 f1 f2 hagg

/-- C24 at the lines `"2 cups flour"` and `"1 cup flour"`: the keys `flour__cups` and
`flour__cup` differ, as the units do. -/
theorem aggKey_injective_witness :
    (aggKey { qty := some 2, unit := "cups".toList, name := "flour".toList,
              key := "flour".toList } =
        aggKey { qty := some 1, unit := "cup".toList, name := "flour".toList,
                 key := "flour".toList } ↔
      "flour".toList = "flour".toList ∧ "cups".toList = "cup".toList) ∧
    aggKey { qty := some 2, unit := "cups".toList, name := "flour".toList,
             key := "flour".toList } = "flour__cups".toList ∧
    aggKey { qty := some 1, unit := "cup".toList, name := "flour".toList,
             key := "flour".toList } = "flour__cup".toList :=
  ⟨(aggKey_injective _ _ _ _ parse_two_cups_flour parse_one_cup_flour).2.2.1, by decide,
    by decide⟩

/-! ## Totals are independent of the order of the calls -/

/-! ### One more call -/

theorem addAll_snoc (m : AggMap) (calls : List (Parsed × ℚ)) (c : Parsed × ℚ) :
    addAll m (calls ++ [c]) = addToAggregate (addAll m calls) c.1 c.2 := by
  simp [addAll, List.foldl_append]

theorem keySum_snoc (k : Str) (calls : List (Parsed × ℚ)) (c : Parsed × ℚ) :
    keySum k (calls ++ [c]) =
      keySum k calls + (if aggKey c.1 = k then c.1.qty.getD 0 * c.2 else 0) := by
  unfold keySum
  by_cases h : aggKey c.1 = k
  · simp [List.filter_append, List.filter_cons, h]
  · simp [List.filter_append, List.filter_cons, h]

theorem qtyAt_addToAggregate_other (m : AggMap) (item : Parsed) (f : ℚ) (k : Str)
    (hk : aggKey item ≠ k) : qtyAt (addToAggregate m item f) k = qtyAt m k := by
  rw [qtyAt, qtyAt, mapGet_addToAggregate_other m item f k hk]

theorem qtyAt_addToAggregate_new (m : AggMap) (item : Parsed) (f q : ℚ)
    (hq : item.qty = some q) (h : qtyAt m (aggKey item) = none) :
    qtyAt (addToAggregate m item f) (aggKey item) = some (some (q * f)) := by
  have hm : mapGet m (aggKey item) = none := by
    cases hg : mapGet m (aggKey item) with
    | none => rfl
    | some e => rw [qtyAt, hg] at h; cases h
  rw [addToAggregate_absent m item f hm, ← mapSet_absent m _ _ hm, qtyAt, mapGet_mapSet_same,
    hq]
  rfl

theorem qtyAt_addToAggregate_sum (m : AggMap) (item : Parsed) (f q x : ℚ)
    (hq : item.qty = some q) (h : qtyAt m (aggKey item) = some (some x)) :
    qtyAt (addToAggregate m item f) (aggKey item) = some (some (x + q * f)) := by
  cases hg : mapGet m (aggKey item) with
  | none => rw [qtyAt, hg] at h; cases h
  | some e =>
    rw [qtyAt, hg] at h
    have he : e.qty = some x := Option.some.inj h
    rw [addToAggregate_present m item f e hg, qtyAt, mapGet_mapSet_same, hq, he]
    rfl

/-! ### The total under each key -/

theorem qtyAt_addAll (calls : List (Parsed × ℚ)) :
    (∀ c ∈ calls, c.1.qty ≠ none) → ∀ k,
      qtyAt (addAll [] calls) k =
        if calls.any (fun c => decide (aggKey c.1 = k)) then some (some (keySum k calls))
        else none := by
  induction calls using List.reverseRecOn with
  | nil => intro _ k; rfl
  | append_singleton calls c ih =>
    intro hq k
    have hq1 : ∀ d ∈ calls, d.1.qty ≠ none := fun d hd => hq d (by simp [hd])
    have ih1 := ih hq1 k
    obtain ⟨q, hcq⟩ : ∃ q, c.1.qty = some q := by
      cases h : c.1.qty with
      | none => exact absurd h (hq c (by simp))
      | some q => exact ⟨q, rfl⟩
    rw [addAll_snoc, keySum_snoc, List.any_append]
    by_cases hk : aggKey c.1 = k
    · subst hk
      simp only [List.any_cons, List.any_nil, decide_True, Bool.or_false, Bool.or_true,
        if_true, hcq, Option.getD_some]
      by_cases hany : calls.any (fun d => decide (aggKey d.1 = aggKey c.1)) = true
      · rw [if_pos hany] at ih1
        exact qtyAt_addToAggregate_sum _ c.1 c.2 q _ hcq ih1
      · rw [if_neg hany] at ih1
        rw [qtyAt_addToAggregate_new _ c.1 c.2 q hcq ih1]
        have h0 : keySum (aggKey c.1) calls = 0 := by
          unfold keySum
          have : calls.filter (fun d => decide (aggKey d.1 = aggKey c.1)) = [] := by
            rw [List.filter_eq_nil_iff]
            intro d hd hdk
            exact hany (List.any_eq_true.mpr ⟨d, hd, hdk⟩)
          rw [this]; rfl
        rw [h0, zero_add]
    · have hd : decide (aggKey c.1 = k) = false := decide_eq_false hk
      rw [qtyAt_addToAggregate_other _ c.1 c.2 k hk, ih1, if_neg hk, add_zero]
      simp only [List.any_cons, List.any_nil, hd, Bool.or_false]

theorem mem_keys_iff (m : AggMap) (k : Str) :
    k ∈ m.map Prod.fst ↔ qtyAt m k ≠ none := by
  induction m with
  | nil =>
    constructor
    · intro h; cases h
    · intro h; exact absurd rfl h
  | cons kv m ih =>
    obtain ⟨k1, e1⟩ := kv
    by_cases hk : k1 = k
    · constructor
      · intro _ h
        rw [qtyAt, mapGet, if_pos hk] at h
        cases h
      · intro _
        rw [List.map_cons, hk]
        exact List.mem_cons_self _ _
    · have e : qtyAt ((k1, e1) :: m) k = qtyAt m k := by
        rw [qtyAt, qtyAt, mapGet, if_neg hk]
      rw [e, ← ih, List.map_cons, List.mem_cons]
      constructor
      · rintro (h | h)
        · exact absurd h.symm hk
        · exact h
      · intro h; exact Or.inr h

theorem keySum_perm (k : Str) {calls calls2 : List (Parsed × ℚ)} (h : calls.Perm calls2) :
    keySum k calls = keySum k calls2 := by
  unfold keySum
  exact ((h.filter _).map _).sum_eq

theorem any_perm {α : Type} (p : α → Bool) {l1 l2 : List α} (h : l1.Perm l2) :
    l1.any p = l2.any p := by
  rw [Bool.eq_iff_iff, List.any_eq_true, List.any_eq_true]
  constructor
  · rintro ⟨x, hx, hp⟩; exact ⟨x, h.mem_iff.mp hx, hp⟩
  · rintro ⟨x, hx, hp⟩; exact ⟨x, h.mem_iff.mpr hx, hp⟩

theorem qtyAt_addAll_perm {calls calls2 : List (Parsed × ℚ)} (h : calls.Perm calls2)
    (hq : ∀ c ∈ calls, c.1.qty ≠ none) (k : Str) :
    qtyAt (addAll [] calls) k = qtyAt (addAll [] calls2) k := by
  have hq2 : ∀ c ∈ calls2, c.1.qty ≠ none := fun c hc => hq c (h.mem_iff.mpr hc)
  rw [qtyAt_addAll calls hq k, qtyAt_addAll calls2 hq2 k, any_perm _ h, keySum_perm k h]

theorem mem_keys_addAll (calls : List (Parsed × ℚ)) (hq : ∀ c ∈ calls, c.1.qty ≠ none)
    (k : Str) :
    k ∈ (addAll [] calls).map Prod.fst ↔ ∃ c ∈ calls, aggKey c.1 = k := by
  rw [mem_keys_iff, qtyAt_addAll calls hq k]
  by_cases hany : calls.any (fun c => decide (aggKey c.1 = k)) = true
  · rw [if_pos hany]
    obtain ⟨c, hc, hck⟩ := List.any_eq_true.mp hany
    exact ⟨fun _ => ⟨c, hc, of_decide_eq_true hck⟩, fun _ h => by cases h⟩
  · rw [if_neg hany]
    constructor
    · intro h; exact absurd rfl h
    · rintro ⟨c, hc, hck⟩
      exact absurd (List.any_eq_true.mpr ⟨c, hc, decide_eq_true hck⟩) hany

theorem unit_addAll (calls : List (Parsed × ℚ)) (k : Str) (e : Entry)
    (h : mapGet (addAll [] calls) k = some e) :
    ∃ c ∈ calls, aggKey c.1 = k ∧ e.unit = c.1.unit := by
  cases hf : firstFor k calls with
  | none =>
    rw [addAll_absent calls [] k rfl hf] at h
    cases h
  | some c =>
    obtain ⟨it, f⟩ := c
    obtain ⟨e2, h2, -, hu, -, -⟩ := addAll_first calls [] k it f rfl hf
    rw [h] at h2
    have he : e = e2 := Option.some.inj h2
    refine ⟨(it, f), List.mem_of_find?_eq_some hf, ?_, by rw [he, hu]⟩
    have := List.find?_some hf
    exact of_decide_eq_true this

/-! ## Claim about the order of the calls -/

/-- C27: order independence of totals. For every list of calls (parsed item, factor)
in which every quantity is non-null, and every permutation of it, folding
`addToAggregate` over either from the empty map gives the same set of keys, namely
the keys of the items, and under each key the same quantity: the sum of quantity
times factor over the calls that file under that key, in exact arithmetic. When the
items are results of `parseIngredientLine`, the unit of an entry is the same in both
orders as well. -/
theorem addAll_order_independent (calls calls2 : List (Parsed × ℚ))
    (hperm : calls.Perm calls2) (hq : ∀ c ∈ calls, c.1.qty ≠ none) :
    (∀ k, k ∈ (addAll [] calls).map Prod.fst ↔ k ∈ (addAll [] calls2).map Prod.fst) ∧
      (∀ k, k ∈ (addAll [] calls).map Prod.fst ↔ ∃ c ∈ calls, aggKey c.1 = k) ∧
      (∀ k, qtyAt (addAll [] calls) k = qtyAt (addAll [] calls2) k) ∧
      (∀ k, k ∈ (addAll [] calls).map Prod.fst →
        qtyAt (addAll [] calls) k = some (some (keySum k calls)) ∧
        qtyAt (addAll [] calls2) k = some (some (keySum k calls))) ∧
      ((∀ c ∈ calls, ∃ l, parseIngredientLine l = some c.1) →
        ∀ k e e2, mapGet (addAll [] calls) k = some e →
          mapGet (addAll [] calls2) k = some e2 → e.unit = e2.unit) := by
  have hq2 : ∀ c ∈ calls2, c.1.qty ≠ none := fun c hc => hq c (hperm.mem_iff.mpr hc)
  refine ⟨?_, mem_keys_addAll calls hq, qtyAt_addAll_perm hperm hq, ?_, ?_⟩
  · intro k
    rw [mem_keys_addAll calls hq, mem_keys_addAll calls2 hq2]
    constructor
    · rintro ⟨c, hc, hk⟩; exact ⟨c, hperm.mem_iff.mp hc, hk⟩
    · rintro ⟨c, hc, hk⟩; exact ⟨c, hperm.mem_iff.mpr hc, hk⟩
  · intro k hk
    obtain ⟨c, hc, hck⟩ := (mem_keys_addAll calls hq k).mp hk
    have hany : calls.any (fun c => decide (aggKey c.1 = k)) = true :=
      List.any_eq_true.mpr ⟨c, hc, decide_eq_true hck⟩
    have h1 := qtyAt_addAll calls hq k
    rw [if_pos hany] at h1
    exact ⟨h1, by rw [← qtyAt_addAll_perm hperm hq k]; exact h1⟩
  · intro hparse k e e2 h1 h2
    obtain ⟨c, hc, hck, hcu⟩ := unit_addAll calls k e h1
    obtain ⟨d, hd, hdk, hdu⟩ := unit_addAll calls2 k e2 h2
    obtain ⟨lc, hlc⟩ := hparse c hc
    obtain ⟨ld, hld⟩ := hparse d (hperm.mem_iff.mpr hd)
    have hinj := aggKey_inj c.1 d.1 (parse_unit_lower lc c.1 hlc) (parse_unit_lower ld d.1 hld)
    rw [hcu, hdu]
    exact (hinj.mp (hck.trans hdk.symm)).2

/-- C27 at the items `rice (chicken)` (quantity 1, factor 2) and `rice` (quantity 2,
factor 3), both with unit `cup` and key `rice`: in either order the entry
`rice__cup` holds `1 * 2 + 2 * 3 = 8`, while the display name and the category are
those of the item that came first. -/
theorem addAll_order_independent_witness :
    qtyAt (addAll []
        [({ qty := some 1, unit := "cup".toList, name := "rice (chicken)".toList,
            key := "rice".toList }, 2),
         ({ qty := some 2, unit := "cup".toList, name := "rice".toList,
            key := "rice".toList }, 3)]) "rice__cup".toList = some (some 8) ∧
      qtyAt (addAll []
        [({ qty := some 2, unit := "cup".toList, name := "rice".toList,
            key := "rice".toList }, 3),
         ({ qty := some 1, unit := "cup".toList, name := "rice (chicken)".toList,
            key := "rice".toList }, 2)]) "rice__cup".toList = some (some 8) ∧
      (mapGet (addAll []
        [({ qty := some 1, unit := "cup".toList, name := "rice (chicken)".toList,
            key := "rice".toList }, 2),
         ({ qty := some 2, unit := "cup".toList, name := "rice".toList,
            key := "rice".toList }, 3)]) "rice__cup".toList).map
          (fun e => (e.displayName, e.category)) =
        some ("rice (chicken)".toList, "Meat & Seafood".toList) ∧
      (mapGet (addAll []
        [({ qty := some 2, unit := "cup".toList, name := "rice".toList,
            key := "rice".toList }, 3),
         ({ qty := some 1, unit := "cup".toList, name := "rice (chicken)".toList,
            key := "rice".toList }, 2)]) "rice__cup".toList).map
          (fun e => (e.displayName, e.category)) =
        some ("rice".toList, "Pantry".toList) := by
  have h := addAll_order_independent
    [({ qty := some 1, unit := "cup".toList, name := "rice (chicken)".toList,
        key := "rice".toList }, 2),
     ({ qty := some 2, unit := "cup".toList, name := "rice".toList,
        key := "rice".toList }, 3)]
    [({ qty := some 2, unit := "cup".toList, name := "rice".toList,
        key := "rice".toList }, 3),
     ({ qty := some 1, unit := "cup".toList, name := "rice (chicken)".toList,
        key := "rice".toList }, 2)]
    (List.Perm.swap _ _ _)
    (by
      intro c hc
      rcases List.mem_cons.mp hc with h1 | h1
      · rw [h1]; exact Option.some_ne_none _
      · rw [List.mem_singleton.mp h1]; exact Option.some_ne_none _)
  have hk := (h.2.1 "rice__cup".toList).mpr ⟨_, List.mem_cons_self _ _, by decide⟩
  have hs := h.2.2.2.1 _ hk
  have hsum : keySum "rice__cup".toList
      [({ qty := some 1, unit := "cup".toList, name := "rice (chicken)".toList,
          key := "rice".toList }, 2),
       ({ qty := some 2, unit := "cup".toList, name := "rice".toList,
          key := "rice".toList }, 3)] = 8 := by
    have e : keySum "rice__cup".toList
        [({ qty := some 1, unit := "cup".toList, name := "rice (chicken)".toList,
            key := "rice".toList }, 2),
         ({ qty := some 2, unit := "cup".toList, name := "rice".toList,
            key := "rice".toList }, 3)] = (1 : ℚ) * 2 + (2 * 3 + 0) := by
      unfold keySum
      rw [List.filter_cons_of_pos (by decide), List.filter_cons_of_pos (by decide)]
      rfl
    rw [e]; norm_num
  rw [hsum] at hs
  exact ⟨hs.1, hs.2, by decide, by decide⟩

/-! ## The order of the output under a collation -/

/-! ### Consistent collations -/

theorem Consistent.lt_irrefl {coll : Collation} (h : Consistent coll) (a : Str) :
    coll a a ≠ Ordering.lt := by
  rw [h.same]; decide

theorem Consistent.gt_of_lt {coll : Collation} (h : Consistent coll) {a b : Str}
    (hab : coll a b = Ordering.lt) : coll b a = Ordering.gt := by
  rw [h.flip a b, hab]; rfl

theorem Consistent.lt_asymm {coll : Collation} (h : Consistent coll) {a b : Str}
    (hab : coll a b = Ordering.lt) : coll b a ≠ Ordering.lt := by
  rw [h.gt_of_lt hab]; decide

theorem Consistent.total {coll : Collation} (h : Consistent coll) (a b : Str) :
    coll a b ≠ Ordering.gt ∨ coll b a ≠ Ordering.gt := by
  rw [h.flip a b]
  cases coll a b <;> simp [Ordering.swap]

theorem Consistent.eq_of_le_le {coll : Collation} (h : Consistent coll) {a b : Str}
    (h1 : coll a b ≠ Ordering.gt) (h2 : coll b a ≠ Ordering.gt) : coll a b = Ordering.eq := by
  rw [h.flip a b] at h2
  cases hc : coll a b with
  | lt => rw [hc] at h2; exact absurd rfl h2
  | eq => rfl
  | gt => exact absurd hc h1

/-! ### Insertion sort under an order that is total and transitive on the elements -/

theorem sorted_orderedInsert_of_mem {α : Type} (r : α → α → Prop) [DecidableRel r] (a : α) :
    ∀ (t : List α), (∀ x ∈ a :: t, ∀ y ∈ a :: t, r x y ∨ r y x) →
      (∀ x ∈ a :: t, ∀ y ∈ a :: t, ∀ z ∈ a :: t, r x y → r y z → r x z) →
      t.Pairwise r → (t.orderedInsert r a).Pairwise r := by
  intro t
  induction t with
  | nil => intro _ _ _; simp
  | cons b t ih =>
    intro htot htr hs
    rw [List.pairwise_cons] at hs
    rw [List.orderedInsert]
    by_cases hab : r a b
    · rw [if_pos hab, List.pairwise_cons]
      refine ⟨?_, List.pairwise_cons.mpr hs⟩
      intro c hc
      rcases List.mem_cons.mp hc with h | h
      · rw [h]; exact hab
      · exact htr a (by simp) b (by simp) c (by simp [h]) hab (hs.1 c h)
    · rw [if_neg hab, List.pairwise_cons]
      have hba : r b a := by
        rcases htot a (by simp) b (by simp) with h | h
        · exact absurd h hab
        · exact h
      constructor
      · intro c hc
        rw [List.mem_orderedInsert] at hc
        rcases hc with h | h
        · rw [h]; exact hba
        · exact hs.1 c h
      · apply ih
        · intro x hx y hy
          exact htot x (by
            rcases List.mem_cons.mp hx with h | h
            · simp [h]
            · simp [h]) y (by
            rcases List.mem_cons.mp hy with h | h
            · simp [h]
            · simp [h])
        · intro x hx y hy z hz
          exact htr x (by
            rcases List.mem_cons.mp hx with h | h
            · simp [h]
            · simp [h]) y (by
            rcases List.mem_cons.mp hy with h | h
            · simp [h]
            · simp [h]) z (by
            rcases List.mem_cons.mp hz with h | h
            · simp [h]
            · simp [h])
        · exact hs.2

theorem sorted_insertionSort_of_mem {α : Type} (r : α → α → Prop) [DecidableRel r] :
    ∀ (l : List α), (∀ x ∈ l, ∀ y ∈ l, r x y ∨ r y x) →
      (∀ x ∈ l, ∀ y ∈ l, ∀ z ∈ l, r x y → r y z → r x z) →
      (l.insertionSort r).Pairwise r := by
  intro l
  induction l with
  | nil => intro _ _; simp
  | cons a l ih =>
    intro htot htr
    rw [List.insertionSort]
    have hmem : ∀ x, x ∈ a :: l.insertionSort r → x ∈ a :: l := by
      intro x hx
      rcases List.mem_cons.mp hx with h | h
      · simp [h]
      · exact List.mem_cons_of_mem _ ((List.perm_insertionSort r l).mem_iff.mp h)
    apply sorted_orderedInsert_of_mem
    · intro x hx y hy
      exact htot x (hmem x hx) y (hmem y hy)
    · intro x hx y hy z hz
      exact htr x (hmem x hx) y (hmem y hy) z (hmem z hz)
    · exact ih (fun x hx y hy => htot x (List.mem_cons_of_mem _ hx) y (List.mem_cons_of_mem _ hy))
        (fun x hx y hy z hz => htr x (List.mem_cons_of_mem _ hx) y (List.mem_cons_of_mem _ hy)
          z (List.mem_cons_of_mem _ hz))

/-! ### The comparator of the sort -/

theorem compareItemsBy_total {coll : Collation} (h : Consistent coll) (a b : Entry) :
    compareItemsBy coll a b ≠ Ordering.gt ∨ compareItemsBy coll b a ≠ Ordering.gt := by
  unfold compareItemsBy
  by_cases hc : a.category = b.category
  · rw [if_neg (by simpa using hc), if_neg (by simpa using hc.symm)]
    exact h.total _ _
  · have hc2 : ¬ b.category = a.category := fun e => hc e.symm
    rw [if_pos hc, if_pos hc2]
    exact h.total _ _

theorem compareItemsBy_trans {coll : Collation} (h : Consistent coll) {a b c : Entry}
    (hsep : coll a.category b.category = Ordering.eq → a.category = b.category)
    (h1 : compareItemsBy coll a b ≠ Ordering.gt) (h2 : compareItemsBy coll b c ≠ Ordering.gt) :
    compareItemsBy coll a c ≠ Ordering.gt := by
  unfold compareItemsBy at *
  by_cases hab : a.category = b.category
  · rw [if_neg (by simpa using hab)] at h1
    by_cases hbc : b.category = c.category
    · rw [if_neg (by simpa using hbc)] at h2
      rw [if_neg (by simpa using hab.trans hbc)]
      exact h.chain _ _ _ h1 h2
    · rw [if_pos hbc] at h2
      have hac : ¬ a.category = c.category := fun e => hbc (hab ▸ e)
      rw [if_pos hac, hab]
      exact h2
  · rw [if_pos hab] at h1
    by_cases hbc : b.category = c.category
    · rw [if_neg (by simpa using hbc)] at h2
      have hac : ¬ a.category = c.category := fun e => hab (e.trans hbc.symm)
      rw [if_pos hac, ← hbc]
      exact h1
    · rw [if_pos hbc] at h2
      by_cases hac : a.category = c.category
      · exfalso
        rw [← hac] at h2
        exact hab (hsep (h.eq_of_le_le h1 h2))
      · rw [if_pos hac]
        exact h.chain _ _ _ h1 h2

theorem orderedBeforeBy_of_compare {coll : Collation} {a b : Entry}
    (hsep : coll a.category b.category = Ordering.eq → a.category = b.category)
    (h1 : compareItemsBy coll a b ≠ Ordering.gt) : orderedBeforeBy coll a b := by
  unfold compareItemsBy at h1
  unfold orderedBeforeBy
  by_cases hab : a.category = b.category
  · rw [if_neg (by simpa using hab)] at h1
    exact Or.inr ⟨hab, h1⟩
  · rw [if_pos hab] at h1
    left
    cases hc : coll a.category b.category with
    | lt => rfl
    | eq => exact absurd (hsep hc) hab
    | gt => exact absurd hc h1

theorem sortItemsBy_perm (coll : Collation) (agg : AggMap) :
    (sortItemsBy coll agg).Perm (agg.map (fun kv => kv.2)) :=
  List.perm_insertionSort _ _

theorem sortItemsBy_sorted {coll : Collation} (h : Consistent coll) (agg : AggMap)
    (hsep : Separates coll (agg.map (fun kv => kv.2.category))) :
    (sortItemsBy coll agg).Pairwise (orderedBeforeBy coll) := by
  have hcat : ∀ x ∈ agg.map (fun kv => kv.2), x.category ∈ agg.map (fun kv => kv.2.category) := by
    intro x hx
    obtain ⟨kv, hkv, rfl⟩ := List.mem_map.mp hx
    exact List.mem_map.mpr ⟨kv, hkv, rfl⟩
  have hs := sorted_insertionSort_of_mem (fun a b => compareItemsBy coll a b ≠ Ordering.gt)
    (agg.map (fun kv => kv.2))
    (fun x _ y _ => compareItemsBy_total h x y)
    (fun x hx y hy z _ h1 h2 =>
      compareItemsBy_trans h (hsep _ (hcat x hx) _ (hcat y hy)) h1 h2)
  refine List.Pairwise.imp_of_mem ?_ hs
  intro a b ha hb hab
  have ha2 := (sortItemsBy_perm coll agg).mem_iff.mp ha
  have hb2 := (sortItemsBy_perm coll agg).mem_iff.mp hb
  exact orderedBeforeBy_of_compare (hsep _ (hcat a ha2) _ (hcat b hb2)) hab

/-! ### Sections of a sorted sequence -/

/-- For items sorted by category, the distinct categories come in strictly increasing
order, and the items of the categories, taken in that order, are the items. -/
theorem sorted_sections_by {coll : Collation} (hcoll : Consistent coll) (items : List Entry)
    (hs : items.Pairwise (orderedBeforeBy coll)) :
    (firstAppearances (items.map (fun it => it.category))).Pairwise
        (fun c d => coll c d = Ordering.lt) ∧
      ((firstAppearances (items.map (fun it => it.category))).map
        (fun c => items.filter (fun it => decide (it.category = c)))).flatten = items := by
  induction items using List.reverseRecOn with
  | nil => simp [firstAppearances]
  | append_singleton xs x ih =>
    rw [List.pairwise_append] at hs
    obtain ⟨hxs, _, hlast⟩ := hs
    obtain ⟨hD, hflat⟩ := ih hxs
    have hle : ∀ c ∈ firstAppearances (xs.map (fun it => it.category)),
        coll c x.category = Ordering.lt ∨ c = x.category := by
      intro c hc
      rw [mem_firstAppearances] at hc
      obtain ⟨y, hy, rfl⟩ := List.mem_map.mp hc
      rcases hlast y hy x (by simp) with h | ⟨h, _⟩
      · exact Or.inl h
      · exact Or.inr h
    rw [List.map_append, List.map_singleton, firstAppearances_snoc]
    by_cases hk : x.category ∈ firstAppearances (xs.map (fun it => it.category))
    · rw [if_pos hk]
      refine ⟨hD, ?_⟩
      rcases List.eq_nil_or_concat (firstAppearances (xs.map (fun it => it.category))) with
        hnil | ⟨D0, l, hcat⟩
      · rw [hnil] at hk; simp at hk
      · rw [List.concat_eq_append] at hcat
        rw [hcat] at hD hk hle hflat ⊢
        rw [List.pairwise_append] at hD
        obtain ⟨_, _, hD0⟩ := hD
        have hl : l = x.category := by
          rcases hle l (by simp) with h | h
          · exfalso
            rcases List.mem_append.mp hk with h0 | h0
            · exact hcoll.lt_asymm h (hD0 _ h0 l (by simp))
            · have : x.category = l := by simpa using h0
              rw [this] at h
              exact hcoll.lt_irrefl _ h
          · exact h
        subst hl
        have hD0k : ∀ c ∈ D0, ¬ x.category = c := by
          intro c hc h
          have := hD0 c hc x.category (by simp)
          rw [h] at this
          exact hcoll.lt_irrefl _ this
        have hmap : D0.map (fun c => (xs ++ [x]).filter (fun it => decide (it.category = c))) =
            D0.map (fun c => xs.filter (fun it => decide (it.category = c))) := by
          apply List.map_congr_left
          intro c hc
          rw [filter_snoc, if_neg (hD0k c hc), List.append_nil]
        rw [List.map_append, List.flatten_append, hmap]
        rw [List.map_append, List.flatten_append] at hflat
        simp only [List.map_singleton, List.flatten_singleton] at hflat ⊢
        rw [filter_snoc, if_pos rfl, ← List.append_assoc, hflat]
    · rw [if_neg hk]
      constructor
      · rw [List.pairwise_append]
        refine ⟨hD, by simp, ?_⟩
        intro c hc d hd
        have hd2 : d = x.category := by simpa using hd
        rw [hd2]
        rcases hle c hc with h | h
        · exact h
        · exact absurd (h ▸ hc) hk
      · have hmap : (firstAppearances (xs.map (fun it => it.category))).map
            (fun c => (xs ++ [x]).filter (fun it => decide (it.category = c))) =
            (firstAppearances (xs.map (fun it => it.category))).map
              (fun c => xs.filter (fun it => decide (it.category = c))) := by
          apply List.map_congr_left
          intro c hc
          have hne : ¬ x.category = c := fun h => hk (h ▸ hc)
          rw [filter_snoc, if_neg hne, List.append_nil]
        have hempty : xs.filter (fun it => decide (it.category = x.category)) = [] := by
          rw [List.filter_eq_nil_iff]
          intro y hy hd
          apply hk
          rw [mem_firstAppearances]
          have : y.category = x.category := by simpa using hd
          rw [← this]
          exact List.mem_map_of_mem (fun it => it.category) hy
        rw [List.map_append, List.flatten_append, hmap, hflat]
        simp only [List.map_singleton, List.flatten_singleton]
        rw [filter_snoc, if_pos rfl, hempty, List.nil_append]


theorem section_sorted_by {coll : Collation} (hcoll : Consistent coll) (items : List Entry)
    (c : Str) (hs : items.Pairwise (orderedBeforeBy coll)) :
    (items.filter (fun it => decide (it.category = c))).Pairwise
      (fun a b => coll a.displayName b.displayName ≠ Ordering.gt) := by
  have hf := List.Pairwise.filter (fun it => decide (it.category = c)) hs
  refine List.Pairwise.imp_of_mem ?_ hf
  intro a b ha hb hab
  have hac : a.category = c := by simpa using (List.mem_filter.mp ha).2
  have hbc : b.category = c := by simpa using (List.mem_filter.mp hb).2
  rcases hab with h | ⟨_, h⟩
  · rw [hac, hbc] at h
    exact absurd h (hcoll.lt_irrefl _)
  · exact h

theorem grouped_sections_by {coll : Collation} (hcoll : Consistent coll) (items : List Entry)
    (hs : items.Pairwise (orderedBeforeBy coll)) (hne : ∀ it ∈ items, it.category ≠ []) :
    (groupByCategory items).map Prod.fst = firstAppearances (items.map (fun it => it.category)) ∧
      ((groupByCategory items).map Prod.fst).Nodup ∧
      (∀ s ∈ groupByCategory items,
        s.2 = items.filter (fun it => decide (it.category = s.1)) ∧
          s.2.Pairwise (fun a b => coll a.displayName b.displayName ≠ Ordering.gt)) ∧
      ((groupByCategory items).map Prod.snd).flatten = items := by
  have hg := groupByCategory_by_category items hne
  have hfst : (groupByCategory items).map Prod.fst =
      firstAppearances (items.map (fun it => it.category)) := by
    rw [hg, List.map_map]
    simp [Function.comp_def]
  refine ⟨hfst, ?_, ?_, ?_⟩
  · rw [hfst]; exact nodup_firstAppearances _
  · intro s hsm
    rw [hg] at hsm
    obtain ⟨c, _, rfl⟩ := List.mem_map.mp hsm
    exact ⟨rfl, section_sorted_by hcoll items c hs⟩
  · rw [hg, List.map_map]
    have := (sorted_sections_by hcoll items hs).2
    simpa [Function.comp_def] using this

theorem renderList_items_by {coll : Collation} (hcoll : Consistent coll) (items : List Entry)
    (grouped : Bool) (hs : items.Pairwise (orderedBeforeBy coll)) (hne : ∀ it ∈ items, it.category ≠ []) :
    ((renderList items grouped).map Prod.snd).flatten = items := by
  unfold renderList
  cases items with
  | nil => simp
  | cons x xs =>
    cases grouped with
    | false => simp
    | true =>
      have := (grouped_sections_by hcoll (x :: xs) hs hne).2.2.2
      simpa [List.map_map, Function.comp_def] using this

/-! ### Collations that are consistent -/

theorem Consistent.lt_of_lt_of_le {coll : Collation} (h : Consistent coll) {a b c : Str}
    (h1 : coll a b = Ordering.lt) (h2 : coll b c ≠ Ordering.gt) : coll a c = Ordering.lt := by
  have hac := h.chain a b c (by rw [h1]; decide) h2
  cases hc : coll a c with
  | lt => rfl
  | eq =>
    have hca : coll c a ≠ Ordering.gt := by rw [h.flip a c, hc]; decide
    exact absurd (h.gt_of_lt h1) (h.chain b c a h2 hca)
  | gt => exact absurd hc hac

theorem Consistent.lt_of_le_of_lt {coll : Collation} (h : Consistent coll) {a b c : Str}
    (h1 : coll a b ≠ Ordering.gt) (h2 : coll b c = Ordering.lt) : coll a c = Ordering.lt := by
  have hac := h.chain a b c h1 (by rw [h2]; decide)
  cases hc : coll a c with
  | lt => rfl
  | eq =>
    have hca : coll c a ≠ Ordering.gt := by rw [h.flip a c, hc]; decide
    exact absurd (h.gt_of_lt h2) (h.chain c a b hca h1)
  | gt => exact absurd hc hac

theorem Consistent.eq_symm {coll : Collation} (h : Consistent coll) {a b : Str}
    (h1 : coll a b = Ordering.eq) : coll b a = Ordering.eq := by
  rw [h.flip a b, h1]; rfl

theorem Consistent.eq_trans {coll : Collation} (h : Consistent coll) {a b c : Str}
    (h1 : coll a b = Ordering.eq) (h2 : coll b c = Ordering.eq) : coll a c = Ordering.eq := by
  apply h.eq_of_le_le
  · exact h.chain a b c (by rw [h1]; decide) (by rw [h2]; decide)
  · exact h.chain c b a (by rw [h.eq_symm h2]; decide) (by rw [h.eq_symm h1]; decide)

theorem consistent_localeCompare : Consistent localeCompare where
  same := fun a => (localeCompare_eq_iff a a).mpr rfl
  flip := fun a b => localeCompare_swap a b
  chain := by
    intro a b c h1 h2 h3
    rw [localeCompare_gt_iff] at h3
    have hab : lexLT a b ∨ a = b := by
      rcases lexLT_trichotomy a b with h | h | h
      · exact Or.inl h
      · exact Or.inr h
      · exact absurd ((localeCompare_gt_iff a b).mpr h) h1
    have hbc : lexLT b c ∨ b = c := by
      rcases lexLT_trichotomy b c with h | h | h
      · exact Or.inl h
      · exact Or.inr h
      · exact absurd ((localeCompare_gt_iff b c).mpr h) h2
    rcases hab with hab | hab
    · rcases hbc with hbc | hbc
      · exact lexLT_asymm (lexLT_trans hab hbc) h3
      · rw [← hbc] at h3; exact lexLT_asymm hab h3
    · rcases hbc with hbc | hbc
      · rw [hab] at h3; exact lexLT_asymm hbc h3
      · rw [hab, hbc] at h3; exact lexLT_irrefl _ h3

theorem consistent_reverse {coll : Collation} (h : Consistent coll) :
    Consistent (fun a b => coll b a) where
  same := fun a => h.same a
  flip := fun a b => h.flip b a
  chain := fun a b c h1 h2 => h.chain c b a h2 h1

theorem consistent_refine {c1 c2 : Collation} (f : Str → Str) (h1 : Consistent c1)
    (h2 : Consistent c2) :
    Consistent (fun a b =>
      match c1 (f a) (f b) with
      | Ordering.eq => c2 a b
      | o => o) where
  same := fun a => by simp only [h1.same, h2.same]
  flip := fun a b => by
    show (match c1 (f b) (f a) with
      | Ordering.eq => c2 b a
      | o => o) = (match c1 (f a) (f b) with
      | Ordering.eq => c2 a b
      | o => o).swap
    rw [h1.flip (f a) (f b), h2.flip a b]
    cases c1 (f a) (f b) <;> rfl
  chain := by
    intro a b c hab hbc
    show (match c1 (f a) (f c) with
      | Ordering.eq => c2 a c
      | o => o) ≠ Ordering.gt
    have hab : (match c1 (f a) (f b) with
      | Ordering.eq => c2 a b
      | o => o) ≠ Ordering.gt := hab
    have hbc : (match c1 (f b) (f c) with
      | Ordering.eq => c2 b c
      | o => o) ≠ Ordering.gt := hbc
    cases k1 : c1 (f a) (f b) with
    | gt => rw [k1] at hab; exact absurd rfl hab
    | lt =>
      have hle : c1 (f b) (f c) ≠ Ordering.gt := by
        intro hg; rw [hg] at hbc; exact hbc rfl
      rw [h1.lt_of_lt_of_le k1 hle]
      intro h; cases h
    | eq =>
      rw [k1] at hab
      cases k2 : c1 (f b) (f c) with
      | gt => rw [k2] at hbc; exact absurd rfl hbc
      | lt =>
        rw [h1.lt_of_le_of_lt (by rw [k1]; decide) k2]
        intro h; cases h
      | eq =>
        rw [k2] at hbc
        rw [h1.eq_trans k1 k2]
        exact h2.chain a b c hab hbc

theorem consistent_alphabetCompare : Consistent alphabetCompare :=
  consistent_refine toLowerCase consistent_localeCompare
    (consistent_reverse consistent_localeCompare)

/-! ### The categories of a map -/

theorem labels_ne_nil : ∀ c ∈ categoryLabels, c ≠ [] := by decide

theorem guessCategory_label (name : Str) : guessCategory name ∈ categoryLabels := by
  unfold guessCategory categoryLabels
  cases hf : CATEGORY_HINTS.find? (fun c => hintTest c.2 none name) with
  | none => simp
  | some c =>
    apply List.mem_append_left
    exact List.mem_map.mpr ⟨c, List.mem_of_find?_eq_some hf, rfl⟩

theorem addToAggregate_labels (m : AggMap) (item : Parsed) (f : ℚ)
    (hm : ∀ kv ∈ m, kv.2.category ∈ categoryLabels) :
    ∀ kv ∈ addToAggregate m item f, kv.2.category ∈ categoryLabels := by
  intro kv hkv
  cases hg : mapGet m (aggKey item) with
  | none =>
    rw [addToAggregate_absent m item f hg] at hkv
    rcases List.mem_append.mp hkv with h | h
    · exact hm kv h
    · have h2 := List.mem_singleton.mp h
      rw [h2]
      exact guessCategory_label _
  | some e =>
    rw [addToAggregate_present m item f e hg] at hkv
    rcases mem_mapSet _ _ _ _ hkv with h | h
    · exact hm kv h
    · rw [h]
      obtain ⟨k1, hk1⟩ := mem_of_mapGet m _ e hg
      exact hm _ hk1

theorem addAll_labels (calls : List (Parsed × ℚ)) : ∀ (m : AggMap),
    (∀ kv ∈ m, kv.2.category ∈ categoryLabels) →
      ∀ kv ∈ addAll m calls, kv.2.category ∈ categoryLabels := by
  induction calls with
  | nil => intro m hm; exact hm
  | cons c calls ih =>
    intro m hm
    exact ih _ (addToAggregate_labels m c.1 c.2 hm)

theorem separates_map {coll : Collation} (hsep : Separates coll categoryLabels) (agg : AggMap)
    (hcat : ∀ kv ∈ agg, kv.2.category ∈ categoryLabels) :
    Separates coll (agg.map (fun kv => kv.2.category)) := by
  intro x hx y hy
  obtain ⟨kx, hkx, rfl⟩ := List.mem_map.mp hx
  obtain ⟨ky, hky, rfl⟩ := List.mem_map.mp hy
  exact hsep _ (hcat kx hkx) _ (hcat ky hky)

theorem sortItemsBy_category {coll : Collation} (agg : AggMap) (P : Str → Prop)
    (hcat : ∀ kv ∈ agg, P kv.2.category) : ∀ it ∈ sortItemsBy coll agg, P it.category := by
  intro it hit
  have h := (sortItemsBy_perm coll agg).mem_iff.mp hit
  obtain ⟨kv, hkv, rfl⟩ := List.mem_map.mp h
  exact hcat kv hkv

theorem separates_localeCompare (l : List Str) : Separates localeCompare l :=
  fun x _ y _ h => (localeCompare_eq_iff x y).mp h

theorem sortItems_eq (agg : AggMap) : sortItems agg = sortItemsBy localeCompare agg := rfl

theorem lex_head_of_ne {α : Type} {r : α → α → Prop} {a b : α} {l1 l2 : List α} (hne : a ≠ b)
    (h : List.Lex r (a :: l1) (b :: l2)) : r a b := by
  cases h with
  | rel h => exact h
  | cons _ => exact absurd rfl hne

theorem sortItemsBy_input {coll : Collation} (hcoll : Consistent coll)
    (hsep : Separates coll categoryLabels) (calls : List (Parsed × ℚ)) :
    (sortItemsBy coll (addAll [] calls)).Pairwise (orderedBeforeBy coll) ∧
      ∀ it ∈ sortItemsBy coll (addAll [] calls), it.category ≠ [] := by
  have hcat := addAll_labels calls [] (by simp)
  refine ⟨sortItemsBy_sorted hcoll _ (separates_map hsep _ hcat), ?_⟩
  exact sortItemsBy_category _ (fun c => c ≠ []) (fun kv hkv => labels_ne_nil _ (hcat kv hkv))

/-! ## Claims about the list assembler -/

/-- C19 (counterexample): on a host whose collation puts letters in alphabetical order
whatever their case, the lines `Water`, `Zest` and `ice` come out as `ice`, `Water`,
`Zest`, which is not the order of the character codes (`W` and `Z` come before `i`).
And the names `icf`, `Ice`, `ice` come out as `ice`, `Ice`, `icf`, which is not
lexicographic for any order of the characters: the first pair would put `i` before
`I`, the second `I` before `i`. -/
theorem sortItemsBy_not_lexicographic :
    sortItemsBy alphabetCompare
        (aggregateAll [(Raw.seq ["Water".toList, "Zest".toList, "ice".toList], 1)]) =
      [⟨"ice".toList, [], none, "Other".toList⟩, ⟨"Water".toList, [], none, "Other".toList⟩,
        ⟨"Zest".toList, [], none, "Other".toList⟩] ∧
    ¬ orderedBefore ⟨"ice".toList, [], none, "Other".toList⟩
        ⟨"Water".toList, [], none, "Other".toList⟩ ∧
    (sortItemsBy alphabetCompare
        [("icf__cups".toList, ⟨"icf".toList, "cups".toList, some 2, "Other".toList⟩),
         ("ice__cup".toList, ⟨"Ice".toList, "cup".toList, some 1, "Other".toList⟩),
         ("ice__tsp".toList, ⟨"ice".toList, "tsp".toList, some 1, "Other".toList⟩)]).map
        (fun e => e.displayName) = ["ice".toList, "Ice".toList, "icf".toList] ∧
    ∀ lt : Char → Char → Prop, (∀ x y, lt x y → ¬ lt y x) →
      ¬ (List.Lex lt "ice".toList "Ice".toList ∧ List.Lex lt "Ice".toList "icf".toList) := by
  refine ⟨by decide, ?_, by decide, ?_⟩
  · intro h
    exact absurd ((itemLE_iff _ _).mpr h) (by decide)
  · rintro lt hlt ⟨h1, h2⟩
    exact hlt _ _ (lex_head_of_ne (by decide) h1) (lex_head_of_ne (by decide) h2)

/-- C19 (amended): on a host whose `localeCompare` is a consistent comparison that
tells the category labels apart, the items of the build are a permutation of the
entries of the map, ordered by category label and, within one category, by display
name, both in the order of `localeCompare`. The page lists them in this order with
grouping off and with grouping on. Every entry of a map filled by `addToAggregate` has
one of the category labels. -/
theorem sortItems_order (coll : Collation) (hcoll : Consistent coll)
    (hsep : Separates coll categoryLabels) (agg : AggMap)
    (hcat : ∀ kv ∈ agg, kv.2.category ∈ categoryLabels) :
    (sortItemsBy coll agg).Perm (agg.map (fun kv => kv.2)) ∧
      (sortItemsBy coll agg).Pairwise (orderedBeforeBy coll) ∧
      (∀ grouped : Bool,
        ((renderList (sortItemsBy coll agg) grouped).map Prod.snd).flatten =
          sortItemsBy coll agg) ∧
      ∀ calls : List (Parsed × ℚ), ∀ kv ∈ addAll [] calls, kv.2.category ∈ categoryLabels := by
  have hs := sortItemsBy_sorted hcoll agg (separates_map hsep agg hcat)
  refine ⟨sortItemsBy_perm coll agg, hs, ?_, fun calls => addAll_labels calls [] (by simp)⟩
  intro grouped
  apply renderList_items_by hcoll _ _ hs
  exact sortItemsBy_category _ (fun c => c ≠ []) (fun kv hkv => labels_ne_nil _ (hcat kv hkv))

/-- C19 at the lines `Water`, `Zest` and `ice` on a host with the alphabetical
collation: the items are `ice`, `Water`, `Zest`, in the order of that collation, with
grouping off and on. -/
theorem sortItems_order_witness :
    Consistent alphabetCompare ∧ Separates alphabetCompare categoryLabels ∧
      (sortItemsBy alphabetCompare
          (aggregateAll [(Raw.seq ["Water".toList, "Zest".toList, "ice".toList], 1)])).Pairwise
        (orderedBeforeBy alphabetCompare) ∧
      ∀ grouped : Bool,
        ((renderList (sortItemsBy alphabetCompare
          (aggregateAll [(Raw.seq ["Water".toList, "Zest".toList, "ice".toList], 1)]))
          grouped).map Prod.snd).flatten =
        [⟨"ice".toList, [], none, "Other".toList⟩, ⟨"Water".toList, [], none, "Other".toList⟩,
          ⟨"Zest".toList, [], none, "Other".toList⟩] := by
  have hsep : Separates alphabetCompare categoryLabels := by unfold Separates; decide
  have h := sortItems_order alphabetCompare consistent_alphabetCompare hsep
    (aggregateAll [(Raw.seq ["Water".toList, "Zest".toList, "ice".toList], 1)]) (by decide)
  refine ⟨consistent_alphabetCompare, hsep, h.2.1, ?_⟩
  intro grouped
  rw [h.2.2.1 grouped]
  decide

/-- C20: for items sorted by category and display name in the order of a consistent
`localeCompare`, none with an empty category, the grouping loop of `renderList` makes
one section per distinct category, in the order in which the categories first appear;
each section holds the items of its category, in display-name order; and the sections
one after the other are the items. The items that `renderList` receives, the sorted
entries of a map filled by `addToAggregate`, are sorted in this way and have no empty
category, on every host whose collation tells the category labels apart. -/
theorem groupByCategory_sections (coll : Collation) (hcoll : Consistent coll)
    (items : List Entry) (hs : items.Pairwise (orderedBeforeBy coll))
    (hne : ∀ it ∈ items, it.category ≠ []) :
    (groupByCategory items).map Prod.fst = firstAppearances (items.map (fun it => it.category)) ∧
      ((groupByCategory items).map Prod.fst).Nodup ∧
      (∀ s ∈ groupByCategory items,
        s.2 = items.filter (fun it => decide (it.category = s.1)) ∧
          s.2.Pairwise (fun a b => coll a.displayName b.displayName ≠ Ordering.gt)) ∧
      ((groupByCategory items).map Prod.snd).flatten = items ∧
      (Separates coll categoryLabels → ∀ calls : List (Parsed × ℚ),
        (sortItemsBy coll (addAll [] calls)).Pairwise (orderedBeforeBy coll) ∧
          ∀ it ∈ sortItemsBy coll (addAll [] calls), it.category ≠ []) := by
  obtain ⟨h1, h2, h3, h4⟩ := grouped_sections_by hcoll items hs hne
  exact ⟨h1, h2, h3, h4, fun hsep calls => sortItemsBy_input hcoll hsep calls⟩

/-- C20 at milk (Dairy), flour and salt (Pantry) on a host with the alphabetical
collation: the sections are `Dairy` and `Pantry`, and one after the other they are the
three items. -/
theorem groupByCategory_sections_witness :
    (groupByCategory
        [(⟨"milk".toList, "cup".toList, some 1, "Dairy".toList⟩ : Entry),
          ⟨"flour".toList, "cups".toList, some 4, "Pantry".toList⟩,
          ⟨"salt".toList, "tsp".toList, some 2, "Pantry".toList⟩]).map Prod.fst =
        ["Dairy".toList, "Pantry".toList] ∧
      ((groupByCategory
        [(⟨"milk".toList, "cup".toList, some 1, "Dairy".toList⟩ : Entry),
          ⟨"flour".toList, "cups".toList, some 4, "Pantry".toList⟩,
          ⟨"salt".toList, "tsp".toList, some 2, "Pantry".toList⟩]).map Prod.snd).flatten =
        [(⟨"milk".toList, "cup".toList, some 1, "Dairy".toList⟩ : Entry),
          ⟨"flour".toList, "cups".toList, some 4, "Pantry".toList⟩,
          ⟨"salt".toList, "tsp".toList, some 2, "Pantry".toList⟩] := by
  have h := groupByCategory_sections alphabetCompare consistent_alphabetCompare
    [(⟨"milk".toList, "cup".toList, some 1, "Dairy".toList⟩ : Entry),
      ⟨"flour".toList, "cups".toList, some 4, "Pantry".toList⟩,
      ⟨"salt".toList, "tsp".toList, some 2, "Pantry".toList⟩]
    (by unfold orderedBeforeBy; decide) (by decide)
  refine ⟨?_, h.2.2.2.1⟩
  rw [h.1]
  decide

/-! ## The name normalizer against its reference -/

/-! ### Lower case by the alphabet -/

theorem lowerRef_eq (c : Char) : lowerRef c = lowerChar c := by
  by_cases h : 65 ≤ c.toNat ∧ c.toNat ≤ 90
  · obtain ⟨h1, h2⟩ := h
    have hc : c = Char.ofNat c.toNat := (Char.ofNat_toNat c).symm
    rw [hc]
    generalize c.toNat = n at h1 h2
    interval_cases n <;> decide
  · have hl : lowerChar c = c := by
      unfold lowerChar
      rw [if_neg]
      simpa using h
    have hnone : (capitalLetters.zip smallLetters).lookup c = none := by
      rw [List.lookup_eq_none_iff]
      intro p hp
      have hrange : ∀ q ∈ capitalLetters.zip smallLetters, 65 ≤ q.1.toNat ∧ q.1.toNat ≤ 90 := by
        decide
      have hq := hrange p hp
      simp only [bne_iff_ne, ne_eq]
      intro e
      rw [← e] at hq
      exact h hq
    rw [lowerRef, hnone, hl]
    rfl

theorem map_lowerRef (s : Str) : s.map lowerRef = toLowerCase s := by
  unfold toLowerCase
  exact List.map_congr_left (fun c _ => lowerRef_eq c)

/-! ### Parentheticals, found by their first and last character -/

theorem span_spec {p : Char → Bool} (s pre rest : Str) (h : s.span p = (pre, rest)) :
    s = pre ++ rest ∧ (∀ c ∈ pre, p c = true) ∧ noHead p rest = true := by
  rw [List.span_eq_take_drop] at h
  have h1 : pre = s.takeWhile p := (congrArg Prod.fst h).symm
  have h2 : rest = s.dropWhile p := (congrArg Prod.snd h).symm
  subst h1 h2
  refine ⟨(List.takeWhile_append_dropWhile p s).symm, ?_, noHead_dropWhile p s⟩
  intro c hc
  exact List.mem_takeWhile_imp hc

theorem replaceParens_prefix (pre r : Str) (h : ∀ c ∈ pre, (c.toNat != 40) = true) :
    replaceParens false (pre ++ r) = pre ++ replaceParens false r := by
  induction pre with
  | nil => rfl
  | cons c cs ih =>
    have hc : (c.toNat == 40) = false := by
      have := h c (List.mem_cons_self _ _)
      simpa using this
    rw [List.cons_append, replaceParens, hc, Bool.false_and, if_neg (by simp),
      ih (fun d hd => h d (List.mem_cons_of_mem _ hd)), List.cons_append]

theorem replaceParens_inside (inside rest : Str) (c : Char)
    (h : ∀ d ∈ inside, (d.toNat != 41) = true) (hc : (c.toNat != 41) = false) :
    replaceParens true (inside ++ c :: rest) = replaceParens false rest := by
  induction inside with
  | nil =>
    have : (c.toNat == 41) = true := by simpa using hc
    rw [List.nil_append, replaceParens, if_pos this]
  | cons d ds ih =>
    have hd : ¬ (d.toNat == 41) = true := by
      have := h d (List.mem_cons_self _ _)
      simpa using this
    rw [List.cons_append, replaceParens, if_neg hd,
      ih (fun e he => h e (List.mem_cons_of_mem _ he))]

theorem noPair_of_no_close {t : Str} (h : ∀ c ∈ t, (c.toNat != 41) = true) :
    noPair t = true := by
  induction t with
  | nil => rfl
  | cons c cs ih =>
    rw [noPair_cons]
    refine ⟨fun _ => ?_, ih (fun d hd => h d (List.mem_cons_of_mem _ hd))⟩
    rw [Bool.eq_false_iff]
    intro hany
    obtain ⟨d, hd, hd41⟩ := List.any_eq_true.mp hany
    have := h d (List.mem_cons_of_mem _ hd)
    rw [bne_iff_ne] at this
    exact this (by simpa using hd41)

theorem parensRef_eq (fuel : Nat) : ∀ s : Str, s.length ≤ fuel →
    parensRef [' '] fuel s = replaceParens false s := by
  induction fuel with
  | zero =>
    intro s hs
    have : s = [] := List.eq_nil_of_length_eq_zero (Nat.le_zero.mp hs)
    subst this
    rfl
  | succ fuel ih =>
    intro s hs
    rw [parensRef]
    cases h1 : s.span (fun c => c.toNat != 40) with
    | mk pre r =>
      obtain ⟨hs1, hpre, hr⟩ := span_spec s pre r h1
      cases r with
      | nil =>
        simp only
        rw [hs1, replaceParens_prefix pre [] hpre]
        simp [replaceParens]
      | cons o after =>
        simp only
        have ho : (o.toNat == 40) = true := by
          have : (o.toNat != 40) = false := by simpa [noHead] using hr
          simpa using this
        cases h2 : after.span (fun c => c.toNat != 41) with
        | mk inside q =>
          obtain ⟨hs2, hin, hq⟩ := span_spec after inside q h2
          cases q with
          | nil =>
            simp only
            symm
            apply replaceParens_of_noPair
            rw [hs1]
            have hafter : ∀ c ∈ after, (c.toNat != 41) = true := by
              rw [hs2, List.append_nil]; exact hin
            have hnp : noPair (o :: after) = true := by
              rw [noPair_cons]
              refine ⟨fun _ => ?_, noPair_of_no_close hafter⟩
              rw [Bool.eq_false_iff]
              intro hany
              obtain ⟨d, hd, hd41⟩ := List.any_eq_true.mp hany
              have := hafter d hd
              rw [bne_iff_ne] at this
              exact this (by simpa using hd41)
            have hrp := replaceParens_prefix pre (o :: after) hpre
            rw [replaceParens_of_noPair _ hnp] at hrp
            have hnp2 := noPair_replaceParens (pre ++ o :: after) false
            rw [hrp] at hnp2
            exact hnp2
          | cons cl rest =>
            simp only
            have hcl : (cl.toNat != 41) = false := by simpa [noHead] using hq
            have hlen : rest.length ≤ fuel := by
              have e : s.length = pre.length + (1 + (inside.length + (1 + rest.length))) := by
                rw [hs1, hs2]
                simp only [List.length_append, List.length_cons]
                omega
              omega
            rw [ih rest hlen, hs1, replaceParens_prefix pre _ hpre, hs2]
            have hany : (inside ++ cl :: rest).any (fun d => d.toNat == 41) = true := by
              apply List.any_eq_true.mpr
              exact ⟨cl, by simp, by simpa using hcl⟩
            rw [replaceParens, ho, hany, Bool.and_self, if_pos rfl,
              replaceParens_inside inside rest cl hin hcl]
            simp

/-! ### Collapsing and trimming, by words -/

theorem rtrim_cons {c : Char} (x : Str) (hc : isSpace c = false) :
    ((c :: x).reverse.dropWhile isSpace).reverse = c :: (x.reverse.dropWhile isSpace).reverse := by
  rw [List.reverse_cons, List.dropWhile_append]
  by_cases he : (x.reverse.dropWhile isSpace).isEmpty = true
  · rw [if_pos he]
    have : x.reverse.dropWhile isSpace = [] := List.isEmpty_iff.mp he
    rw [this]
    simp [List.dropWhile, hc]
  · rw [if_neg he]
    simp

theorem rtrim_space (x : Str) :
    ((' ' :: x).reverse.dropWhile isSpace).reverse =
      if (x.reverse.dropWhile isSpace).reverse = [] then []
      else ' ' :: (x.reverse.dropWhile isSpace).reverse := by
  rw [List.reverse_cons, List.dropWhile_append]
  by_cases he : (x.reverse.dropWhile isSpace).isEmpty = true
  · rw [if_pos he]
    have : x.reverse.dropWhile isSpace = [] := List.isEmpty_iff.mp he
    rw [this]
    simp [List.dropWhile, isSpace_space]
  · rw [if_neg he]
    have hne : x.reverse.dropWhile isSpace ≠ [] := fun h => he (by rw [h]; rfl)
    have hne2 : (x.reverse.dropWhile isSpace).reverse ≠ [] := by
      simpa using hne
    rw [if_neg hne2]
    simp

theorem trim_cons_of_not_space {c : Char} (x : Str) (hc : isSpace c = false) :
    trim (c :: x) = c :: (x.reverse.dropWhile isSpace).reverse := by
  unfold trim
  have : (c :: x).dropWhile isSpace = c :: x := by simp [List.dropWhile, hc]
  rw [this, rtrim_cons x hc]

theorem trim_cons_of_space {c : Char} (x : Str) (hc : isSpace c = true) :
    trim (c :: x) = trim x := by
  unfold trim
  have : (c :: x).dropWhile isSpace = x.dropWhile isSpace := by simp [List.dropWhile, hc]
  rw [this]

theorem joinWords_cons (w : Str) (ws : List Str) :
    joinWords (w :: ws) = w ++ (if ws = [] then [] else ' ' :: joinWords ws) := by
  cases ws with
  | nil => simp [joinWords, List.intercalate]
  | cons v vs => simp [joinWords, List.intercalate, List.intersperse]

theorem wordsOf_space {c : Char} (cs : Str) (hc : isSpace c = true) :
    wordsOf (c :: cs) = wordsOf cs := by
  unfold wordsOf
  rw [List.splitOnP_cons, if_pos hc]
  simp

theorem split_cases (cs : Str) : ∃ h rest, cs.splitOnP isSpace = h :: rest := by
  cases hsp : cs.splitOnP isSpace with
  | nil => exact absurd hsp (List.splitOnP_ne_nil _ _)
  | cons h rest => exact ⟨h, rest, rfl⟩

theorem wordsOf_letter {c : Char} (cs h : Str) (rest : List Str) (hc : isSpace c = false)
    (hsp : cs.splitOnP isSpace = h :: rest) :
    wordsOf (c :: cs) = (c :: h) :: rest.filter (fun w => !w.isEmpty) := by
  unfold wordsOf
  rw [List.splitOnP_cons, hsp]
  simp [hc]

theorem joinWords_letter {c : Char} (cs h : Str) (rest : List Str) (hc : isSpace c = false)
    (hsp : cs.splitOnP isSpace = h :: rest) :
    joinWords (wordsOf (c :: cs)) = c :: joinAfter h rest := by
  rw [wordsOf_letter cs h rest hc hsp, joinWords_cons, joinAfter]
  rfl

theorem collapse_words (cs : Str) :
    (∀ h rest, cs.splitOnP isSpace = h :: rest →
      ((replaceRuns isSpace false cs).reverse.dropWhile isSpace).reverse = joinAfter h rest) ∧
    ((' ' :: replaceRuns isSpace true cs).reverse.dropWhile isSpace).reverse =
      (if wordsOf cs = [] then [] else ' ' :: joinWords (wordsOf cs)) := by
  induction cs with
  | nil =>
    constructor
    · intro h rest hsp
      rw [List.splitOnP_nil] at hsp
      injection hsp with e1 e2
      subst e1 e2
      simp [replaceRuns, joinAfter]
    · simp [replaceRuns, wordsOf, List.dropWhile, isSpace_space]
  | cons d ds ih =>
    obtain ⟨ih1, ih2⟩ := ih
    obtain ⟨h0, rest0, hsp0⟩ := split_cases ds
    by_cases hd : isSpace d = true
    · constructor
      · intro h rest hsp
        rw [List.splitOnP_cons, if_pos hd] at hsp
        injection hsp with e1 e2
        subst e1
        rw [replaceRuns, if_pos hd, if_neg (by simp), ih2, joinAfter, ← e2]
        rfl
      · rw [replaceRuns, if_pos hd, if_pos rfl, wordsOf_space ds hd]
        exact ih2
    · have hd2 : isSpace d = false := by simpa using hd
      constructor
      · intro h rest hsp
        rw [List.splitOnP_cons, if_neg hd, hsp0] at hsp
        simp only [List.modifyHead] at hsp
        injection hsp with e1 e2
        subst e1 e2
        rw [replaceRuns, if_neg hd, rtrim_cons _ hd2, ih1 h0 rest0 hsp0]
        rfl
      · rw [replaceRuns, if_neg hd, rtrim_space, rtrim_cons _ hd2, ih1 h0 rest0 hsp0,
          if_neg (by simp), joinWords_letter ds h0 rest0 hd2 hsp0,
          wordsOf_letter ds h0 rest0 hd2 hsp0, if_neg (by simp)]

theorem trim_replaceRuns_true (cs : Str) :
    trim (replaceRuns isSpace true cs) = joinWords (wordsOf cs) := by
  induction cs with
  | nil => simp [replaceRuns, trim, wordsOf, joinWords, List.intercalate]
  | cons d ds ih =>
    by_cases hd : isSpace d = true
    · rw [replaceRuns, if_pos hd, if_pos rfl, wordsOf_space ds hd]
      exact ih
    · have hd2 : isSpace d = false := by simpa using hd
      obtain ⟨h0, rest0, hsp0⟩ := split_cases ds
      rw [replaceRuns, if_neg hd, trim_cons_of_not_space _ hd2,
        (collapse_words ds).1 h0 rest0 hsp0, joinWords_letter ds h0 rest0 hd2 hsp0]

theorem trim_collapse (t : Str) :
    trim (replaceRuns isSpace false t) = joinWords (wordsOf t) := by
  cases t with
  | nil => simp [replaceRuns, trim, wordsOf, joinWords, List.intercalate]
  | cons d ds =>
    by_cases hd : isSpace d = true
    · rw [replaceRuns, if_pos hd, if_neg (by simp), trim_cons_of_space _ isSpace_space,
        wordsOf_space ds hd]
      exact trim_replaceRuns_true ds
    · have hd2 : isSpace d = false := by simpa using hd
      obtain ⟨h0, rest0, hsp0⟩ := split_cases ds
      rw [replaceRuns, if_neg hd, trim_cons_of_not_space _ hd2,
        (collapse_words ds).1 h0 rest0 hsp0, joinWords_letter ds h0 rest0 hd2 hsp0]

/-! ### The normalizer against its reference -/

theorem replaceRuns_commas (t : Str) : ∀ (c r : Bool), (r = true → c = true) →
    replaceRuns isSpace c (replaceRuns isCommaSemi r t) =
      replaceRuns isSpace c (commasToSpaces t) := by
  induction t with
  | nil => intro c r _; simp [replaceRuns, commasToSpaces]
  | cons x t ih =>
    intro c r hrc
    have ih1 := ih true true (fun _ => rfl)
    simp only [commasToSpaces] at ih1 ih ⊢
    by_cases hx : isCommaSemi x = true
    · cases r with
      | true =>
        have hc : c = true := hrc rfl
        subst hc
        simp [replaceRuns, hx, isSpace_space, ih1]
      | false =>
        cases c <;> simp [replaceRuns, hx, isSpace_space, ih1]
    · have hx' : isCommaSemi x = false := by simpa using hx
      have ih2 := fun c => ih c false (by intro h; cases h)
      by_cases hs : isSpace x = true
      · cases c <;> simp [replaceRuns, hx', hs, ih2]
      · have hs' : isSpace x = false := by simpa using hs
        simp [replaceRuns, hx', hs', ih2]

theorem normalizeName_steps (t : Str) :
    trim (replaceRuns isSpace false (replaceRuns isCommaSemi false (replaceParens false t))) =
      joinWords (wordsOf (commasToSpaces (parensRef [' '] t.length t))) := by
  rw [replaceRuns_commas _ false false (by intro h; cases h), trim_collapse,
    parensRef_eq t.length t (le_refl _)]

theorem normalizeName_eq_with (s : Str) : normalizeName s = normalizeWith [' '] s := by
  rw [normalizeName, normalizeName_steps, normalizeWith, map_lowerRef]
  simp [toLowerCase]

/-! ## Claims about the name normalizer -/

/-- C17 (as stated, refuted): on `"a(b)c"` the code leaves a space where the
parenthetical stood and returns `"a c"`, while lower-casing, deleting the parenthetical
entirely, putting spaces for commas and semicolons, collapsing white space and trimming
gives `"ac"`. -/
theorem normalizeName_not_deleting :
    normalizeName "a(b)c".toList = "a c".toList ∧
      normalizeWith [] "a(b)c".toList = "ac".toList ∧
      normalizeName "a(b)c".toList ≠ normalizeWith [] "a(b)c".toList := by
  decide

/-- C17 (amended): for every string of ASCII characters, `normalizeName` is: lower-case,
replace every parenthetical substring by one space, replace every comma and semicolon
by a space, collapse each run of white space to one space, trim. The reference takes
each step in words of its own: the lower case by the alphabet, the parentheticals by
their first and last character, the collapsing and trimming by the words of the text.
For every text, ASCII or not, the steps after the lower-casing agree with the
reference. -/
theorem normalizeName_reference (s : Str) (hs : isAscii s) :
    normalizeName s = normalizeWith [' '] s ∧
      ∀ t : Str,
        trim (replaceRuns isSpace false (replaceRuns isCommaSemi false
          (replaceParens false t))) =
        joinWords (wordsOf (commasToSpaces (parensRef [' '] t.length t))) := by
  have _ := hs
  exact ⟨normalizeName_eq_with s, normalizeName_steps⟩

/-- C17 at `"Olive Oil (extra, virgin); Cold "`: both give `"olive oil cold"`. -/
theorem normalizeName_reference_witness :
    isAscii "Olive Oil (extra, virgin); Cold ".toList ∧
      normalizeName "Olive Oil (extra, virgin); Cold ".toList = "olive oil cold".toList ∧
      normalizeWith [' '] "Olive Oil (extra, virgin); Cold ".toList = "olive oil cold".toList := by
  have hs : isAscii "Olive Oil (extra, virgin); Cold ".toList := by unfold isAscii; decide
  have h := (normalizeName_reference "Olive Oil (extra, virgin); Cold ".toList hs).1
  have hn : normalizeName "Olive Oil (extra, virgin); Cold ".toList = "olive oil cold".toList := by
    decide
  exact ⟨hs, hn, by rw [← h]; exact hn⟩

/-! ## Quantity formatting on doubles -/

/-! ### The error of the rounding to a double -/

theorem roundHalfEven_err (y : ℚ) : |(roundHalfEven y : ℚ) - y| ≤ 1 / 2 := by
  have h1 := Int.floor_le y
  have h2 := Int.lt_floor_add_one y
  unfold roundHalfEven
  rw [abs_le]
  split_ifs with ha hb hc
  · constructor <;> linarith
  · push_cast; constructor <;> linarith
  · constructor <;> linarith
  · push_cast; constructor <;> linarith

theorem roundMag_err {q : ℚ} : |roundMag q - q| ≤ 2 ^ ulpExp q / 2 := by
  have hE : (0 : ℚ) < 2 ^ ulpExp q := by positivity
  have h := roundHalfEven_err (q / 2 ^ ulpExp q)
  have e : roundMag q - q =
      ((roundHalfEven (q / 2 ^ ulpExp q) : ℚ) - q / 2 ^ ulpExp q) * 2 ^ ulpExp q := by
    unfold roundMag
    field_simp
  rw [e, abs_mul, abs_of_pos hE]
  calc |(roundHalfEven (q / 2 ^ ulpExp q) : ℚ) - q / 2 ^ ulpExp q| * 2 ^ ulpExp q
      ≤ 1 / 2 * 2 ^ ulpExp q := mul_le_mul_of_nonneg_right h hE.le
    _ = 2 ^ ulpExp q / 2 := by ring

theorem ulp_le {q : ℚ} (hq : (2 : ℚ) ^ (-1022 : ℤ) ≤ q) :
    (2 : ℚ) ^ ulpExp q ≤ q * 2 ^ (-52 : ℤ) := by
  have hpos : 0 < q := lt_of_lt_of_le (by positivity) hq
  have hlog : (-1022 : ℤ) ≤ Int.log 2 q :=
    (Int.zpow_le_iff_le_log (b := 2) (by norm_num) hpos).mp (by exact_mod_cast hq)
  have he : ulpExp q = Int.log 2 q + (-52) := by unfold ulpExp; omega
  rw [he, zpow_add₀ (by norm_num : (2 : ℚ) ≠ 0)]
  apply mul_le_mul_of_nonneg_right _ (by positivity)
  have := Int.zpow_log_le_self (b := 2) (r := q) (by norm_num) hpos
  exact_mod_cast this

theorem toDouble_err {q r : ℚ} (hq : (2 : ℚ) ^ (-1022 : ℤ) ≤ q) (h : toDouble q = Num.fin r) :
    |r - q| ≤ q * 2 ^ (-53 : ℤ) := by
  have hpos : 0 < q := lt_of_lt_of_le (by positivity) hq
  rw [toDouble, if_pos hpos.le] at h
  split_ifs at h with hlt
  have hr : roundMag q = r := by injection h
  rw [← hr]
  refine le_trans roundMag_err ?_
  have h1 := ulp_le hq
  have e : q * (2 : ℚ) ^ (-53 : ℤ) = q * 2 ^ (-52 : ℤ) / 2 := by
    rw [show (-53 : ℤ) = -52 + (-1) by norm_num, zpow_add₀ (by norm_num : (2 : ℚ) ≠ 0)]
    norm_num
    ring
  rw [e]
  exact div_le_div_of_nonneg_right h1 (by norm_num)

/-! ### Decimals of fifteen digits that read as the same double -/

theorem close_nat (a t : ℕ) (ha : a < 10 ^ 15)
    (h : |(a : ℚ) - t| ≤ ((a : ℚ) + t) * 2 ^ (-53 : ℤ)) : a = t := by
  by_contra hne
  have ha' : (a : ℚ) < 10 ^ 15 := by exact_mod_cast ha
  have h53 : (2 : ℚ) ^ (-53 : ℤ) = 1 / 9007199254740992 := by norm_num
  rw [h53] at h
  have ha0 : (0 : ℚ) ≤ a := Nat.cast_nonneg a
  have ht0 : (0 : ℚ) ≤ t := Nat.cast_nonneg t
  rcases Nat.lt_or_gt_of_ne hne with hlt | hgt
  · have h1 : (a : ℚ) + 1 ≤ t := by exact_mod_cast hlt
    rw [abs_of_nonpos (by linarith)] at h
    linarith
  · have h1 : (t : ℚ) + 1 ≤ a := by exact_mod_cast hgt
    rw [abs_of_nonneg (by linarith)] at h
    linarith

theorem decimal_inj_le (s1 s2 : ℕ) (e1 e2 : ℤ) (x : ℚ) (h1 : s1 < 10 ^ 15) (he : e1 ≤ e2)
    (hn1 : (2 : ℚ) ^ (-1022 : ℤ) ≤ (s1 : ℚ) * 10 ^ e1)
    (hn2 : (2 : ℚ) ^ (-1022 : ℤ) ≤ (s2 : ℚ) * 10 ^ e2)
    (hr1 : toDouble ((s1 : ℚ) * 10 ^ e1) = Num.fin x)
    (hr2 : toDouble ((s2 : ℚ) * 10 ^ e2) = Num.fin x) :
    (s1 : ℚ) * 10 ^ e1 = (s2 : ℚ) * 10 ^ e2 := by
  obtain ⟨d, hd⟩ : ∃ d : ℕ, e2 = e1 + d := ⟨(e2 - e1).toNat, by omega⟩
  have hE : (0 : ℚ) < 10 ^ e1 := by positivity
  have e2eq : (s2 : ℚ) * 10 ^ e2 = ((s2 * 10 ^ d : ℕ) : ℚ) * 10 ^ e1 := by
    rw [hd, zpow_add₀ (by norm_num : (10 : ℚ) ≠ 0), zpow_natCast]
    push_cast
    ring
  have b1 := toDouble_err hn1 hr1
  have b2 := toDouble_err hn2 hr2
  rw [e2eq] at b2 ⊢
  have key : |(s1 : ℚ) - ((s2 * 10 ^ d : ℕ) : ℚ)| ≤
      ((s1 : ℚ) + ((s2 * 10 ^ d : ℕ) : ℚ)) * 2 ^ (-53 : ℤ) := by
    have habs : |(s1 : ℚ) * 10 ^ e1 - ((s2 * 10 ^ d : ℕ) : ℚ) * 10 ^ e1| ≤
        ((s1 : ℚ) * 10 ^ e1 + ((s2 * 10 ^ d : ℕ) : ℚ) * 10 ^ e1) * 2 ^ (-53 : ℤ) := by
      have t1 : |(s1 : ℚ) * 10 ^ e1 - ((s2 * 10 ^ d : ℕ) : ℚ) * 10 ^ e1| ≤
          |x - (s1 : ℚ) * 10 ^ e1| + |x - ((s2 * 10 ^ d : ℕ) : ℚ) * 10 ^ e1| := by
        have := abs_sub_le ((s1 : ℚ) * 10 ^ e1) x (((s2 * 10 ^ d : ℕ) : ℚ) * 10 ^ e1)
        rw [abs_sub_comm ((s1 : ℚ) * 10 ^ e1) x] at this
        exact this
      linarith
    have e3 : (s1 : ℚ) * 10 ^ e1 - ((s2 * 10 ^ d : ℕ) : ℚ) * 10 ^ e1 =
        ((s1 : ℚ) - ((s2 * 10 ^ d : ℕ) : ℚ)) * 10 ^ e1 := by ring
    have e4 : ((s1 : ℚ) * 10 ^ e1 + ((s2 * 10 ^ d : ℕ) : ℚ) * 10 ^ e1) * 2 ^ (-53 : ℤ) =
        (((s1 : ℚ) + ((s2 * 10 ^ d : ℕ) : ℚ)) * 2 ^ (-53 : ℤ)) * 10 ^ e1 := by ring
    rw [e3, e4, abs_mul, abs_of_pos hE] at habs
    exact le_of_mul_le_mul_right habs hE
  have := close_nat s1 (s2 * 10 ^ d) h1 key
  rw [this]

theorem decimal_inj (s1 s2 : ℕ) (e1 e2 : ℤ) (x : ℚ) (h1 : s1 < 10 ^ 15) (h2 : s2 < 10 ^ 15)
    (hn1 : (2 : ℚ) ^ (-1022 : ℤ) ≤ (s1 : ℚ) * 10 ^ e1)
    (hn2 : (2 : ℚ) ^ (-1022 : ℤ) ≤ (s2 : ℚ) * 10 ^ e2)
    (hr1 : toDouble ((s1 : ℚ) * 10 ^ e1) = Num.fin x)
    (hr2 : toDouble ((s2 : ℚ) * 10 ^ e2) = Num.fin x) :
    (s1 : ℚ) * 10 ^ e1 = (s2 : ℚ) * 10 ^ e2 := by
  rcases le_total e1 e2 with he | he
  · exact decimal_inj_le s1 s2 e1 e2 x h1 he hn1 hn2 hr1 hr2
  · exact (decimal_inj_le s2 s1 e2 e1 x h2 he hn2 hn1 hr2 hr1).symm

/-! ### The search for the digits -/

theorem shortestFrom_spec (x : ℚ) (n0 nstar : ℤ) (s0 k0 : ℕ)
    (hlast : (nstar = n0 ∧ candidates x k0 n0 = [s0]) ∨
      (nstar = n0 + 1 ∧ candidates x k0 n0 = [] ∧ candidates x k0 (n0 + 1) = [s0])) :
    ∀ (fuel k : ℕ), k ≤ k0 → k0 < k + fuel →
      (∀ k1, k ≤ k1 → k1 < k0 → candidates x k1 n0 = [] ∧ candidates x k1 (n0 + 1) = []) →
      shortestFrom x n0 fuel k = some (s0, nstar) := by
  intro fuel
  induction fuel with
  | zero => intro k h1 h2 _; omega
  | succ fuel ih =>
    intro k h1 h2 hempty
    rw [shortestFrom]
    rcases Nat.lt_or_ge k k0 with hlt | hge
    · obtain ⟨e1, e2⟩ := hempty k (le_refl _) hlt
      rw [e1, e2]
      simp only [closest]
      exact ih (k + 1) hlt (by omega) (fun k1 hk1 hk2 => hempty k1 (by omega) hk2)
    · have hk : k = k0 := le_antisymm h1 hge
      subst hk
      rcases hlast with ⟨hn, hc⟩ | ⟨hn, hc1, hc2⟩
      · rw [hc, hn]; rfl
      · rw [hc1, hc2, hn]; rfl

theorem filter_pair {p : ℕ → Bool} (a s0 : ℕ)
    (hall : ∀ s ∈ [a, a + 1].filter p, s = s0) (hmem : s0 ∈ [a, a + 1].filter p) :
    [a, a + 1].filter p = [s0] := by
  simp only [List.filter_cons, List.filter_nil] at hall hmem ⊢
  cases ha : p a <;> cases hb : p (a + 1) <;> simp [ha, hb] at hall hmem ⊢
  · exact hall
  · exact hall
  · omega

theorem filter_none {p : ℕ → Bool} (l : List ℕ) (hall : ∀ s ∈ l.filter p, False) :
    l.filter p = [] := by
  apply List.eq_nil_iff_forall_not_mem.mpr
  intro s hs
  exact hall s hs

theorem mem_candidates {x : ℚ} {k : ℕ} {n : ℤ} {s : ℕ} (h : s ∈ candidates x k n) :
    10 ^ (k - 1) ≤ s ∧ s < 10 ^ k ∧ toDouble ((s : ℚ) * 10 ^ (n - k)) = Num.fin x := by
  unfold candidates at h
  have h2 := (List.mem_filter.mp h).2
  simp only [Bool.and_eq_true, decide_eq_true_eq, readsBack] at h2
  exact ⟨h2.1.1, h2.1.2, h2.2⟩

/-! ### A decimal has one position and, without trailing zeros, one run of digits -/

theorem decimal_lo (t j : ℕ) (i : ℤ) (hj : 1 ≤ j) (ht : 10 ^ (j - 1) ≤ t) :
    (10 : ℚ) ^ (i - 1) ≤ (t : ℚ) * 10 ^ (i - j) := by
  have e : (10 : ℚ) ^ (i - 1) = ((10 ^ (j - 1) : ℕ) : ℚ) * 10 ^ (i - j) := by
    push_cast
    rw [← zpow_natCast, ← zpow_add₀ (by norm_num : (10 : ℚ) ≠ 0)]
    congr 1
    omega
  rw [e]
  apply mul_le_mul_of_nonneg_right _ (by positivity)
  exact_mod_cast ht

theorem decimal_hi (t j : ℕ) (i : ℤ) (ht : t < 10 ^ j) :
    (t : ℚ) * 10 ^ (i - j) < (10 : ℚ) ^ i := by
  have e : (10 : ℚ) ^ i = ((10 ^ j : ℕ) : ℚ) * 10 ^ (i - j) := by
    push_cast
    rw [← zpow_natCast, ← zpow_add₀ (by norm_num : (10 : ℚ) ≠ 0)]
    congr 1
    omega
  rw [e]
  apply mul_lt_mul_of_pos_right _ (by positivity)
  exact_mod_cast ht

theorem position_unique {s s0 k k0 : ℕ} {n m : ℤ} (hk : 1 ≤ k) (hk0 : 1 ≤ k0)
    (h1 : 10 ^ (k - 1) ≤ s) (h2 : s < 10 ^ k) (h3 : 10 ^ (k0 - 1) ≤ s0) (h4 : s0 < 10 ^ k0)
    (h : (s : ℚ) * 10 ^ (n - k) = (s0 : ℚ) * 10 ^ (m - k0)) : n = m := by
  have ten : (1 : ℚ) < 10 := by norm_num
  have a1 := decimal_lo s k n hk h1
  have a2 := decimal_hi s k n h2
  have b1 := decimal_lo s0 k0 m hk0 h3
  have b2 := decimal_hi s0 k0 m h4
  rw [h] at a1 a2
  have c1 : (10 : ℚ) ^ (n - 1) < 10 ^ m := lt_of_le_of_lt a1 b2
  have c2 : (10 : ℚ) ^ (m - 1) < 10 ^ n := lt_of_le_of_lt b1 a2
  have d1 := (zpow_lt_zpow_iff_right₀ ten).mp c1
  have d2 := (zpow_lt_zpow_iff_right₀ ten).mp c2
  omega

theorem digits_unique {s s0 k k0 : ℕ} {n m : ℤ} (hk : 1 ≤ k) (hkk : k ≤ k0)
    (h1 : 10 ^ (k - 1) ≤ s) (h2 : s < 10 ^ k) (h3 : 10 ^ (k0 - 1) ≤ s0) (h4 : s0 < 10 ^ k0)
    (h10 : s0 % 10 ≠ 0)
    (h : (s : ℚ) * 10 ^ (n - k) = (s0 : ℚ) * 10 ^ (m - k0)) : n = m ∧ k = k0 ∧ s = s0 := by
  have hnm := position_unique hk (le_trans hk hkk) h1 h2 h3 h4 h
  subst hnm
  obtain ⟨d, hd⟩ : ∃ d : ℕ, k0 = k + d := ⟨k0 - k, by omega⟩
  have e : (s0 : ℚ) = ((s * 10 ^ d : ℕ) : ℚ) := by
    have hz : (10 : ℚ) ^ (n - k0) ≠ 0 := by positivity
    have e1 : (10 : ℚ) ^ (n - k) = 10 ^ (n - k0) * 10 ^ (d : ℤ) := by
      rw [← zpow_add₀ (by norm_num : (10 : ℚ) ≠ 0)]
      congr 1
      omega
    rw [e1, zpow_natCast] at h
    push_cast
    have h5 : (s : ℚ) * 10 ^ d * 10 ^ (n - k0) = (s0 : ℚ) * 10 ^ (n - k0) := by
      rw [← h]; ring
    exact (mul_right_cancel₀ hz h5).symm
  have e2 : s0 = s * 10 ^ d := by exact_mod_cast e
  cases d with
  | zero =>
    simp at e2 hd
    exact ⟨rfl, hd.symm, e2.symm⟩
  | succ d =>
    exfalso
    apply h10
    rw [e2, pow_succ, ← mul_assoc]
    exact Nat.mul_mod_left _ _

/-! ### The digits of a double that stands for a short decimal -/

theorem tiny_le : (2 : ℚ) ^ (-1022 : ℤ) ≤ 10 ^ (-4 : ℤ) := by
  have h1 : (2 : ℚ) ^ (-1022 : ℤ) ≤ 2 ^ (-14 : ℤ) :=
    zpow_le_zpow_right₀ (by norm_num) (by norm_num)
  have h2 : (2 : ℚ) ^ (-14 : ℤ) ≤ 10 ^ (-4 : ℤ) := by norm_num
  exact le_trans h1 h2

theorem short_err {s0 : ℕ} (h : s0 < 10 ^ 15) : (s0 : ℚ) * 2 ^ (-53 : ℤ) < 1 / 2 := by
  have h1 : (s0 : ℚ) < 10 ^ 15 := by exact_mod_cast h
  have h53 : (2 : ℚ) ^ (-53 : ℤ) = 1 / 9007199254740992 := by norm_num
  rw [h53]
  linarith

/-- Bounds on the double `x` that a decimal `s0 × 10 ^ e0` of at most fifteen digits
is read as. -/
theorem double_near {x : ℚ} {s0 k0 : ℕ} {e0 : ℤ} (hk0 : 1 ≤ k0) (hk15 : k0 ≤ 15)
    (hlo : 10 ^ (k0 - 1) ≤ s0) (hhi : s0 < 10 ^ k0) (he0 : -2 ≤ e0)
    (hx : toDouble ((s0 : ℚ) * 10 ^ e0) = Num.fin x) :
    |x - (s0 : ℚ) * 10 ^ e0| < 10 ^ e0 / 2 ∧ (10 : ℚ) ^ (k0 + e0 - 2) ≤ x ∧
      x < 10 ^ (k0 + e0 : ℤ) ∧ (2 : ℚ) ^ (-1022 : ℤ) ≤ (s0 : ℚ) * 10 ^ e0 := by
  have hE : (0 : ℚ) < 10 ^ e0 := by positivity
  have h15 : s0 < 10 ^ 15 := lt_of_lt_of_le hhi (Nat.pow_le_pow_right (by norm_num) hk15)
  have hs1 : 1 ≤ s0 := le_trans (Nat.one_le_pow _ _ (by norm_num)) hlo
  have hs1' : (1 : ℚ) ≤ s0 := by exact_mod_cast hs1
  have lo := decimal_lo s0 k0 (k0 + e0) hk0 hlo
  have hi' : (s0 : ℚ) + 1 ≤ 10 ^ k0 := by exact_mod_cast hhi
  rw [show ((k0 : ℤ) + e0 - k0) = e0 by ring] at lo
  have hnorm : (2 : ℚ) ^ (-1022 : ℤ) ≤ (s0 : ℚ) * 10 ^ e0 := by
    refine le_trans tiny_le (le_trans ?_ lo)
    exact zpow_le_zpow_right₀ (by norm_num) (by omega)
  have herr := toDouble_err hnorm hx
  have hsmall : (s0 : ℚ) * 10 ^ e0 * 2 ^ (-53 : ℤ) < 10 ^ e0 / 2 := by
    have := mul_lt_mul_of_pos_right (short_err h15) hE
    calc (s0 : ℚ) * 10 ^ e0 * 2 ^ (-53 : ℤ) = (s0 : ℚ) * 2 ^ (-53 : ℤ) * 10 ^ e0 := by ring
      _ < 1 / 2 * 10 ^ e0 := this
      _ = 10 ^ e0 / 2 := by ring
  have habs : |x - (s0 : ℚ) * 10 ^ e0| < 10 ^ e0 / 2 := lt_of_le_of_lt herr hsmall
  obtain ⟨hl, hr⟩ := abs_lt.mp habs
  refine ⟨habs, ?_, ?_, hnorm⟩
  · have e1 : (10 : ℚ) ^ ((k0 : ℤ) + e0 - 1) = 10 ^ ((k0 : ℤ) + e0 - 2) * 10 := by
      rw [show ((k0 : ℤ) + e0 - 1) = ((k0 : ℤ) + e0 - 2) + 1 by ring,
        zpow_add₀ (by norm_num : (10 : ℚ) ≠ 0), zpow_one]
    have hp : (0 : ℚ) < 10 ^ ((k0 : ℤ) + e0 - 2) := by positivity
    have hE1 : (10 : ℚ) ^ e0 ≤ (s0 : ℚ) * 10 ^ e0 := by
      have := mul_le_mul_of_nonneg_right hs1' hE.le
      simpa using this
    rw [e1] at lo
    linarith
  · have e2 : (10 : ℚ) ^ ((k0 : ℤ) + e0) = 10 ^ k0 * 10 ^ e0 := by
      rw [zpow_add₀ (by norm_num : (10 : ℚ) ≠ 0), zpow_natCast]
    rw [e2]
    have := mul_le_mul_of_nonneg_right hi' hE.le
    linarith

theorem shortestDigits_decimal {x : ℚ} {s0 k0 : ℕ} {e0 : ℤ} (hk0 : 1 ≤ k0) (hk15 : k0 ≤ 15)
    (hlo : 10 ^ (k0 - 1) ≤ s0) (hhi : s0 < 10 ^ k0) (h10 : s0 % 10 ≠ 0) (he0 : -2 ≤ e0)
    (hx : toDouble ((s0 : ℚ) * 10 ^ e0) = Num.fin x) :
    shortestDigits x = some (s0, k0 + e0) := by
  obtain ⟨habs, hxlo, hxhi, hnorm⟩ := double_near hk0 hk15 hlo hhi he0 hx
  have hE : (0 : ℚ) < 10 ^ e0 := by positivity
  have hxpos : 0 < x := lt_of_lt_of_le (by positivity) hxlo
  have hlog1 : (k0 : ℤ) + e0 - 2 ≤ Int.log 10 x :=
    (Int.zpow_le_iff_le_log (b := 10) (by norm_num) hxpos).mp (by exact_mod_cast hxlo)
  have hlog2 : Int.log 10 x < (k0 : ℤ) + e0 :=
    (Int.lt_zpow_iff_log_lt (b := 10) (by norm_num) hxpos).mp (by exact_mod_cast hxhi)
  -- every candidate is the decimal itself
  have hcand : ∀ (k : ℕ) (n : ℤ) (s : ℕ), 1 ≤ k → k ≤ k0 → Int.log 10 x + 1 ≤ n →
      s ∈ candidates x k n → n = (k0 : ℤ) + e0 ∧ k = k0 ∧ s = s0 := by
    intro k n s hk hkk hn hs
    obtain ⟨c1, c2, c3⟩ := mem_candidates hs
    have hs15 : s < 10 ^ 15 :=
      lt_of_lt_of_le c2 (Nat.pow_le_pow_right (by norm_num) (le_trans hkk hk15))
    have h15 : s0 < 10 ^ 15 := lt_of_lt_of_le hhi (Nat.pow_le_pow_right (by norm_num) hk15)
    have hn2 : (2 : ℚ) ^ (-1022 : ℤ) ≤ (s : ℚ) * 10 ^ (n - k) := by
      refine le_trans tiny_le (le_trans ?_ (decimal_lo s k n hk c1))
      exact zpow_le_zpow_right₀ (by norm_num) (by omega)
    have heq := decimal_inj s s0 (n - k) e0 x hs15 h15 hn2 hnorm c3 hx
    rw [show e0 = ((k0 : ℤ) + e0) - k0 by ring] at heq
    exact digits_unique hk hkk c1 c2 hlo hhi h10 heq
  -- the decimal is a candidate
  have hmem : s0 ∈ candidates x k0 ((k0 : ℤ) + e0) := by
    unfold candidates
    rw [show ((k0 : ℤ) + e0) - k0 = e0 by ring]
    apply List.mem_filter.mpr
    constructor
    · have hy1 : (s0 : ℚ) - 1 < x / 10 ^ e0 := by
        rw [lt_div_iff₀ hE]
        have := (abs_lt.mp habs).1
        nlinarith
      have hy2 : x / 10 ^ e0 < (s0 : ℚ) + 1 := by
        rw [div_lt_iff₀ hE]
        have := (abs_lt.mp habs).2
        nlinarith
      have hs1 : 1 ≤ s0 := le_trans (Nat.one_le_pow _ _ (by norm_num)) hlo
      have hf1 : (s0 : ℤ) - 1 ≤ ⌊x / 10 ^ e0⌋ := by
        rw [Int.le_floor]
        push_cast
        exact hy1.le
      have hf2 : ⌊x / 10 ^ e0⌋ < (s0 : ℤ) + 1 := by
        rw [Int.floor_lt]
        push_cast
        exact hy2
      have : ⌊x / 10 ^ e0⌋.toNat = s0 ∨ ⌊x / 10 ^ e0⌋.toNat + 1 = s0 := by omega
      rcases this with h | h
      · rw [h]; simp
      · rw [h]; simp
    · simp only [Bool.and_eq_true, decide_eq_true_eq, readsBack]
      exact ⟨⟨hlo, hhi⟩, hx⟩
  unfold shortestDigits
  apply shortestFrom_spec x _ _ s0 k0 _ 17 1 hk0 (by omega)
  · intro k1 hk1 hk1lt
    constructor
    · apply filter_none
      intro s hs
      have := hcand k1 _ s hk1 hk1lt.le (le_refl _) hs
      omega
    · apply filter_none
      intro s hs
      have := hcand k1 _ s hk1 hk1lt.le (by omega) hs
      omega
  · rcases (show (k0 : ℤ) + e0 = Int.log 10 x + 1 ∨ (k0 : ℤ) + e0 = Int.log 10 x + 1 + 1 by
      omega) with hn | hn
    · left
      refine ⟨hn, ?_⟩
      rw [← hn]
      exact filter_pair _ s0 (fun s hs => (hcand k0 _ s hk0 (le_refl _) (by omega) hs).2.2) hmem
    · right
      refine ⟨hn, ?_, ?_⟩
      · apply filter_none
        intro s hs
        have := hcand k0 _ s hk0 (le_refl _) (le_refl _) hs
        omega
      · rw [← hn]
        exact filter_pair _ s0 (fun s hs => (hcand k0 _ s hk0 (le_refl _) (by omega) hs).2.2)
          hmem

/-! ### Decimal numerals of natural numbers -/

theorem natDigitsAux_fuel (f1 : Nat) : ∀ (f2 n : Nat) (acc : Str), n < f1 → n < f2 →
    natDigitsAux f1 n acc = natDigitsAux f2 n acc := by
  induction f1 with
  | zero => intro f2 n acc h; omega
  | succ f1 ih =>
    intro f2 n acc h1 h2
    cases f2 with
    | zero => omega
    | succ f2 =>
      simp only [natDigitsAux]
      split
      · rfl
      · exact ih f2 (n / 10) _ (by omega) (by omega)

theorem natDigits_small (n : Nat) (h : n < 10) : natDigits n = [digitChar n] := by
  simp [natDigits, natDigitsAux, h]

theorem natDigits_step (n : Nat) (h : 10 ≤ n) :
    natDigits n = natDigits (n / 10) ++ [digitChar (n % 10)] := by
  have hn : ¬ n < 10 := by omega
  unfold natDigits
  rw [natDigitsAux, if_neg hn, natDigitsAux_acc]
  rw [natDigitsAux_fuel n (n / 10 + 1) (n / 10) [] (by omega) (by omega)]

theorem natDigits_length (k : Nat) : ∀ n, n < 10 ^ (k + 1) → (k = 0 ∨ 10 ^ k ≤ n) →
    (natDigits n).length = k + 1 := by
  induction k with
  | zero =>
    intro n h _
    rw [natDigits_small n (by simpa using h)]
    rfl
  | succ k ih =>
    intro n h1 h2
    have h2' : 10 ^ (k + 1) ≤ n := by
      rcases h2 with h | h
      · omega
      · exact h
    have h10 : 10 ≤ n := le_trans (by
      have := Nat.one_le_pow k 10 (by norm_num)
      rw [pow_succ]; omega) h2'
    rw [natDigits_step n h10, List.length_append, ih (n / 10)]
    · rfl
    · rw [Nat.div_lt_iff_lt_mul (by norm_num)]
      rw [pow_succ] at h1
      exact h1
    · rcases Nat.eq_zero_or_pos k with h0 | h0
      · exact Or.inl h0
      · right
        rw [Nat.le_div_iff_mul_le (by norm_num)]
        rw [pow_succ] at h2'
        exact h2'

theorem natDigits_mul_ten (s : Nat) (h : 1 ≤ s) : natDigits (s * 10) = natDigits s ++ ['0'] := by
  rw [natDigits_step (s * 10) (by omega)]
  have e1 : s * 10 / 10 = s := by omega
  have e2 : s * 10 % 10 = 0 := by omega
  rw [e1, e2]
  rfl

theorem natDigits_mul_pow (s : Nat) (h : 1 ≤ s) : ∀ m,
    natDigits (s * 10 ^ m) = natDigits s ++ List.replicate m '0' := by
  intro m
  induction m with
  | zero => simp
  | succ m ih =>
    have hp : 1 ≤ s * 10 ^ m := Nat.mul_pos h (Nat.one_le_pow _ _ (by norm_num))
    rw [pow_succ, ← mul_assoc, natDigits_mul_ten _ hp, ih, List.append_assoc]
    congr 1
    rw [List.replicate_succ']

/-- A positive number is a number not divisible by ten times a power of ten. -/
theorem split_zeros : ∀ (K : Nat), 1 ≤ K → ∃ s j, K = s * 10 ^ j ∧ s % 10 ≠ 0 := by
  intro K
  induction K using Nat.strong_induction_on with
  | _ K ih =>
    intro hK
    by_cases h : K % 10 = 0
    · obtain ⟨s, j, e, hs⟩ := ih (K / 10) (by omega) (by omega)
      refine ⟨s, j + 1, ?_, hs⟩
      rw [pow_succ, ← mul_assoc, ← e]
      omega
    · exact ⟨K, 0, by simp, h⟩

theorem digit_count (s : Nat) (h : 1 ≤ s) :
    10 ^ (Nat.log 10 s + 1 - 1) ≤ s ∧ s < 10 ^ (Nat.log 10 s + 1) :=
  ⟨Nat.pow_log_le_self 10 (by omega), Nat.lt_pow_succ_log_self (by norm_num) s⟩

/-! ### The text of a number of hundredths -/

theorem formatDigits_whole (ds : Str) (m : ℕ) (h : ds.length + m ≤ 21) :
    formatDigits ds ((ds.length : ℤ) + m) = ds ++ List.replicate m '0' := by
  unfold formatDigits
  rw [if_pos ⟨by omega, by omega⟩]
  congr 2
  omega

theorem formatDigits_point (a b : Str) (ha : 0 < a.length) (hb : 0 < b.length)
    (h : a.length ≤ 21) : formatDigits (a ++ b) (a.length : ℤ) = a ++ '.' :: b := by
  unfold formatDigits
  rw [if_neg (by rw [List.length_append]; omega), if_pos ⟨by omega, by omega⟩]
  rw [Int.toNat_ofNat, List.take_left, List.drop_left]

theorem formatDigits_small (ds : Str) (m : ℕ) (hd : 0 < ds.length) (hm : m < 6) :
    formatDigits ds (-(m : ℤ)) = '0' :: '.' :: (List.replicate m '0' ++ ds) := by
  unfold formatDigits
  rw [if_neg (by omega), if_neg (by omega), if_pos ⟨by omega, by omega⟩]
  congr 4
  omega

theorem hundredthsToString_nat (K : ℕ) :
    hundredthsToString (K : ℤ) = natDigits (K / 100) ++
      (if K % 100 = 0 then []
       else if K % 10 = 0 then ['.', digitChar (K % 100 / 10)]
       else ['.', digitChar (K % 100 / 10), digitChar (K % 10)]) := by
  have hneg : ¬ ((K : ℤ) < 0) := by omega
  simp only [hundredthsToString, if_neg hneg, Int.natAbs_ofNat, List.nil_append]

/-- The text that `Number::toString` makes of the digits of `s0 × 10 ^ (j - 2)` is the
numeral of `s0 × 10 ^ j` hundredths. -/
theorem formatDigits_hundredths (s0 k0 j : ℕ) (hk0 : 1 ≤ k0) (hlo : 10 ^ (k0 - 1) ≤ s0)
    (hhi : s0 < 10 ^ k0) (h10 : s0 % 10 ≠ 0) (hn : k0 + j ≤ 21) :
    formatDigits (natDigits s0) ((k0 : ℤ) + ((j : ℤ) - 2)) =
      hundredthsToString ((s0 * 10 ^ j : ℕ) : ℤ) := by
  obtain ⟨k, rfl⟩ : ∃ k, k0 = k + 1 := ⟨k0 - 1, by omega⟩
  simp only [Nat.add_sub_cancel] at hlo
  have hlen : (natDigits s0).length = k + 1 := by
    apply natDigits_length k s0 hhi
    rcases Nat.eq_zero_or_pos k with h | h
    · exact Or.inl h
    · exact Or.inr hlo
  rw [hundredthsToString_nat]
  rcases j with _ | _ | m
  · -- no zero at the end: two fractional digits
    have hK100 : s0 * 10 ^ 0 % 100 ≠ 0 := by simp; omega
    have hK10 : s0 * 10 ^ 0 % 10 ≠ 0 := by simpa using h10
    rw [if_neg hK100, if_neg hK10]
    simp only [pow_zero, mul_one]
    rcases k with _ | _ | k
    · -- one digit
      have hs : s0 < 10 := by simpa using hhi
      have e0 : s0 / 100 = 0 := by omega
      have e1 : s0 % 100 / 10 = 0 := by omega
      have e2 : s0 % 10 = s0 := by omega
      rw [e0, e1, e2, natDigits_small s0 hs]
      have := formatDigits_small [digitChar s0] 1 (by simp) (by norm_num)
      simpa using this
    · -- two digits
      have hs : s0 < 100 := by simpa using hhi
      have hs2 : 10 ≤ s0 := by simpa using hlo
      have e0 : s0 / 100 = 0 := by omega
      have e1 : s0 % 100 / 10 = s0 / 10 := by omega
      rw [e0, e1, natDigits_step s0 hs2, natDigits_small (s0 / 10) (by omega)]
      have := formatDigits_small [digitChar (s0 / 10), digitChar (s0 % 10)] 0 (by simp)
        (by norm_num)
      simpa using this
    · -- more digits
      have hs2 : 100 ≤ s0 := le_trans (by
        have := Nat.one_le_pow k 10 (by norm_num)
        rw [pow_succ, pow_succ]; omega) hlo
      have e1 : s0 % 100 / 10 = s0 / 10 % 10 := by omega
      have e2 : s0 / 10 / 10 = s0 / 100 := by omega
      have hl : (natDigits (s0 / 100)).length = k + 1 := by
        apply natDigits_length k (s0 / 100)
        · rw [Nat.div_lt_iff_lt_mul (by norm_num)]
          rw [pow_succ, pow_succ, mul_assoc] at hhi
          exact hhi
        · right
          rw [Nat.le_div_iff_mul_le (by norm_num)]
          rw [pow_succ, pow_succ, mul_assoc] at hlo
          exact hlo
      rw [e1, natDigits_step s0 (by omega), natDigits_step (s0 / 10) (by omega), e2,
        List.append_assoc]
      have := formatDigits_point (natDigits (s0 / 100))
        ([digitChar (s0 / 10 % 10)] ++ [digitChar (s0 % 10)]) (by omega) (by simp) (by omega)
      rw [hl] at this
      rw [show ((k + 1 + 1 + 1 : ℕ) : ℤ) + (((0 : ℕ) : ℤ) - 2) = ((k + 1 : ℕ) : ℤ) by
        push_cast; ring]
      simpa using this
  · -- one zero at the end: one fractional digit
    have hK100 : s0 * 10 ^ (0 + 1) % 100 ≠ 0 := by simp; omega
    have hK10 : s0 * 10 ^ (0 + 1) % 10 = 0 := by simp
    have e0 : s0 * 10 ^ (0 + 1) / 100 = s0 / 10 := by simp; omega
    have e1 : s0 * 10 ^ (0 + 1) % 100 / 10 = s0 % 10 := by simp; omega
    rw [if_neg hK100, if_pos hK10, e0, e1]
    rcases k with _ | k
    · have hs : s0 < 10 := by simpa using hhi
      have e2 : s0 / 10 = 0 := by omega
      have e3 : s0 % 10 = s0 := by omega
      rw [e2, e3, natDigits_small s0 hs]
      have := formatDigits_small [digitChar s0] 0 (by simp) (by norm_num)
      simpa using this
    · have hs2 : 10 ≤ s0 := le_trans (by
        have := Nat.one_le_pow k 10 (by norm_num)
        rw [pow_succ]; omega) hlo
      have hl : (natDigits (s0 / 10)).length = k + 1 := by
        apply natDigits_length k (s0 / 10)
        · rw [Nat.div_lt_iff_lt_mul (by norm_num)]
          rw [pow_succ] at hhi
          exact hhi
        · right
          rw [Nat.le_div_iff_mul_le (by norm_num)]
          rw [pow_succ] at hlo
          exact hlo
      rw [natDigits_step s0 hs2]
      have := formatDigits_point (natDigits (s0 / 10)) [digitChar (s0 % 10)] (by omega)
        (by simp) (by omega)
      rw [hl] at this
      rw [show ((k + 1 + 1 : ℕ) : ℤ) + (((0 + 1 : ℕ) : ℤ) - 2) = ((k + 1 : ℕ) : ℤ) by
        push_cast; ring]
      simpa using this
  · -- whole
    have hs1 : 1 ≤ s0 := by omega
    have e : s0 * 10 ^ (m + 1 + 1) = s0 * 10 ^ m * 100 := by
      rw [pow_succ, pow_succ]; ring
    have e0 : s0 * 10 ^ m * 100 / 100 = s0 * 10 ^ m := by omega
    have e1 : s0 * 10 ^ m * 100 % 100 = 0 := by omega
    rw [e, e0, if_pos e1, List.append_nil, natDigits_mul_pow s0 hs1]
    have := formatDigits_whole (natDigits s0) m (by omega)
    rw [hlen] at this
    rw [show ((k + 1 : ℕ) : ℤ) + (((m + 1 + 1 : ℕ) : ℤ) - 2) = ((k + 1 : ℕ) : ℤ) + (m : ℤ) by
      push_cast; ring]
    exact this

/-! ### Evaluating the rounding -/

theorem roundHalfEven_near {y : ℚ} {m : ℤ} (h : |y - m| < 1 / 2) : roundHalfEven y = m := by
  obtain ⟨h1, h2⟩ := abs_lt.mp h
  unfold roundHalfEven
  rcases le_or_lt (m : ℚ) y with hle | hlt
  · have hf : ⌊y⌋ = m := Int.floor_eq_iff.mpr ⟨hle, by linarith⟩
    rw [hf, if_pos (by linarith)]
  · have hf : ⌊y⌋ = m - 1 :=
      Int.floor_eq_iff.mpr ⟨by push_cast; linarith, by push_cast; linarith⟩
    rw [hf, if_neg (by push_cast; linarith), if_pos (by push_cast; linarith)]
    ring

/-- The double nearest to `q` when `q / 2 ^ e` has 53 bits before the point and is not
half-way between two integers. -/
theorem toDouble_near {q : ℚ} {m : ℕ} {e : ℤ} (hlo : (2 : ℚ) ^ (52 : ℤ) ≤ q / 2 ^ e)
    (hm : m < 2 ^ 53) (he : -1074 ≤ e) (hfin : e ≤ 970) (hclose : |q / 2 ^ e - m| < 1 / 2) :
    toDouble q = Num.fin ((m : ℚ) * 2 ^ e) := by
  have hE : (0 : ℚ) < 2 ^ e := by positivity
  have two : (2 : ℚ) ≠ 0 := by norm_num
  have hm' : (m : ℚ) + 1 ≤ 2 ^ (53 : ℤ) := by
    have : (m : ℚ) + 1 ≤ ((2 ^ 53 : ℕ) : ℚ) := by exact_mod_cast hm
    have e : (((2 ^ 53 : ℕ) : ℚ)) = 2 ^ (53 : ℤ) := by norm_num
    rw [e] at this
    exact this
  have hq1 : (2 : ℚ) ^ (e + 52) ≤ q := by
    rw [zpow_add₀ two, mul_comm]
    exact (le_div_iff₀ hE).mp hlo
  have hq : 0 < q := lt_of_lt_of_le (by positivity) hq1
  have hq2 : q < (2 : ℚ) ^ (e + 52 + 1) := by
    rw [show e + 52 + 1 = 53 + e by ring, zpow_add₀ two]
    rw [← div_lt_iff₀ hE]
    have := (abs_lt.mp hclose).2
    linarith
  have hlog : Int.log 2 q = e + 52 := by
    have a := (Int.zpow_le_iff_le_log (b := 2) (by norm_num) hq).mp (by exact_mod_cast hq1)
    have b := (Int.lt_zpow_iff_log_lt (b := 2) (by norm_num) hq).mp (by exact_mod_cast hq2)
    omega
  have hu : ulpExp q = e := by
    unfold ulpExp
    rw [hlog, show e + 52 - 52 = e by ring]
    exact max_eq_left he
  have hr : roundMag q = (m : ℚ) * 2 ^ e := by
    unfold roundMag
    rw [hu, roundHalfEven_near (m := (m : ℤ)) (by push_cast; exact hclose)]
    push_cast
    rfl
  rw [toDouble, if_pos hq.le, hr, if_pos]
  calc (m : ℚ) * 2 ^ e < 2 ^ (53 : ℤ) * 2 ^ e := by
        apply mul_lt_mul_of_pos_right _ hE
        linarith
    _ = 2 ^ (53 + e) := by rw [zpow_add₀ two]
    _ ≤ 2 ^ (1024 : ℤ) := zpow_le_zpow_right₀ (by norm_num) (by omega)

theorem toDouble_finite {q : ℚ} (h1 : (2 : ℚ) ^ (-1022 : ℤ) ≤ q) (h2 : q < 2 ^ (1023 : ℤ)) :
    ∃ x, toDouble q = Num.fin x := by
  have hq : 0 < q := lt_of_lt_of_le (by positivity) h1
  rw [toDouble, if_pos hq.le]
  have herr := (abs_le.mp (@roundMag_err q)).2
  have hu := ulp_le h1
  have h52 : (2 : ℚ) ^ (-52 : ℤ) ≤ 1 := by norm_num
  have h3 : q * 2 ^ (-52 : ℤ) ≤ q := by
    have := mul_le_mul_of_nonneg_left h52 hq.le
    simpa using this
  have h4 : (2 : ℚ) ^ (1024 : ℤ) = 2 ^ (1023 : ℤ) * 2 := by
    rw [show (1024 : ℤ) = 1023 + 1 by norm_num, zpow_add₀ (by norm_num : (2 : ℚ) ≠ 0), zpow_one]
  have hlt : roundMag q < 2 ^ (1024 : ℤ) := by
    rw [h4]
    linarith
  rw [if_pos hlt]
  exact ⟨_, rfl⟩

/-! ### The text of a quantity -/

theorem hundredths_value (s0 j : ℕ) :
    ((s0 * 10 ^ j : ℕ) : ℚ) / 100 = (s0 : ℚ) * 10 ^ ((j : ℤ) - 2) := by
  rw [zpow_sub₀ (by norm_num : (10 : ℚ) ≠ 0), zpow_natCast]
  push_cast
  norm_num
  ring

/-- `String(K / 100)` for a whole number `K` below `10 ^ 15`: the shortest numeral of
that many hundredths. -/
theorem numberToString_hundredths (K : ℕ) (hK : K < 10 ^ 15) :
    numberToString (numDiv (Num.fin K) (Num.fin 100)) = hundredthsToString (K : ℤ) := by
  have h100 : ¬ ((100 : ℚ) = 0) := by norm_num
  rw [numDiv, if_neg h100]
  rcases Nat.eq_zero_or_pos K with h0 | hpos
  · subst h0
    have e : ((0 : ℕ) : ℚ) / 100 = ((0 : ℕ) : ℚ) := by norm_num
    rw [e, toDouble_nat 0 (by norm_num)]
    decide
  · obtain ⟨s0, j, hKs, h10⟩ := split_zeros K hpos
    have hs1 : 1 ≤ s0 := by omega
    obtain ⟨hlo, hhi⟩ := digit_count s0 hs1
    have hk0 : 1 ≤ Nat.log 10 s0 + 1 := by omega
    have hkj : Nat.log 10 s0 + 1 + j ≤ 15 := by
      have h1 : 10 ^ (Nat.log 10 s0 + j) ≤ K := by
        rw [hKs, pow_add]
        exact Nat.mul_le_mul_right _ (by simpa using hlo)
      have h2 : 10 ^ (Nat.log 10 s0 + j) < 10 ^ 15 := lt_of_le_of_lt h1 hK
      have := (Nat.pow_lt_pow_iff_right (by norm_num : 1 < 10)).mp h2
      omega
    have hval : (K : ℚ) / 100 = (s0 : ℚ) * 10 ^ ((j : ℤ) - 2) := by
      rw [hKs]; exact hundredths_value s0 j
    have hKq : (K : ℚ) < 10 ^ 15 := by exact_mod_cast hK
    have hK1 : (1 : ℚ) ≤ K := by exact_mod_cast hpos
    have hfin : ∃ x, toDouble ((K : ℚ) / 100) = Num.fin x := by
      apply toDouble_finite
      · refine le_trans tiny_le ?_
        have : (10 : ℚ) ^ (-4 : ℤ) ≤ 1 / 100 := by norm_num
        refine le_trans this ?_
        exact div_le_div_of_nonneg_right hK1 (by norm_num)
      · have a : (K : ℚ) / 100 < 2 ^ (50 : ℤ) := by
          rw [div_lt_iff₀ (by norm_num)]
          refine lt_trans hKq ?_
          norm_num
        exact lt_of_lt_of_le a (zpow_le_zpow_right₀ (by norm_num) (by norm_num))
    obtain ⟨x, hx⟩ := hfin
    rw [hx]
    rw [hval] at hx
    have hsd := shortestDigits_decimal hk0 (by omega) hlo hhi h10 (by omega) hx
    obtain ⟨_, hxlo, _, _⟩ := double_near hk0 (by omega) hlo hhi (by omega) hx
    have hxpos : 0 < x := lt_of_lt_of_le (by positivity) hxlo
    rw [numberToString, if_neg (ne_of_gt hxpos), if_neg (not_lt.mpr hxpos.le), abs_of_pos hxpos,
      hsd]
    simp only [List.nil_append]
    rw [formatDigits_hundredths s0 _ j hk0 hlo hhi h10 (by omega), hKs]

/-- The code on a quantity `q`: the numeral of the whole number `K` of hundredths next to
the double product `p` of `q` and `100`, a half going up. -/
theorem formatQty_of_product {q p : ℚ} {K : ℕ} (hp : toDouble (q * 100) = Num.fin p)
    (h1 : (K : ℚ) - 1 / 2 ≤ p) (h2 : p < K + 1 / 2) (hK : K < 10 ^ 15) :
    formatQty (some q) = stripFraction (twoDecimals K) := by
  have hr : mathRound p = (K : ℤ) :=
    mathRound_eq p K (by push_cast; linarith) (by push_cast; linarith)
  have hm : numMul (Num.fin q) (Num.fin 100) = toDouble (q * 100) := rfl
  rw [formatQty, hm, hp, mathRoundNum, hr]
  rw [show (((K : ℤ) : ℚ)) = (K : ℚ) by push_cast; rfl]
  rw [numberToString_hundredths K hK, format_hundredths]

/-- The same, from the exact product when it is not within a twentieth of a half. -/
theorem formatQty_of_exact {q : ℚ} {K : ℕ} (hK1 : 1 ≤ K) (hK : K < 10 ^ 14)
    (h1 : (K : ℚ) - 9 / 20 ≤ q * 100) (h2 : q * 100 ≤ K + 9 / 20) :
    formatQty (some q) = stripFraction (twoDecimals K) := by
  have hKq : (K : ℚ) + 1 ≤ 10 ^ 14 := by exact_mod_cast hK
  have hK1q : (1 : ℚ) ≤ K := by exact_mod_cast hK1
  have hnorm : (2 : ℚ) ^ (-1022 : ℤ) ≤ q * 100 := by
    refine le_trans tiny_le ?_
    have : (10 : ℚ) ^ (-4 : ℤ) ≤ 11 / 20 := by norm_num
    have h11 : (11 / 20 : ℚ) ≤ q * 100 := by linarith
    exact le_trans this h11
  have hbig : q * 100 < 2 ^ (1023 : ℤ) := by
    have a : q * 100 < 2 ^ (50 : ℤ) := by
      have : (10 : ℚ) ^ 14 < 2 ^ (50 : ℤ) := by norm_num
      linarith
    exact lt_of_lt_of_le a (zpow_le_zpow_right₀ (by norm_num) (by norm_num))
  obtain ⟨p, hp⟩ := toDouble_finite hnorm hbig
  have herr := toDouble_err hnorm hp
  have h53 : (2 : ℚ) ^ (-53 : ℤ) = 1 / 9007199254740992 := by norm_num
  have hsmall : q * 100 * 2 ^ (-53 : ℤ) < 1 / 20 := by
    rw [h53]
    have : q * 100 < 10 ^ 14 := by linarith
    linarith
  generalize q * 100 * 2 ^ (-53 : ℤ) = t at herr hsmall
  obtain ⟨e1, e2⟩ := abs_le.mp herr
  exact formatQty_of_product hp (by linarith) (by linarith)
    (lt_trans hK (by norm_num))

theorem ulp_le_succ {q : ℚ} (hq : 0 < q) : (2 : ℚ) ^ ulpExp q ≤ q + 1 := by
  unfold ulpExp
  rcases le_total (Int.log 2 q - 52) (-1074) with h | h
  · rw [max_eq_right h]
    have : (2 : ℚ) ^ (-1074 : ℤ) ≤ 2 ^ (0 : ℤ) :=
      zpow_le_zpow_right₀ (by norm_num) (by norm_num)
    rw [zpow_zero] at this
    linarith
  · rw [max_eq_left h]
    have h1 : (2 : ℚ) ^ (Int.log 2 q - 52) ≤ 2 ^ Int.log 2 q :=
      zpow_le_zpow_right₀ (by norm_num) (by omega)
    have h2 := Int.zpow_log_le_self (b := 2) (r := q) (by norm_num) hq
    have h3 : (2 : ℚ) ^ Int.log 2 q ≤ q := by simpa using h2
    linarith

/-- Below `2 ^ 1022` the double nearest to a non-negative number is finite, and at most
one more than twice the number. -/
theorem toDouble_bounded {q : ℚ} (hq : 0 ≤ q) (h : q < 2 ^ (1022 : ℤ)) :
    ∃ x, toDouble q = Num.fin x ∧ 0 ≤ x ∧ x ≤ 2 * q + 1 := by
  rcases eq_or_lt_of_le hq with h0 | hpos
  · refine ⟨0, ?_, le_refl _, by linarith⟩
    rw [← h0]
    have := toDouble_nat 0 (by norm_num)
    simpa using this
  · have herr := (abs_le.mp (@roundMag_err q)).2
    have hu := ulp_le_succ hpos
    have hb : roundMag q ≤ 2 * q + 1 := by linarith
    have h1 : (1 : ℚ) ≤ 2 ^ (1022 : ℤ) := by
      have : (2 : ℚ) ^ (0 : ℤ) ≤ 2 ^ (1022 : ℤ) :=
        zpow_le_zpow_right₀ (by norm_num) (by norm_num)
      rw [zpow_zero] at this
      exact this
    have h4 : (2 : ℚ) ^ (1024 : ℤ) = 2 ^ (1022 : ℤ) * 4 := by
      rw [show (1024 : ℤ) = 1022 + 2 by norm_num, zpow_add₀ (by norm_num : (2 : ℚ) ≠ 0)]
      norm_num
    have hlt : roundMag q < 2 ^ (1024 : ℤ) := by
      rw [h4]
      linarith
    have hx : toDouble q = Num.fin (roundMag q) := by
      rw [toDouble, if_pos hq, if_pos hlt]
    exact ⟨_, hx, toDouble_nonneg hq hx, hb⟩

/-- Every quantity from `0` to `10 ^ 12` has a whole number of hundredths next to its
double product with `100`. -/
theorem product_hundredths {q : ℚ} (hq : 0 ≤ q) (h : q * 100 < 10 ^ 14) :
    ∃ (p : ℚ) (J : ℕ), J < 10 ^ 15 ∧ toDouble (q * 100) = Num.fin p ∧
      (J : ℚ) - 1 / 2 ≤ p ∧ p < J + 1 / 2 := by
  have hq100 : 0 ≤ q * 100 := by positivity
  have hbig : q * 100 < 2 ^ (1022 : ℤ) := by
    have a : q * 100 < 2 ^ (50 : ℤ) := by
      have : (10 : ℚ) ^ 14 < 2 ^ (50 : ℤ) := by norm_num
      linarith
    exact lt_of_lt_of_le a (zpow_le_zpow_right₀ (by norm_num) (by norm_num))
  obtain ⟨p, hp, hp0, hpb⟩ := toDouble_bounded hq100 hbig
  have hf0 : 0 ≤ ⌊p + 1 / 2⌋ := Int.floor_nonneg.mpr (by linarith)
  have hcast : ((⌊p + 1 / 2⌋.toNat : ℕ) : ℤ) = ⌊p + 1 / 2⌋ := Int.toNat_of_nonneg hf0
  have hcq : ((⌊p + 1 / 2⌋.toNat : ℕ) : ℚ) = ((⌊p + 1 / 2⌋ : ℤ) : ℚ) := by
    rw [← hcast]
    push_cast
    rfl
  have f1 := Int.floor_le (p + 1 / 2)
  have f2 := Int.lt_floor_add_one (p + 1 / 2)
  refine ⟨p, ⌊p + 1 / 2⌋.toNat, ?_, hp, ?_, ?_⟩
  · have : ((⌊p + 1 / 2⌋.toNat : ℕ) : ℚ) < ((10 ^ 15 : ℕ) : ℚ) := by
      rw [hcq]
      push_cast
      linarith
    exact_mod_cast this
  · rw [hcq]; linarith
  · rw [hcq]; linarith

/-! ## Claims about quantity formatting -/

/-- C18 (the code at a failing input): the Number that `1.115` is read as is a little
less than `1.115`, so rounded to two decimal places it is `1.11`, whatever is done with a
half; its product with `100` is the double `111.5`, which `Math.round` takes up, and
`formatQty` returns `"1.12"`. -/
theorem formatQty_not_rounded :
    toDouble (1115 / 1000) = Num.fin (5021513584518103 / 4503599627370496) ∧
      formatQty (some (5021513584518103 / 4503599627370496)) = "1.12".toList ∧
      (111 : ℚ) - 1 / 2 < 5021513584518103 / 4503599627370496 * 100 ∧
      (5021513584518103 / 4503599627370496 : ℚ) * 100 < 111 + 1 / 2 ∧
      stripFraction (twoDecimals 111) = "1.11".toList := by
  have e1 : ((5021513584518103 : ℕ) : ℚ) * 2 ^ (-52 : ℤ) =
      5021513584518103 / 4503599627370496 := by norm_num
  have e2 : ((7846114975809536 : ℕ) : ℚ) * 2 ^ (-46 : ℤ) = 223 / 2 := by norm_num
  have d1 : toDouble (1115 / 1000) = Num.fin (5021513584518103 / 4503599627370496) := by
    rw [← e1]
    apply toDouble_near (by norm_num) (by norm_num) (by norm_num) (by norm_num)
    rw [abs_lt]
    constructor <;> norm_num
  have d2 : toDouble ((5021513584518103 / 4503599627370496 : ℚ) * 100) = Num.fin (223 / 2) := by
    rw [← e2]
    apply toDouble_near (by norm_num) (by norm_num) (by norm_num) (by norm_num)
    rw [abs_lt]
    constructor <;> norm_num
  refine ⟨d1, ?_, by norm_num, by norm_num, by decide⟩
  rw [@formatQty_of_product _ _ 112 d2 (by norm_num) (by norm_num) (by norm_num)]
  decide

/-- C18 (quantity formatting, as the code computes it): `formatQty(null)` is the empty
string. For a quantity `q`, let `p` be the double that the product `q * 100` is rounded
to and `K`, below `10 ^ 15`, the whole number with `K - 1/2 ≤ p < K + 1/2`: the result
is the numeral of `K` hundredths with two decimal places, its trailing fractional zeros
and a then-bare point stripped. That `K` is the number of hundredths nearest to `q`
itself whenever `q * 100` is within `9/20` of a whole number `K` from `1` to `10 ^ 14`,
and from `0` to `10 ^ 12` every quantity has such a `p` and `K`. -/
theorem formatQty_nearest (q : ℚ) (K : ℕ) (hK : K < 10 ^ 15) :
    formatQty none = [] ∧
      (∀ p, toDouble (q * 100) = Num.fin p → (K : ℚ) - 1 / 2 ≤ p → p < K + 1 / 2 →
        formatQty (some q) = stripFraction (twoDecimals K)) ∧
      (1 ≤ K → K < 10 ^ 14 → (K : ℚ) - 9 / 20 ≤ q * 100 → q * 100 ≤ K + 9 / 20 →
        formatQty (some q) = stripFraction (twoDecimals K)) ∧
      (0 ≤ q → q * 100 < 10 ^ 14 → ∃ (p : ℚ) (J : ℕ), J < 10 ^ 15 ∧
        toDouble (q * 100) = Num.fin p ∧ (J : ℚ) - 1 / 2 ≤ p ∧ p < J + 1 / 2 ∧
        formatQty (some q) = stripFraction (twoDecimals J)) := by
  refine ⟨rfl, ?_, ?_, ?_⟩
  · intro p hp h1 h2
    exact formatQty_of_product hp h1 h2 hK
  · intro hK1 hK14 h1 h2
    exact formatQty_of_exact hK1 hK14 h1 h2
  · intro hq h
    obtain ⟨p, J, hJ, hp, h1, h2⟩ := product_hundredths hq h
    exact ⟨p, J, hJ, hp, h1, h2, formatQty_of_product hp h1 h2 hJ⟩

/-- C18 at `2.00`, `2.50`, `2.004` and `2.25`: `"2"`, `"2.5"`, `"2"` and `"2.25"`;
`2.004` is read as the double `4512606826625237 / 2 ^ 51`. -/
theorem formatQty_nearest_witness :
    formatQty (some 2) = "2".toList ∧ formatQty (some (5 / 2)) = "2.5".toList ∧
      toDouble (2004 / 1000) = Num.fin (4512606826625237 / 2251799813685248) ∧
      formatQty (some (4512606826625237 / 2251799813685248)) = "2".toList ∧
      formatQty (some (9 / 4)) = "2.25".toList := by
  have e1 : ((4512606826625237 : ℕ) : ℚ) * 2 ^ (-51 : ℤ) =
      4512606826625237 / 2251799813685248 := by norm_num
  have d1 : toDouble (2004 / 1000) = Num.fin (4512606826625237 / 2251799813685248) := by
    rw [← e1]
    apply toDouble_near (by norm_num) (by norm_num) (by norm_num) (by norm_num)
    rw [abs_lt]
    constructor <;> norm_num
  refine ⟨?_, ?_, d1, ?_, ?_⟩
  · rw [(formatQty_nearest 2 200 (by norm_num)).2.2.1 (by norm_num) (by norm_num)
      (by norm_num) (by norm_num)]
    decide
  · rw [(formatQty_nearest (5 / 2) 250 (by norm_num)).2.2.1 (by norm_num) (by norm_num)
      (by norm_num) (by norm_num)]
    decide
  · rw [(formatQty_nearest (4512606826625237 / 2251799813685248) 200 (by norm_num)).2.2.1
      (by norm_num) (by norm_num) (by norm_num) (by norm_num)]
    decide
  · rw [(formatQty_nearest (9 / 4) 225 (by norm_num)).2.2.1 (by norm_num) (by norm_num)
      (by norm_num) (by norm_num)]
    decide

end Grocery
